import Mathlib

/-!
# I2CEEPROM: a shallow embedding of the AT24LC driver

The driver object, the Wire bus, the write-protect pin, the clock and the
attached chip are one explicit state; every member function of
`I2CEEPROM.cpp` is a state-passing function on it.  Machine integers are
`Nat` with an explicit `%` wherever the source narrows a value.

The bus and the clock are oracles (`Env`): the completion code of the k-th
`endTransmission`, the number of bytes the k-th `requestFrom` delivers, and
the k-th reading of `micros()`.  The polling loop of `_waitATReady` has no
bound in the source, so every function that waits takes a `fuel` and
returns `none` when the loop did not finish within it.
-/

namespace I2CEEPROM

/-! ## Compile-time configuration -/

/-- Build target selected by the `#if` at the top of I2CEEPROM.cpp. -/
inductive Build
  | esp
  | other
  deriving DecidableEq

/-- The constant `I2C_BUFFERSIZE`: 128 on ESP32 / ESP8266 / PICO_RP2040, 30 otherwise. -/
def I2C_BUFFERSIZE : Build → Nat
  | .esp => 128
  | .other => 30

/-- The enumeration `AT24LC` of I2CEEPROM.h. -/
inductive AT24LC
  | AT24LC32
  | AT24LC64
  | AT24LCC128
  | AT24LCC256
  | AT24LC512
  deriving DecidableEq

/-- The value `static_cast<uint32_t>(ATDEV)`. -/
def AT24LC.toNat : AT24LC → Nat
  | .AT24LC32 => 4096
  | .AT24LC64 => 8192
  | .AT24LCC128 => 16384
  | .AT24LCC256 => 32768
  | .AT24LC512 => 65536

/-- The function `getPageSize(AT24LC)`. -/
def getPageSize (ATDEV : AT24LC) : Nat :=
  if ATDEV.toNat ≤ 2048 then 16
  else if ATDEV.toNat ≤ 8192 then 32
  else if ATDEV.toNat ≤ 32768 then 64
  else 128

/-! ## Environment and state -/

/-- What the driver does to the outside world, in program order.  The last three
constructors are not bus traffic: they mark the entry of `_WriteBlock`, `_ReadBlock`
and `_verifyBlock` with the address and length the caller handed over. -/
inductive Event
  | pinMode (pin : Int)
  | digitalWrite (pin : Int) (high : Bool)
  | transmission (address : Nat) (bytes : List Nat) (code : Nat)
  | requestFrom (address : Nat) (quantity : Nat) (received : Nat)
  | i2cError (address : Nat) (code : Nat)
  | readMismatch (addr : Nat) (requested : Nat) (received : Nat)
  | writeBlock (addr : Nat) (length : Nat)
  | readBlock (addr : Nat) (length : Nat)
  | verifyBlock (addr : Nat) (length : Nat)
  deriving DecidableEq

/-- The oracles of one run and the chip on the bus. -/
structure Env where
  /-- Build target, fixing `I2C_BUFFERSIZE`. -/
  build : Build
  /-- The constant `I2C_WRITEDELAY` (5000 unless overridden). -/
  I2C_WRITEDELAY : Nat
  /-- The chip attached to the bus. -/
  chip : AT24LC
  /-- Value of the k-th call of `micros()`. -/
  clock : Nat → Nat
  /-- Completion code of the k-th `endTransmission()`. -/
  completion : Nat → Nat
  /-- Bytes the bus delivers on the k-th `requestFrom` of a given quantity. -/
  delivered : Nat → Nat → Nat
  /-- Content of uninitialised local storage. -/
  indeterminate : Nat → Nat

/-- The driver object together with the hardware it talks to. -/
structure State where
  _i2cAddress : Nat
  _lastWrite : Nat
  _deviceSize : Nat
  _pageSize : Nat
  _extraTWR : Nat
  _writeProtectPin : Int
  /-- Content of the chip. -/
  mem : Nat → Nat
  /-- Address counter of the chip. -/
  ptr : Nat
  /-- Wire transmit buffer and its target address. -/
  txAddress : Nat
  txBuf : List Nat
  /-- Wire receive buffer. -/
  rxBuf : List Nat
  /-- Everything done to bus, pin and logger so far. -/
  log : List Event
  /-- Number of `micros()`, `endTransmission()` and `requestFrom()` calls so far. -/
  clockReads : Nat
  ends : Nat
  requests : Nat

/-! ## The chip: a byte array with page-write semantics -/

/-- Address following `a` inside a page write: the low bits roll over within the page. -/
def nextInPage (P a : Nat) : Nat :=
  if (a + 1) % P = 0 then a + 1 - P else a + 1

/-- The chip latches the payload of a page write byte by byte. -/
def pageStore (P : Nat) : (Nat → Nat) → Nat → List Nat → (Nat → Nat) × Nat
  | m, a, [] => (m, a)
  | m, a, b :: bs => pageStore P (Function.update m a b) (nextInPage P a) bs

/-- The chip receives an acknowledged transmission: two address bytes load the
address counter, the payload that follows is a page write. -/
def chipReceive (env : Env) (s : State) : List Nat → State
  | hi :: lo :: payload =>
    let r := pageStore (getPageSize env.chip) s.mem ((hi * 256 + lo) % env.chip.toNat) payload
    { s with mem := r.1, ptr := r.2 }
  | _ => s

/-- Sequential read of `n` bytes from the address counter, rolling over at the end of the array. -/
def chipSend (env : Env) (s : State) (n : Nat) : List Nat :=
  (List.range n).map (fun i => s.mem ((s.ptr + i) % env.chip.toNat))

/-! ## Arduino primitives -/

/-- The call `micros()`, a 32-bit reading of the clock. -/
def micros (env : Env) (s : State) : Nat × State :=
  (env.clock s.clockReads % 2 ^ 32, { s with clockReads := s.clockReads + 1 })

/-- The call `digitalWrite(pin, level)`. -/
def digitalWrite (s : State) (pin : Int) (high : Bool) : State :=
  { s with log := s.log ++ [Event.digitalWrite pin high] }

/-- Append one event to the log: `logger.error(...)` and the entry marks of the block members. -/
def emit (s : State) (e : Event) : State :=
  { s with log := s.log ++ [e] }

/-- The call `_wire->beginTransmission(address)`. -/
def wireBegin (s : State) (address : Nat) : State :=
  { s with txAddress := address, txBuf := [] }

/-- The calls `_wire->write(byte)` and `_wire->write(buffer, length)`; the transport takes
every byte it is handed. -/
def wireWrite (s : State) (bytes : List Nat) : State :=
  { s with txBuf := s.txBuf ++ bytes }

/-- The call `_wire->endTransmission()`: the bus reports a completion code, and
the chip takes the bytes when the code is 0. -/
def wireEnd (env : Env) (s : State) : Nat × State :=
  let code := env.completion s.ends % 256
  let s1 := { s with ends := s.ends + 1,
                     log := s.log ++ [Event.transmission s.txAddress s.txBuf code] }
  (code, if code = 0 then chipReceive env s1 s.txBuf else s1)

/-- The call `_wire->requestFrom(address, quantity)`. -/
def wireRequestFrom (env : Env) (s : State) (address quantity : Nat) : Nat × State :=
  let n := min (env.delivered s.requests quantity) quantity
  (n, { s with requests := s.requests + 1,
               rxBuf := chipSend env s n,
               ptr := (s.ptr + n) % env.chip.toNat,
               log := s.log ++ [Event.requestFrom address quantity n] })

/-- The call `_wire->read()`: the next received byte, or `none` for the `-1` that an empty
receive buffer gives. -/
def wireRead (s : State) : Option Nat × State :=
  match s.rxBuf with
  | [] => (none, s)
  | b :: bs => (some b, { s with rxBuf := bs })

/-! ## The driver -/

/-- The constructor: a fresh driver on a chip holding `mem`. -/
def new (mem : Nat → Nat) (i2cAddress : Nat) (ATDEV : AT24LC) (writeProtectPin : Int) : State :=
  { _i2cAddress := i2cAddress % 256
    _lastWrite := 0
    _deviceSize := ATDEV.toNat
    _pageSize := getPageSize ATDEV
    _extraTWR := 0
    _writeProtectPin := writeProtectPin
    mem := mem
    ptr := 0
    txAddress := 0
    txBuf := []
    rxBuf := []
    log := if writeProtectPin > -1 then
             [Event.pinMode writeProtectPin, Event.digitalWrite writeProtectPin true]
           else []
    clockReads := 0
    ends := 0
    requests := 0 }

/-- Modelled from the spec: `isValidAddress` of StorageBase.h, which is not part of
the sources; the spec says it validates `addr + length ≤ capacity`. -/
def isValidAddress (s : State) (addr length : Nat) : Bool :=
  decide (addr + length ≤ s._deviceSize)

/-- The member `isConnected()`. -/
def isConnected (env : Env) (s : State) : Bool × State :=
  let r := wireEnd env (wireBegin s s._i2cAddress)
  (r.1 == 0, r.2)

/-- The member `setExtraWriteCycleTime(ms)`. -/
def setExtraWriteCycleTime (s : State) (ms : Nat) : State :=
  { s with _extraTWR := ms % 256 }

/-- The member `_beginTransmission(addr)`. -/
def _beginTransmission (s : State) (addr : Nat) : State :=
  let s1 := if s._writeProtectPin > -1 then digitalWrite s s._writeProtectPin false else s
  let s2 := wireBegin s1 s._i2cAddress
  let s3 := wireWrite s2 [addr / 256 % 256]
  wireWrite s3 [addr % 256]

/-- The member `_endTransmission()`. -/
def _endTransmission (env : Env) (s : State) : Nat × State :=
  let r := wireEnd env s
  let s1 := if r.2._writeProtectPin > -1 then digitalWrite r.2 r.2._writeProtectPin true else r.2
  (r.1, if r.1 ≠ 0 then emit s1 (Event.i2cError s1._i2cAddress r.1) else s1)

/-- The member `_waitATReady()`: one unit of fuel per pass of the polling loop. -/
def _waitATReady (env : Env) : Nat → State → Option State
  | 0, _ => none
  | fuel + 1, s =>
    let waitTime := (env.I2C_WRITEDELAY + s._extraTWR * 1000) % 2 ^ 32
    let t := micros env s
    if (t.1 + 2 ^ 32 - s._lastWrite) % 2 ^ 32 ≤ waitTime then
      let c := isConnected env t.2
      if c.1 then some c.2 else _waitATReady env fuel c.2
    else some t.2

/-- The member `_WriteBlock(addr, buffer, length)`; `buffer` points at offset `pos` of `buf`.
The entry is marked in the log before the first statement runs. -/
def _WriteBlock (env : Env) (fuel : Nat) (s : State) (addr : Nat) (buf : Nat → Nat)
    (pos length : Nat) : Option (Nat × State) :=
  match _waitATReady env fuel (emit s (Event.writeBlock addr length)) with
  | none => none
  | some s1 =>
    let s2 := _beginTransmission s1 addr
    let s3 := wireWrite s2 ((List.range length).map (fun i => buf (pos + i)))
    let r := _endTransmission env s3
    let t := micros env r.2
    some (r.1, { t.2 with _lastWrite := t.1 })

/-- The copy loop of `_ReadBlock`: `buffer[count++] = _wire->read()` while `count < readBytes`;
the first argument counts the passes left, and a `-1` is stored as 255. -/
def readLoop (pos : Nat) : Nat → Nat → State → (Nat → Nat) → State × (Nat → Nat)
  | 0, _, s, out => (s, out)
  | n + 1, count, s, out =>
    let r := wireRead s
    readLoop pos n (count + 1) r.2 (Function.update out (pos + count) (r.1.getD 255))

/-- The member `_ReadBlock(addr, buffer, length)`; `buffer` points at offset `pos` of `out`.
The entry is marked in the log before the first statement runs. -/
def _ReadBlock (env : Env) (fuel : Nat) (s : State) (addr : Nat) (out : Nat → Nat)
    (pos length : Nat) : Option (Nat × (Nat → Nat) × State) :=
  match _waitATReady env fuel (emit s (Event.readBlock addr length)) with
  | none => none
  | some s1 =>
    let r := _endTransmission env (_beginTransmission s1 addr)
    if r.1 ≠ 0 then some (0, out, r.2)
    else
      let q := wireRequestFrom env r.2 r.2._i2cAddress length
      let readBytes := q.1 % 256
      let s2 := if readBytes ≠ length then emit q.2 (Event.readMismatch addr length readBytes)
                else q.2
      let c := readLoop pos readBytes 0 s2 out
      some (readBytes, c.2, c.1)

/-- The compare loop of `_verifyBlock`: false at the first byte that differs; the first
argument counts the passes left. -/
def verifyLoop (buf : Nat → Nat) (pos : Nat) : Nat → Nat → State → Bool × State
  | 0, _, s => (true, s)
  | n + 1, count, s =>
    let r := wireRead s
    if some (buf (pos + count)) ≠ r.1 then (false, r.2)
    else verifyLoop buf pos n (count + 1) r.2

/-- The member `_verifyBlock(addr, buffer, length)`; `buffer` points at offset `pos` of `buf`.
The entry is marked in the log before the first statement runs. -/
def _verifyBlock (env : Env) (fuel : Nat) (s : State) (addr : Nat) (buf : Nat → Nat)
    (pos length : Nat) : Option (Bool × State) :=
  match _waitATReady env fuel (emit s (Event.verifyBlock addr length)) with
  | none => none
  | some s1 =>
    let r := _endTransmission env (_beginTransmission s1 addr)
    if r.1 ≠ 0 then some (false, r.2)
    else
      let q := wireRequestFrom env r.2 r.2._i2cAddress length
      let readBytes := q.1 % 256
      some (verifyLoop buf pos readBytes 0 q.2)

/-- The loop of `_writeArray`, one unit of fuel per pass; `address` and `len` are the
16-bit locals, `pos` the offset of `buffer` in `buf`. -/
def writeLoop (env : Env) (fuel : Nat) (buf : Nat → Nat) (incrBuffer : Bool) :
    Nat → State → Nat → Nat → Nat → Option (Bool × State)
  | 0, _, _, _, _ => none
  | k + 1, s, address, len, pos =>
    if len > 0 then
      let bytesUntilPageBoundary := (s._pageSize - address % s._pageSize) % 256
      let count := I2C_BUFFERSIZE env.build % 256
      let count := if count > len then len else count
      let count := if count > bytesUntilPageBoundary then bytesUntilPageBoundary else count
      match _WriteBlock env fuel s address buf pos count with
      | none => none
      | some (ret, s1) =>
        if ret ≠ 0 then some (false, s1)
        else writeLoop env fuel buf incrBuffer k s1 ((address + count) % 65536) (len - count)
               (if incrBuffer then pos + count else pos)
    else some (true, s)

/-- The member `_writeArray(addr, buffer, length, incrBuffer)`. -/
def _writeArray (env : Env) (fuel : Nat) (s : State) (addr : Nat) (buf : Nat → Nat)
    (pos length : Nat) (incrBuffer : Bool) : Option (Bool × State) :=
  writeLoop env fuel buf incrBuffer fuel s (addr % 65536) (length % 65536) pos

/-- The loop of `verifyArray`. -/
def verifyArrayLoop (env : Env) (fuel : Nat) (buf : Nat → Nat) :
    Nat → State → Nat → Nat → Nat → Option (Bool × State)
  | 0, _, _, _, _ => none
  | k + 1, s, address, len, pos =>
    if len > 0 then
      let count := I2C_BUFFERSIZE env.build % 256
      let count := if count > len then len else count
      match _verifyBlock env fuel s address buf pos count with
      | none => none
      | some (ok, s1) =>
        if ok = false then some (false, s1)
        else verifyArrayLoop env fuel buf k s1 ((address + count) % 65536) (len - count)
               (pos + count)
    else some (true, s)

/-- The member `verifyArray(addr, buffer, length)`. -/
def verifyArray (env : Env) (fuel : Nat) (s : State) (addr : Nat) (buf : Nat → Nat)
    (pos length : Nat) : Option (Bool × State) :=
  verifyArrayLoop env fuel buf fuel s (addr % 65536) (length % 65536) pos

/-- The member `readu8(addr)`; the local `rdata` starts indeterminate. -/
def readu8 (env : Env) (fuel : Nat) (s : State) (addr : Nat) : Option (Nat × State) :=
  if !isValidAddress s addr 1 then some (0, s)
  else
    match _ReadBlock env fuel s addr env.indeterminate 0 1 with
    | none => none
    | some (_, rdata, s1) => some (rdata 0, s1)

/-- The member `writeu8(addr, data)`. -/
def writeu8 (env : Env) (fuel : Nat) (s : State) (addr data : Nat) : Option (Bool × State) :=
  if !isValidAddress s addr 1 then some (false, s)
  else
    match _WriteBlock env fuel s addr (fun _ => data) 0 1 with
    | none => none
    | some (_, s1) => _verifyBlock env fuel s1 addr (fun _ => data) 0 1

/-- The member `updateu8(addr, val)`. -/
def updateu8 (env : Env) (fuel : Nat) (s : State) (addr val : Nat) : Option (Bool × State) :=
  if !isValidAddress s addr 1 then some (false, s)
  else
    match readu8 env fuel s addr with
    | none => none
    | some (r, s1) => if val = r then some (true, s1) else writeu8 env fuel s1 addr val

/-- The member `format(v)`: `uint8_t buffer[I2C_BUFFERSIZE]{v}` sets element 0 to `v`
and value-initialises the others to 0. -/
def format (env : Env) (fuel : Nat) (s : State) (v : Nat) : Option (Bool × State) :=
  _writeArray env fuel s 0 (fun i => if i = 0 then v else 0) 0 s._deviceSize false

/-- The loop of `readArray`. -/
def readArrayLoop (env : Env) (fuel : Nat) :
    Nat → State → Nat → Nat → (Nat → Nat) → Nat → Option (Nat × (Nat → Nat) × State)
  | 0, _, _, _, _, _ => none
  | k + 1, s, address, len, out, pos =>
    if len > 0 then
      let count := I2C_BUFFERSIZE env.build % 256
      let count := if count > len then len else count
      match _ReadBlock env fuel s address out pos count with
      | none => none
      | some (_, out1, s1) =>
        readArrayLoop env fuel k s1 ((address + count) % 65536) (len - count) out1 (pos + count)
    else some (pos, out, s)

/-- The member `readArray(addr, buffer, length)`: `none` is the null pointer, `some p`
the pointer `buffer + p`; the second component is the memory `buffer` points into. -/
def readArray (env : Env) (fuel : Nat) (s : State) (addr : Nat) (out : Nat → Nat)
    (length : Nat) : Option (Option Nat × (Nat → Nat) × State) :=
  if !isValidAddress s addr length then some (none, out, s)
  else
    match readArrayLoop env fuel fuel s (addr % 65536) (length % 65536) out 0 with
    | none => none
    | some (p, out1, s1) => some (some p, out1, s1)

/-- The member `writeArray(addr, buffer, length)`. -/
def writeArray (env : Env) (fuel : Nat) (s : State) (addr : Nat) (buf : Nat → Nat)
    (length : Nat) : Option (Bool × State) :=
  if !isValidAddress s addr length then some (false, s)
  else
    match _writeArray env fuel s addr buf 0 length true with
    | none => none
    | some (_, s1) => verifyArray env fuel s1 addr buf 0 length

/-- The comparison `memcmp(buffer, buf, count) != 0` of `updateArray`. -/
def memcmpNe (buf : Nat → Nat) (pos : Nat) (tmp : Nat → Nat) (count : Nat) : Bool :=
  (List.range count).any (fun i => buf (pos + i) != tmp i)

/-- The loop of `updateArray`; it yields the final `buffer` offset and `len`. -/
def updateLoop (env : Env) (fuel : Nat) (buf : Nat → Nat) :
    Nat → State → Nat → Nat → Nat → Option (Nat × Nat × State)
  | 0, _, _, _, _ => none
  | k + 1, s, address, len, pos =>
    if len > 0 then
      let count := I2C_BUFFERSIZE env.build % 256
      let count := if count > len then len else count
      match _ReadBlock env fuel s address env.indeterminate 0 count with
      | none => none
      | some (_, tmp, s1) =>
        if memcmpNe buf pos tmp count then
          match _writeArray env fuel s1 address buf pos count true with
          | none => none
          | some (_, s2) =>
            updateLoop env fuel buf k s2 ((address + count) % 65536) (len - count) (pos + count)
        else
          updateLoop env fuel buf k s1 ((address + count) % 65536) (len - count) (pos + count)
    else some (pos, len, s)

/-- The member `updateArray(addr, buffer, length)`: the trailing call is
`verifyArray(addr, buffer, len)` with the advanced `buffer` and the remaining `len`. -/
def updateArray (env : Env) (fuel : Nat) (s : State) (addr : Nat) (buf : Nat → Nat)
    (length : Nat) : Option (Bool × State) :=
  if !isValidAddress s addr length then some (false, s)
  else
    match updateLoop env fuel buf fuel s (addr % 65536) (length % 65536) 0 with
    | none => none
    | some (pos, len, s1) => verifyArray env fuel s1 addr buf pos len

/-! ## Observations on a run -/

/-- Entry marks of the three block members. -/
def Event.isCall : Event → Bool
  | .writeBlock _ _ => true
  | .readBlock _ _ => true
  | .verifyBlock _ _ => true
  | _ => false

/-- A write transaction on the bus: a transmission that carries payload after the two
address bytes. -/
def Event.isPayload : Event → Bool
  | .transmission _ bytes _ => decide (2 < bytes.length)
  | _ => false

/-- Events appended to the log between `s` and `s'`. -/
def newEvents (s s' : State) : List Event :=
  s'.log.drop s.log.length

/-- Number of write transactions on the bus between `s` and `s'`. -/
def payloads (s s' : State) : Nat :=
  ((newEvents s s').filter Event.isPayload).length

/-- The state `s'` is reached from `s`: the configuration of the driver is the same and the
log grew by events whose block calls are `cs`. -/
def Reaches (s s' : State) (cs : List Event) : Prop :=
  s'._i2cAddress = s._i2cAddress ∧ s'._deviceSize = s._deviceSize ∧
  s'._pageSize = s._pageSize ∧ s'._extraTWR = s._extraTWR ∧
  s'._writeProtectPin = s._writeProtectPin ∧
  ∃ evs, s'.log = s.log ++ evs ∧ evs.filter Event.isCall = cs

/-- A run from `s` to `s'` that left the content of the chip and `_lastWrite` alone and put
no write transaction on the bus. -/
def Quiet (s s' : State) (cs : List Event) : Prop :=
  Reaches s s' cs ∧ s'.mem = s.mem ∧ s'._lastWrite = s._lastWrite ∧ payloads s s' = 0

/-- Every transmission is acknowledged. -/
def Env.acks (env : Env) : Prop := ∀ k, env.completion k = 0

/-- Every read request is served in full. -/
def Env.full (env : Env) : Prop := ∀ k q, env.delivered k q = q

/-- The driver was constructed for the chip that is on the bus. -/
def Attached (env : Env) (s : State) : Prop :=
  s._deviceSize = env.chip.toNat ∧ s._pageSize = getPageSize env.chip

/-- The value of the local `count` after the clamps of the read, verify and update loops. -/
def readCount (b : Build) (len : Nat) : Nat :=
  if I2C_BUFFERSIZE b % 256 > len then len else I2C_BUFFERSIZE b % 256

/-- The value of the local `count` after the clamps of `_writeArray`. -/
def writeCount (b : Build) (P address len : Nat) : Nat :=
  if readCount b len > (P - address % P) % 256 then (P - address % P) % 256 else readCount b len

/-- The (address, count) pairs the loop of `_writeArray` works through when no block fails. -/
def writeChunks (b : Build) (P : Nat) : Nat → Nat → Nat → List (Nat × Nat)
  | 0, _, _ => []
  | k + 1, address, len =>
    if len > 0 then
      (address, writeCount b P address len) ::
        writeChunks b P k ((address + writeCount b P address len) % 65536)
          (len - writeCount b P address len)
    else []

/-- The (address, count) pairs the loops of `readArray`, `verifyArray` and `updateArray`
work through. -/
def readChunks (b : Build) : Nat → Nat → Nat → List (Nat × Nat)
  | 0, _, _ => []
  | k + 1, address, len =>
    if len > 0 then
      (address, readCount b len) ::
        readChunks b k ((address + readCount b len) % 65536) (len - readCount b len)
    else []

/-- The entry mark of `_WriteBlock` for a chunk. -/
def mkWrite (c : Nat × Nat) : Event := Event.writeBlock c.1 c.2

/-- The entry mark of `_ReadBlock` for a chunk. -/
def mkRead (c : Nat × Nat) : Event := Event.readBlock c.1 c.2

/-- The entry mark of `_verifyBlock` for a chunk. -/
def mkVerify (c : Nat × Nat) : Event := Event.verifyBlock c.1 c.2

/-- The calls of `_WriteBlock` between `s` and `s'`, as (address, length). -/
def writeCalls (s s' : State) : List (Nat × Nat) :=
  (newEvents s s').filterMap (fun e =>
    match e with
    | .writeBlock a n => some (a, n)
    | _ => none)

/-- The calls of `_ReadBlock` between `s` and `s'`, as (address, length). -/
def readCalls (s s' : State) : List (Nat × Nat) :=
  (newEvents s s').filterMap (fun e =>
    match e with
    | .readBlock a n => some (a, n)
    | _ => none)

/-- The start addresses of a chunk list follow one another from `a`, each chunk starting where
the one before ended (in 16-bit arithmetic). -/
def Consecutive : Nat → List (Nat × Nat) → Prop
  | _, [] => True
  | a, c :: rest => c.1 = a ∧ Consecutive ((a + c.2) % 65536) rest

/-! ## Concrete environments -/

/-- A bus that acknowledges every transmission and serves every read in full; the clock
advances 10 µs per reading. -/
def idealEnv (b : Build) (c : AT24LC) : Env :=
  { build := b
    I2C_WRITEDELAY := 5000
    chip := c
    clock := fun k => 10 * k
    completion := fun _ => 0
    delivered := fun _ q => q
    indeterminate := fun _ => 0 }

/-- A bus on which the transmission number `nackAt` ends with completion code 2 and a read
request of `q` bytes delivers `served q`; 10 ms pass between two readings of the clock, so
`_waitATReady` never probes. -/
def faultyEnv (b : Build) (c : AT24LC) (nackAt : Nat) (served : Nat → Nat) : Env :=
  { build := b
    I2C_WRITEDELAY := 5000
    chip := c
    clock := fun k => 10000 * (k + 1)
    completion := fun k => if k = nackAt then 2 else 0
    delivered := fun _ q => served q
    indeterminate := fun _ => 0 }

/-! ## Observations for the timing gate, the wire format and the write-protect line -/

/-- The difference `micros() - _lastWrite` in 32-bit unsigned arithmetic. -/
def elapsed (now last : Nat) : Nat :=
  (now + 2 ^ 32 - last) % 2 ^ 32

/-- The presence probe of `isConnected()` as it appears in the log. -/
def probeEvent (i2c : Nat) (code : Nat) : Event :=
  Event.transmission i2c [] code

/-- The body of `getPageSize(AT24LC)` on the underlying `uint32_t` value of its argument. -/
def pageSizeOfValue (v : Nat) : Nat :=
  if v ≤ 2048 then 16
  else if v ≤ 8192 then 32
  else if v ≤ 32768 then 64
  else 128

/-- A transmission that carries bytes: every transmission except the presence probe. -/
def Event.isAddressed : Event → Bool
  | .transmission _ bytes _ => !bytes.isEmpty
  | _ => false

/-- The transmissions with bytes between `s` and `s'`. -/
def addressed (s s' : State) : List Event :=
  (newEvents s s').filter Event.isAddressed

/-- The `digitalWrite` that `_beginTransmission` and `_endTransmission` make when a
write-protect pin is configured. -/
def pinEvents (pin : Int) (high : Bool) : List Event :=
  if pin > -1 then [Event.digitalWrite pin high] else []

/-- The `logger.error` of `_endTransmission` for a completion code. -/
def errorEvents (i2c : Nat) (code : Nat) : List Event :=
  if code ≠ 0 then [Event.i2cError i2c code] else []

/-- The header bytes `addr >> 8` and `addr & 0xFF` of `_beginTransmission`. -/
def header (addr : Nat) : List Nat :=
  [addr / 256 % 256, addr % 256]

/-- The bytes `buffer[0 .. length)` that `_WriteBlock` hands to `_wire->write`. -/
def payloadOf (buf : Nat → Nat) (pos length : Nat) : List Nat :=
  (List.range length).map (fun i => buf (pos + i))

/-- The return value of the k-th `requestFrom` for `length` bytes. -/
def received (env : Env) (k length : Nat) : Nat :=
  min (env.delivered k length) length

/-- The `logger.error` of `_ReadBlock` for a short read. -/
def mismatchEvents (addr length readBytes : Nat) : List Event :=
  if readBytes ≠ length then [Event.readMismatch addr length readBytes] else []

/-- The local `waitTime` of `_waitATReady`. -/
def waitTime (env : Env) (s : State) : Nat :=
  (env.I2C_WRITEDELAY + s._extraTWR * 1000) % 2 ^ 32

/-- The last pass of the loop of `_waitATReady`, begun in state `s0` and left in state `s'`:
either the clock reading showed more than `delay` since `last` and nothing else was done, or
it did not and the presence probe that followed was acknowledged. -/
def GateOpen (env : Env) (delay last : Nat) (s0 s' : State) : Prop :=
  (delay < elapsed (env.clock s0.clockReads % 2 ^ 32) last ∧ s' = (micros env s0).2 ∧
    s'.log = s0.log) ∨
  (elapsed (env.clock s0.clockReads % 2 ^ 32) last ≤ delay ∧
    (isConnected env (micros env s0).2).1 = true ∧
    s' = (isConnected env (micros env s0).2).2 ∧
    s'.log = s0.log ++ [probeEvent s0._i2cAddress 0])

/-- An event on a pin: `pinMode` or `digitalWrite`. -/
def Event.isPin : Event → Bool
  | .pinMode _ => true
  | .digitalWrite _ _ => true
  | _ => false

/-- One step of a run as seen on bus, pin and logger: a single event, or a transmission
between the `digitalWrite` of `_beginTransmission` and that of `_endTransmission`. -/
inductive Step
  | plain (e : Event)
  | gatedTx (address : Nat) (bytes : List Nat) (code : Nat)

/-- A plain step is neither a pin event nor a transmission with bytes; a gated transmission
carries bytes. -/
def Step.wellFormed : Step → Bool
  | .plain e => !e.isPin && !e.isAddressed
  | .gatedTx _ bytes _ => !bytes.isEmpty

/-- The events of a step for a driver whose write-protect pin is `pin`. -/
def Step.events (pin : Int) : Step → List Event
  | .plain e => [e]
  | .gatedTx a bytes c =>
    pinEvents pin false ++ [Event.transmission a bytes c] ++ pinEvents pin true

/-- The events are a sequence of well-formed steps: the pin is written only immediately
before and immediately after a transmission with bytes, low before and high after, and
every transmission with bytes is framed so. -/
def Gated (pin : Int) (evs : List Event) : Prop :=
  ∃ steps : List Step, steps.all Step.wellFormed = true ∧ evs = steps.flatMap (Step.events pin)

/-- The run from `s` to `s'` kept the pin number and appended a gated sequence of events. -/
def Shaped (s s' : State) : Prop :=
  s'._writeProtectPin = s._writeProtectPin ∧
  ∃ evs, s'.log = s.log ++ evs ∧ Gated s._writeProtectPin evs

/-- Level of the line `pin` after the events of `log`, starting from level `init`: the level
of the last `digitalWrite` on the pin. -/
def lineAfter (pin : Int) (init : Bool) (log : List Event) : Bool :=
  log.foldl (fun lvl e =>
    match e with
    | .digitalWrite p h => if p = pin then h else lvl
    | _ => lvl) init

/-- The write-protect line invariant between `s` and `s'`: with a pin configured, a line
that was high at `s` is high at `s'`; without one, no pin event was added. -/
def LineKept (s s' : State) : Prop :=
  (s._writeProtectPin > -1 → lineAfter s._writeProtectPin false s.log = true →
    lineAfter s._writeProtectPin false s'.log = true) ∧
  (¬ s._writeProtectPin > -1 → ∀ e, e ∈ newEvents s s' → e.isPin = false)

/-- The completion code of a write transaction (a transmission with payload after the two
address bytes); `none` for every other event. -/
def Event.writeCode : Event → Option Nat
  | .transmission _ bytes c => if 2 < bytes.length then some c else none
  | _ => none

/-- The completion codes of the write transactions between `s` and `s'`, in order. -/
def writeCodes (s s' : State) : List Nat :=
  (newEvents s s').filterMap Event.writeCode

/-! ## Frame lemmas -/

theorem Reaches.here (s : State) : Reaches s s [] :=
  ⟨rfl, rfl, rfl, rfl, rfl, [], by simp, rfl⟩

theorem Reaches.andThen {s s1 s2 : State} {c1 c2 : List Event}
    (h1 : Reaches s s1 c1) (h2 : Reaches s1 s2 c2) : Reaches s s2 (c1 ++ c2) := by
  obtain ⟨a1, a2, a3, a4, a5, e1, l1, f1⟩ := h1
  obtain ⟨b1, b2, b3, b4, b5, e2, l2, f2⟩ := h2
  refine ⟨b1.trans a1, b2.trans a2, b3.trans a3, b4.trans a4, b5.trans a5, e1 ++ e2, ?_, ?_⟩
  · rw [l2, l1, List.append_assoc]
  · rw [List.filter_append, f1, f2]

theorem newEvents_of_log (s s' : State) (evs : List Event) (h : s'.log = s.log ++ evs) :
    newEvents s s' = evs := by
  simp [newEvents, h]

theorem payloads_of_log (s s' : State) (evs : List Event) (h : s'.log = s.log ++ evs) :
    payloads s s' = (evs.filter Event.isPayload).length := by
  rw [payloads, newEvents_of_log s s' evs h]

theorem payloads_of_log_eq (s s' : State) (h : s'.log = s.log) : payloads s s' = 0 := by
  rw [payloads_of_log s s' [] (by simp [h])]
  rfl

theorem payloads_andThen {s s1 s2 : State} {c1 c2 : List Event}
    (h1 : Reaches s s1 c1) (h2 : Reaches s1 s2 c2) :
    payloads s s2 = payloads s s1 + payloads s1 s2 := by
  obtain ⟨-, -, -, -, -, e1, l1, -⟩ := h1
  obtain ⟨-, -, -, -, -, e2, l2, -⟩ := h2
  rw [payloads_of_log s s1 e1 l1, payloads_of_log s1 s2 e2 l2,
    payloads_of_log s s2 (e1 ++ e2) (by rw [l2, l1, List.append_assoc]), List.filter_append,
    List.length_append]

theorem Quiet.still (s : State) : Quiet s s [] :=
  ⟨Reaches.here s, rfl, rfl, payloads_of_log_eq s s rfl⟩

theorem Quiet.followedBy {s s1 s2 : State} {c1 c2 : List Event}
    (h1 : Quiet s s1 c1) (h2 : Quiet s1 s2 c2) : Quiet s s2 (c1 ++ c2) :=
  ⟨h1.1.andThen h2.1, h2.2.1.trans h1.2.1, h2.2.2.1.trans h1.2.2.1, by
    rw [payloads_andThen h1.1 h2.1, h1.2.2.2, h2.2.2.2]⟩

theorem Quiet.trans_nil {s s1 s2 : State} {c : List Event}
    (h1 : Quiet s s1 []) (h2 : Quiet s1 s2 c) : Quiet s s2 c := by
  simpa using h1.followedBy h2

theorem Quiet.trans_nil_right {s s1 s2 : State} {c : List Event}
    (h1 : Quiet s s1 c) (h2 : Quiet s1 s2 []) : Quiet s s2 c := by
  simpa using h1.followedBy h2

theorem isPayload_of_isCall (e : Event) (h : e.isCall = true) : e.isPayload = false := by
  cases e <;> simp_all [Event.isCall, Event.isPayload]

theorem quiet_emit_call (s : State) (e : Event) (h : e.isCall = true) :
    Quiet s (emit s e) [e] :=
  ⟨⟨rfl, rfl, rfl, rfl, rfl, [e], rfl, by simp [List.filter, h]⟩, rfl, rfl, by
    rw [payloads_of_log s (emit s e) [e] rfl]
    simp [List.filter, isPayload_of_isCall e h]⟩

theorem quiet_emit (s : State) (e : Event) (h : e.isCall = false) (hp : e.isPayload = false) :
    Quiet s (emit s e) [] :=
  ⟨⟨rfl, rfl, rfl, rfl, rfl, [e], rfl, by simp [List.filter, h]⟩, rfl, rfl, by
    rw [payloads_of_log s (emit s e) [e] rfl]
    simp [List.filter, hp]⟩

theorem quiet_digitalWrite (s : State) (pin : Int) (b : Bool) :
    Quiet s (digitalWrite s pin b) [] :=
  ⟨⟨rfl, rfl, rfl, rfl, rfl, [Event.digitalWrite pin b], rfl, by simp [Event.isCall]⟩, rfl, rfl,
    by
      rw [payloads_of_log s (digitalWrite s pin b) [Event.digitalWrite pin b] rfl]
      rfl⟩

theorem quiet_wireBegin (s : State) (a : Nat) : Quiet s (wireBegin s a) [] :=
  ⟨⟨rfl, rfl, rfl, rfl, rfl, [], by simp [wireBegin], rfl⟩, rfl, rfl,
    payloads_of_log_eq _ _ rfl⟩

theorem quiet_wireWrite (s : State) (l : List Nat) : Quiet s (wireWrite s l) [] :=
  ⟨⟨rfl, rfl, rfl, rfl, rfl, [], by simp [wireWrite], rfl⟩, rfl, rfl,
    payloads_of_log_eq _ _ rfl⟩

theorem quiet_micros (env : Env) (s : State) : Quiet s (micros env s).2 [] :=
  ⟨⟨rfl, rfl, rfl, rfl, rfl, [], by simp [micros], rfl⟩, rfl, rfl,
    payloads_of_log_eq _ _ rfl⟩

theorem quiet_wireRead (s : State) : Quiet s (wireRead s).2 [] := by
  unfold wireRead
  split
  · exact Quiet.still s
  · exact ⟨⟨rfl, rfl, rfl, rfl, rfl, [], by simp, rfl⟩, rfl, rfl, payloads_of_log_eq _ _ rfl⟩

theorem quiet_wireRequestFrom (env : Env) (s : State) (a q : Nat) :
    Quiet s (wireRequestFrom env s a q).2 [] :=
  ⟨⟨rfl, rfl, rfl, rfl, rfl, _, rfl, by simp [Event.isCall]⟩, rfl, rfl, by
    rw [payloads_of_log s (wireRequestFrom env s a q).2 [Event.requestFrom a q _] rfl]
    rfl⟩

theorem reaches_chipReceive (env : Env) (s : State) (l : List Nat) :
    Reaches s (chipReceive env s l) [] := by
  unfold chipReceive
  split
  · exact ⟨rfl, rfl, rfl, rfl, rfl, [], by simp, rfl⟩
  · exact Reaches.here s

theorem reaches_wireEnd (env : Env) (s : State) : Reaches s (wireEnd env s).2 [] := by
  have h1 : ∀ c, Reaches s { s with
      ends := s.ends + 1
      log := s.log ++ [Event.transmission s.txAddress s.txBuf c] } [] :=
    fun c => ⟨rfl, rfl, rfl, rfl, rfl, _, rfl, by simp [Event.isCall]⟩
  unfold wireEnd
  simp only
  split
  · simpa using (h1 _).andThen (reaches_chipReceive env _ s.txBuf)
  · exact h1 _

theorem chipReceive_short (env : Env) (s : State) (l : List Nat) (h : l.length ≤ 2) :
    (chipReceive env s l).mem = s.mem ∧ (chipReceive env s l)._lastWrite = s._lastWrite := by
  match l, h with
  | [], _ => exact ⟨rfl, rfl⟩
  | [_], _ => exact ⟨rfl, rfl⟩
  | [_, _], _ => exact ⟨rfl, rfl⟩

theorem chipReceive_log (env : Env) (s : State) (l : List Nat) :
    (chipReceive env s l).log = s.log := by
  unfold chipReceive
  split <;> rfl

theorem wireEnd_log (env : Env) (s : State) :
    (wireEnd env s).2.log =
      s.log ++ [Event.transmission s.txAddress s.txBuf (env.completion s.ends % 256)] := by
  unfold wireEnd
  simp only
  split
  · rw [chipReceive_log]
  · rfl

theorem payloads_wireEnd (env : Env) (s : State) :
    payloads s (wireEnd env s).2 = if 2 < s.txBuf.length then 1 else 0 := by
  rw [payloads_of_log s _ _ (wireEnd_log env s)]
  by_cases h : 2 < s.txBuf.length <;> simp [List.filter, Event.isPayload, h]

theorem quiet_wireEnd (env : Env) (s : State) (h : s.txBuf.length ≤ 2) :
    Quiet s (wireEnd env s).2 [] := by
  have hp : payloads s (wireEnd env s).2 = 0 := by
    rw [payloads_wireEnd, if_neg (by omega)]
  have hm : (wireEnd env s).2.mem = s.mem ∧ (wireEnd env s).2._lastWrite = s._lastWrite := by
    unfold wireEnd
    simp only
    split
    · exact chipReceive_short env _ _ h
    · exact ⟨rfl, rfl⟩
  exact ⟨reaches_wireEnd env s, hm.1, hm.2, hp⟩

theorem quiet_isConnected (env : Env) (s : State) : Quiet s (isConnected env s).2 [] := by
  unfold isConnected
  exact (quiet_wireBegin s _).trans_nil (quiet_wireEnd env _ (by simp [wireBegin]))

theorem quiet_beginTransmission (s : State) (addr : Nat) :
    Quiet s (_beginTransmission s addr) [] := by
  unfold _beginTransmission
  simp only
  refine Quiet.trans_nil ?_ ((quiet_wireBegin _ _).trans_nil
    ((quiet_wireWrite _ _).trans_nil (quiet_wireWrite _ _)))
  split
  · exact quiet_digitalWrite _ _ _
  · exact Quiet.still s

theorem beginTransmission_txBuf (s : State) (addr : Nat) :
    (_beginTransmission s addr).txBuf = [addr / 256 % 256, addr % 256] := by
  simp [_beginTransmission, wireWrite, wireBegin]

theorem reaches_endTransmission (env : Env) (s : State) :
    Reaches s (_endTransmission env s).2 [] := by
  unfold _endTransmission
  simp only
  have h1 := reaches_wireEnd env s
  have h2 : Reaches s (if (wireEnd env s).2._writeProtectPin > -1 then
      digitalWrite (wireEnd env s).2 (wireEnd env s).2._writeProtectPin true
      else (wireEnd env s).2) [] := by
    split
    · simpa using h1.andThen (quiet_digitalWrite _ _ _).1
    · exact h1
  split
  · simpa using h2.andThen (quiet_emit _ (Event.i2cError _ _) rfl rfl).1
  · exact h2

theorem quiet_endTransmission (env : Env) (s : State) (h : s.txBuf.length ≤ 2) :
    Quiet s (_endTransmission env s).2 [] := by
  unfold _endTransmission
  simp only
  have h1 := quiet_wireEnd env s h
  have h2 : Quiet s (if (wireEnd env s).2._writeProtectPin > -1 then
      digitalWrite (wireEnd env s).2 (wireEnd env s).2._writeProtectPin true
      else (wireEnd env s).2) [] := by
    split
    · exact h1.trans_nil (quiet_digitalWrite _ _ _)
    · exact h1
  split
  · exact h2.trans_nil (quiet_emit _ (Event.i2cError _ _) rfl rfl)
  · exact h2

theorem quiet_waitATReady (env : Env) :
    ∀ (fuel : Nat) (s s' : State), _waitATReady env fuel s = some s' → Quiet s s' [] := by
  intro fuel
  induction fuel with
  | zero => intro s s' h; simp [_waitATReady] at h
  | succ n ih =>
    intro s s' h
    unfold _waitATReady at h
    simp only at h
    split at h
    · split at h
      · cases h
        exact (quiet_micros env s).trans_nil (quiet_isConnected env _)
      · exact (quiet_micros env s).trans_nil ((quiet_isConnected env _).trans_nil (ih _ _ h))
    · cases h
      exact quiet_micros env s

theorem reaches_WriteBlock (env : Env) (fuel : Nat) (s : State) (addr : Nat) (buf : Nat → Nat)
    (pos length ret : Nat) (s' : State)
    (h : _WriteBlock env fuel s addr buf pos length = some (ret, s')) :
    Reaches s s' [Event.writeBlock addr length] := by
  unfold _WriteBlock at h
  split at h
  · cases h
  · rename_i s1 hw
    simp only [Option.some.injEq, Prod.mk.injEq] at h
    obtain ⟨-, rfl⟩ := h
    have q1 := ((quiet_emit_call s (Event.writeBlock addr length) rfl).trans_nil_right
      (quiet_waitATReady env fuel _ _ hw)).trans_nil_right
      ((quiet_beginTransmission s1 addr).trans_nil (quiet_wireWrite (_beginTransmission s1 addr)
        ((List.range length).map (fun i => buf (pos + i)))))
    have r2 := (q1.1.andThen (reaches_endTransmission env _)).andThen (quiet_micros env _).1
    obtain ⟨a1, a2, a3, a4, a5, evs, l, f⟩ := r2
    exact ⟨a1, a2, a3, a4, a5, evs, l, by simpa using f⟩

theorem quiet_afterEnd (env : Env) (s : State) :
    Quiet (wireEnd env s).2 (_endTransmission env s).2 [] := by
  unfold _endTransmission
  simp only
  have h2 : Quiet (wireEnd env s).2 (if (wireEnd env s).2._writeProtectPin > -1 then
      digitalWrite (wireEnd env s).2 (wireEnd env s).2._writeProtectPin true
      else (wireEnd env s).2) [] := by
    split
    · exact quiet_digitalWrite _ _ _
    · exact Quiet.still _
  split
  · exact h2.trans_nil (quiet_emit _ (Event.i2cError _ _) rfl rfl)
  · exact h2

theorem payloads_endTransmission (env : Env) (s : State) :
    payloads s (_endTransmission env s).2 = if 2 < s.txBuf.length then 1 else 0 := by
  rw [payloads_andThen (reaches_wireEnd env s) (quiet_afterEnd env s).1, payloads_wireEnd,
    (quiet_afterEnd env s).2.2.2, Nat.add_zero]

theorem payloads_WriteBlock (env : Env) (fuel : Nat) (s : State) (addr : Nat) (buf : Nat → Nat)
    (pos length ret : Nat) (s' : State)
    (h : _WriteBlock env fuel s addr buf pos length = some (ret, s')) :
    payloads s s' = if 0 < length then 1 else 0 := by
  unfold _WriteBlock at h
  split at h
  · cases h
  · rename_i s1 hw
    simp only [Option.some.injEq, Prod.mk.injEq] at h
    obtain ⟨-, rfl⟩ := h
    have q1 := ((quiet_emit_call s (Event.writeBlock addr length) rfl).trans_nil_right
      (quiet_waitATReady env fuel _ _ hw)).trans_nil_right
      ((quiet_beginTransmission s1 addr).trans_nil (quiet_wireWrite (_beginTransmission s1 addr)
        ((List.range length).map (fun i => buf (pos + i)))))
    have r2 := reaches_endTransmission env (wireWrite (_beginTransmission s1 addr)
      ((List.range length).map (fun i => buf (pos + i))))
    have q3 := quiet_micros env (_endTransmission env (wireWrite (_beginTransmission s1 addr)
      ((List.range length).map (fun i => buf (pos + i))))).2
    have hlen : (wireWrite (_beginTransmission s1 addr)
        ((List.range length).map (fun i => buf (pos + i)))).txBuf.length = 2 + length := by
      simp [wireWrite, beginTransmission_txBuf]
      omega
    have e1 := payloads_andThen q1.1 (r2.andThen q3.1)
    have e2 := payloads_andThen r2 q3.1
    have e3 := payloads_endTransmission env (wireWrite (_beginTransmission s1 addr)
      ((List.range length).map (fun i => buf (pos + i))))
    rw [hlen] at e3
    have e4 : payloads s { (micros env (_endTransmission env (wireWrite
        (_beginTransmission s1 addr) ((List.range length).map (fun i => buf (pos + i))))).2).2
        with _lastWrite := (micros env (_endTransmission env (wireWrite
        (_beginTransmission s1 addr) ((List.range length).map (fun i => buf (pos + i))))).2).1 }
        = payloads s (micros env (_endTransmission env (wireWrite
        (_beginTransmission s1 addr) ((List.range length).map (fun i => buf (pos + i))))).2).2 :=
      rfl
    rw [e4, e1, e2, e3, q1.2.2.2, q3.2.2.2]
    by_cases h0 : 0 < length
    · rw [if_pos h0, if_pos (by omega)]
    · rw [if_neg h0, if_neg (by omega)]

theorem quiet_readLoop (pos : Nat) :
    ∀ (n count : Nat) (s : State) (out : Nat → Nat), Quiet s (readLoop pos n count s out).1 [] := by
  intro n
  induction n with
  | zero => intro count s out; exact Quiet.still s
  | succ n ih =>
    intro count s out
    unfold readLoop
    exact (quiet_wireRead s).trans_nil (ih _ _ _)

theorem quiet_verifyLoop (buf : Nat → Nat) (pos : Nat) :
    ∀ (n count : Nat) (s : State), Quiet s (verifyLoop buf pos n count s).2 [] := by
  intro n
  induction n with
  | zero => intro count s; exact Quiet.still s
  | succ n ih =>
    intro count s
    unfold verifyLoop
    simp only
    split
    · exact quiet_wireRead s
    · exact (quiet_wireRead s).trans_nil (ih _ _)

theorem quiet_addressPhase (env : Env) (s : State) (addr : Nat) :
    Quiet s (_endTransmission env (_beginTransmission s addr)).2 [] :=
  (quiet_beginTransmission s addr).trans_nil
    (quiet_endTransmission env _ (by simp [beginTransmission_txBuf]))

theorem quiet_ReadBlock (env : Env) (fuel : Nat) (s : State) (addr : Nat) (out : Nat → Nat)
    (pos length n : Nat) (out' : Nat → Nat) (s' : State)
    (h : _ReadBlock env fuel s addr out pos length = some (n, out', s')) :
    Quiet s s' [Event.readBlock addr length] := by
  unfold _ReadBlock at h
  split at h
  · cases h
  · rename_i s1 hw
    have q1 := ((quiet_emit_call s (Event.readBlock addr length) rfl).trans_nil_right
      (quiet_waitATReady env fuel _ _ hw)).trans_nil_right (quiet_addressPhase env s1 addr)
    simp only at h
    split at h
    · simp only [Option.some.injEq, Prod.mk.injEq] at h
      obtain ⟨-, -, rfl⟩ := h
      exact q1
    · simp only [Option.some.injEq, Prod.mk.injEq] at h
      obtain ⟨-, -, rfl⟩ := h
      have q2 := q1.trans_nil_right (quiet_wireRequestFrom env
        (_endTransmission env (_beginTransmission s1 addr)).2
        (_endTransmission env (_beginTransmission s1 addr)).2._i2cAddress length)
      refine (Quiet.trans_nil_right q2 ?_).trans_nil_right (quiet_readLoop pos _ _ _ _)
      split
      · exact quiet_emit _ (Event.readMismatch _ _ _) rfl rfl
      · exact Quiet.still _

theorem quiet_verifyBlock (env : Env) (fuel : Nat) (s : State) (addr : Nat) (buf : Nat → Nat)
    (pos length : Nat) (ok : Bool) (s' : State)
    (h : _verifyBlock env fuel s addr buf pos length = some (ok, s')) :
    Quiet s s' [Event.verifyBlock addr length] := by
  unfold _verifyBlock at h
  split at h
  · cases h
  · rename_i s1 hw
    have q1 := ((quiet_emit_call s (Event.verifyBlock addr length) rfl).trans_nil_right
      (quiet_waitATReady env fuel _ _ hw)).trans_nil_right (quiet_addressPhase env s1 addr)
    simp only at h
    split at h
    · simp only [Option.some.injEq, Prod.mk.injEq] at h
      obtain ⟨-, rfl⟩ := h
      exact q1
    · simp only [Option.some.injEq] at h
      have q2 := quiet_verifyLoop buf pos
        ((wireRequestFrom env (_endTransmission env (_beginTransmission s1 addr)).2
          (_endTransmission env (_beginTransmission s1 addr)).2._i2cAddress length).1 % 256) 0
        (wireRequestFrom env (_endTransmission env (_beginTransmission s1 addr)).2
          (_endTransmission env (_beginTransmission s1 addr)).2._i2cAddress length).2
      rw [h] at q2
      exact (q1.trans_nil_right (quiet_wireRequestFrom env _ _ _)).trans_nil_right q2

/-! ## The loops, on any bus -/

theorem readCount_le (b : Build) (len : Nat) : readCount b len ≤ len := by
  unfold readCount
  split <;> omega

theorem writeCount_le (b : Build) (P address len : Nat) : writeCount b P address len ≤ len := by
  have := readCount_le b len
  unfold writeCount
  split <;> omega

theorem writeLoop_succ (env : Env) (fuel : Nat) (buf : Nat → Nat) (incr : Bool) (k : Nat)
    (s : State) (address len pos : Nat) :
    writeLoop env fuel buf incr (k + 1) s address len pos =
      if len > 0 then
        match _WriteBlock env fuel s address buf pos
            (writeCount env.build s._pageSize address len) with
        | none => none
        | some (ret, s1) =>
          if ret ≠ 0 then some (false, s1)
          else writeLoop env fuel buf incr k s1
                 ((address + writeCount env.build s._pageSize address len) % 65536)
                 (len - writeCount env.build s._pageSize address len)
                 (if incr then pos + writeCount env.build s._pageSize address len else pos)
      else some (true, s) := rfl

theorem readArrayLoop_succ (env : Env) (fuel k : Nat) (s : State) (address len : Nat)
    (out : Nat → Nat) (pos : Nat) :
    readArrayLoop env fuel (k + 1) s address len out pos =
      if len > 0 then
        match _ReadBlock env fuel s address out pos (readCount env.build len) with
        | none => none
        | some (_, out1, s1) =>
          readArrayLoop env fuel k s1 ((address + readCount env.build len) % 65536)
            (len - readCount env.build len) out1 (pos + readCount env.build len)
      else some (pos, out, s) := rfl

theorem verifyArrayLoop_succ (env : Env) (fuel : Nat) (buf : Nat → Nat) (k : Nat) (s : State)
    (address len pos : Nat) :
    verifyArrayLoop env fuel buf (k + 1) s address len pos =
      if len > 0 then
        match _verifyBlock env fuel s address buf pos (readCount env.build len) with
        | none => none
        | some (ok, s1) =>
          if ok = false then some (false, s1)
          else verifyArrayLoop env fuel buf k s1 ((address + readCount env.build len) % 65536)
                 (len - readCount env.build len) (pos + readCount env.build len)
      else some (true, s) := rfl

theorem updateLoop_succ (env : Env) (fuel : Nat) (buf : Nat → Nat) (k : Nat) (s : State)
    (address len pos : Nat) :
    updateLoop env fuel buf (k + 1) s address len pos =
      if len > 0 then
        match _ReadBlock env fuel s address env.indeterminate 0 (readCount env.build len) with
        | none => none
        | some (_, tmp, s1) =>
          if memcmpNe buf pos tmp (readCount env.build len) then
            match _writeArray env fuel s1 address buf pos (readCount env.build len) true with
            | none => none
            | some (_, s2) =>
              updateLoop env fuel buf k s2 ((address + readCount env.build len) % 65536)
                (len - readCount env.build len) (pos + readCount env.build len)
          else
            updateLoop env fuel buf k s1 ((address + readCount env.build len) % 65536)
              (len - readCount env.build len) (pos + readCount env.build len)
      else some (pos, len, s) := rfl

theorem writeLoop_trace (env : Env) (fuel : Nat) (buf : Nat → Nat) (incr : Bool) :
    ∀ (k : Nat) (s : State) (address len pos : Nat) (r : Bool) (s' : State),
      writeLoop env fuel buf incr k s address len pos = some (r, s') →
      ∃ cs, cs <+: writeChunks env.build s._pageSize k address len ∧
        Reaches s s' (cs.map mkWrite) ∧
        (r = true → cs = writeChunks env.build s._pageSize k address len ∧
          (cs.map Prod.snd).sum = len) ∧
        payloads s s' = (cs.filter (fun c => decide (0 < c.2))).length := by
  intro k
  induction k with
  | zero => intro s address len pos r s' h; simp [writeLoop] at h
  | succ k ih =>
    intro s address len pos r s' h
    rw [writeLoop_succ] at h
    split at h
    · rename_i hlen
      split at h
      · cases h
      · rename_i ret s1 hw
        have r1 := reaches_WriteBlock env fuel s address buf pos _ ret s1 hw
        have p1 := payloads_WriteBlock env fuel s address buf pos _ ret s1 hw
        split at h
        · simp only [Option.some.injEq, Prod.mk.injEq] at h
          obtain ⟨rfl, rfl⟩ := h
          refine ⟨[(address, writeCount env.build s._pageSize address len)], ?_, r1, ?_, ?_⟩
          · simp [writeChunks, hlen]
          · intro hf; cases hf
          · rw [p1]
            by_cases h0 : 0 < writeCount env.build s._pageSize address len <;>
              simp [List.filter, h0]
        · obtain ⟨cs, hp, hr, ht, hpl⟩ := ih _ _ _ _ _ _ h
          rw [r1.2.2.1] at hp ht
          have hr' : Reaches s1 s' (cs.map mkWrite) := hr
          refine ⟨(address, writeCount env.build s._pageSize address len) :: cs, ?_, ?_, ?_, ?_⟩
          · simp only [writeChunks, hlen, if_true]
            exact (List.prefix_cons_inj _).2 hp
          · simpa [mkWrite] using r1.andThen hr
          · intro hr'
            obtain ⟨h1, h2⟩ := ht hr'
            have := writeCount_le env.build s._pageSize address len
            refine ⟨?_, ?_⟩
            · simp only [writeChunks, hlen, if_true]
              rw [← h1]
            · simp only [List.map_cons, List.sum_cons, h2]
              omega
          · rw [payloads_andThen r1 hr', p1, hpl]
            by_cases h0 : 0 < writeCount env.build s._pageSize address len
            · simp [List.filter, h0]
              omega
            · simp [List.filter, h0]
    · simp only [Option.some.injEq, Prod.mk.injEq] at h
      obtain ⟨rfl, rfl⟩ := h
      have hl : len = 0 := by omega
      exact ⟨[], by simp, by simpa using Reaches.here s, fun _ => by simp [writeChunks, hl],
        payloads_of_log_eq s s rfl⟩

theorem readArrayLoop_trace (env : Env) (fuel : Nat) :
    ∀ (k : Nat) (s : State) (address len : Nat) (out : Nat → Nat) (pos p : Nat)
      (out' : Nat → Nat) (s' : State),
      readArrayLoop env fuel k s address len out pos = some (p, out', s') →
      Quiet s s' ((readChunks env.build k address len).map mkRead) ∧
        ((readChunks env.build k address len).map Prod.snd).sum = len ∧ p = pos + len := by
  intro k
  induction k with
  | zero => intro s address len out pos p out' s' h; simp [readArrayLoop] at h
  | succ k ih =>
    intro s address len out pos p out' s' h
    rw [readArrayLoop_succ] at h
    split at h
    · rename_i hlen
      split at h
      · cases h
      · rename_i n out1 s1 hw
        have q1 := quiet_ReadBlock env fuel s address out pos _ n out1 s1 hw
        obtain ⟨hq, hs, hp⟩ := ih _ _ _ _ _ _ _ _ h
        have := readCount_le env.build len
        refine ⟨?_, ?_, ?_⟩
        · simp only [readChunks, hlen, if_true]
          simpa [mkRead] using q1.followedBy hq
        · simp only [readChunks, hlen, if_true, List.map_cons, List.sum_cons, hs]
          omega
        · omega
    · simp only [Option.some.injEq, Prod.mk.injEq] at h
      obtain ⟨rfl, rfl, rfl⟩ := h
      have hl : len = 0 := by omega
      exact ⟨by simpa [readChunks, hl] using Quiet.still s, by simp [readChunks, hl], by omega⟩

theorem verifyArrayLoop_trace (env : Env) (fuel : Nat) (buf : Nat → Nat) :
    ∀ (k : Nat) (s : State) (address len pos : Nat) (r : Bool) (s' : State),
      verifyArrayLoop env fuel buf k s address len pos = some (r, s') →
      ∃ cs, cs <+: readChunks env.build k address len ∧ Quiet s s' (cs.map mkVerify) ∧
        (r = true → cs = readChunks env.build k address len ∧ (cs.map Prod.snd).sum = len) := by
  intro k
  induction k with
  | zero => intro s address len pos r s' h; simp [verifyArrayLoop] at h
  | succ k ih =>
    intro s address len pos r s' h
    rw [verifyArrayLoop_succ] at h
    split at h
    · rename_i hlen
      split at h
      · cases h
      · rename_i ok s1 hw
        have q1 := quiet_verifyBlock env fuel s address buf pos _ ok s1 hw
        split at h
        · simp only [Option.some.injEq, Prod.mk.injEq] at h
          obtain ⟨rfl, rfl⟩ := h
          refine ⟨[(address, readCount env.build len)], ?_, q1, ?_⟩
          · simp [readChunks, hlen]
          · intro hf; cases hf
        · obtain ⟨cs, hp, hq, ht⟩ := ih _ _ _ _ _ _ h
          refine ⟨(address, readCount env.build len) :: cs, ?_, ?_, ?_⟩
          · simp only [readChunks, hlen, if_true]
            exact (List.prefix_cons_inj _).2 hp
          · simpa [mkVerify] using q1.followedBy hq
          · intro hr'
            obtain ⟨h1, h2⟩ := ht hr'
            have := readCount_le env.build len
            refine ⟨?_, ?_⟩
            · simp only [readChunks, hlen, if_true]
              rw [← h1]
            · simp only [List.map_cons, List.sum_cons, h2]
              omega
    · simp only [Option.some.injEq, Prod.mk.injEq] at h
      obtain ⟨rfl, rfl⟩ := h
      have hl : len = 0 := by omega
      exact ⟨[], by simp, by simpa using Quiet.still s, fun _ => by simp [readChunks, hl]⟩

/-! ## The chip -/

theorem succ_mod_of_lt (P a : Nat) (h : a % P + 1 < P) : (a + 1) % P = a % P + 1 := by
  rw [Nat.add_mod, Nat.mod_eq_of_lt (show 1 < P by omega)]
  exact Nat.mod_eq_of_lt h

theorem pageStore_mem (P : Nat) :
    ∀ (l : List Nat) (m : Nat → Nat) (a : Nat), l.length ≤ P - a % P →
      ∀ x, (pageStore P m a l).1 x =
        if a ≤ x ∧ x < a + l.length then l.getD (x - a) 0 else m x := by
  intro l
  induction l with
  | nil =>
    intro m a _ x
    have : ¬ (a ≤ x ∧ x < a) := by omega
    simp [pageStore, this]
  | cons b bs ih =>
    intro m a h x
    unfold pageStore
    cases hb : bs with
    | nil =>
      simp only [pageStore, List.length_singleton]
      by_cases hx : x = a
      · subst hx; simp
      · rw [Function.update_noteq hx]
        have : ¬ (a ≤ x ∧ x < a + 1) := by omega
        simp [this]
    | cons c cs =>
      rw [← hb]
      have hl : 2 ≤ (b :: bs).length := by simp [hb]
      have hlt : a % P + 1 < P := by omega
      have hm := succ_mod_of_lt P a hlt
      have hn : nextInPage P a = a + 1 := by
        unfold nextInPage
        rw [hm]
        simp
      rw [hn, ih _ (a + 1) (by rw [hm]; simp only [List.length_cons] at h; omega) x]
      simp only [List.length_cons]
      by_cases hx : x = a
      · subst hx
        have : ¬ (x + 1 ≤ x ∧ x < x + 1 + bs.length) := by omega
        simp [this]
      · rw [Function.update_noteq hx]
        by_cases h1 : a + 1 ≤ x ∧ x < a + 1 + bs.length
        · have h2 : a ≤ x ∧ x < a + (bs.length + 1) := by omega
          rw [if_pos h1, if_pos h2]
          have : x - a = (x - (a + 1)) + 1 := by omega
          rw [this, List.getD_cons_succ]
        · have h2 : ¬ (a ≤ x ∧ x < a + (bs.length + 1)) := by omega
          rw [if_neg h1, if_neg h2]

theorem getD_range_map (f : Nat → Nat) (n i : Nat) (h : i < n) :
    ((List.range n).map f).getD i 0 = f i := by
  simp [List.getD, List.getElem?_map, List.getElem?_range h]

theorem header_decode (addr : Nat) : addr / 256 % 256 * 256 + addr % 256 = addr % 65536 := by
  omega

/-! ## The primitives on an acknowledging bus -/

theorem wireEnd_fst (env : Env) (s : State) : (wireEnd env s).1 = env.completion s.ends % 256 :=
  rfl

theorem endTransmission_fst (env : Env) (s : State) :
    (_endTransmission env s).1 = env.completion s.ends % 256 := rfl

theorem endTransmission_fst_acks (env : Env) (h : env.acks) (s : State) :
    (_endTransmission env s).1 = 0 := by
  rw [endTransmission_fst, h]

theorem isConnected_acks (env : Env) (h : env.acks) (s : State) :
    (isConnected env s).1 = true := by
  simp [isConnected, wireEnd_fst, h _]

theorem waitATReady_acks (env : Env) (h : env.acks) (fuel : Nat) (s : State) :
    ∃ s', _waitATReady env (fuel + 1) s = some s' := by
  unfold _waitATReady
  simp only
  split
  · rw [if_pos (isConnected_acks env h _)]
    exact ⟨_, rfl⟩
  · exact ⟨_, rfl⟩

theorem wireEnd_state_acks (env : Env) (h : env.acks) (s : State) :
    (wireEnd env s).2 = chipReceive env { s with
      ends := s.ends + 1
      log := s.log ++ [Event.transmission s.txAddress s.txBuf 0] } s.txBuf := by
  simp [wireEnd, h _]

theorem endTransmission_mem (env : Env) (s : State) :
    (_endTransmission env s).2.mem = (wireEnd env s).2.mem ∧
    (_endTransmission env s).2.ptr = (wireEnd env s).2.ptr ∧
    (_endTransmission env s).2.requests = (wireEnd env s).2.requests := by
  unfold _endTransmission
  simp only
  split <;> split <;> exact ⟨rfl, rfl, rfl⟩

theorem addressPhase_acks (env : Env) (h : env.acks) (s : State) (addr : Nat) :
    (_endTransmission env (_beginTransmission s addr)).2.ptr = addr % 65536 % env.chip.toNat ∧
    (_endTransmission env (_beginTransmission s addr)).2.requests = s.requests := by
  rw [(endTransmission_mem env _).2.1, (endTransmission_mem env _).2.2,
    wireEnd_state_acks env h, beginTransmission_txBuf]
  simp only [chipReceive, pageStore, header_decode, true_and]
  unfold _beginTransmission
  simp only
  split <;> rfl

theorem WriteBlock_acks (env : Env) (h : env.acks) (fuel : Nat) (s : State) (addr : Nat)
    (buf : Nat → Nat) (pos length : Nat) :
    ∃ s', _WriteBlock env (fuel + 1) s addr buf pos length = some (0, s') ∧
      s'.mem = (pageStore (getPageSize env.chip) s.mem (addr % 65536 % env.chip.toNat)
        ((List.range length).map (fun i => buf (pos + i)))).1 := by
  obtain ⟨s1, hw⟩ := waitATReady_acks env h fuel (emit s (Event.writeBlock addr length))
  have q1 := (quiet_emit_call s (Event.writeBlock addr length) rfl).trans_nil_right
    (quiet_waitATReady env _ _ _ hw)
  have q2 := quiet_beginTransmission s1 addr
  unfold _WriteBlock
  rw [hw]
  simp only [endTransmission_fst_acks env h]
  refine ⟨_, rfl, ?_⟩
  show (_endTransmission env _).2.mem = _
  rw [(endTransmission_mem env _).1, wireEnd_state_acks env h]
  simp only [wireWrite, beginTransmission_txBuf, List.cons_append, List.nil_append, chipReceive,
    header_decode]
  rw [q2.2.1, q1.2.1]

theorem readLoop_out (pos : Nat) :
    ∀ (n count : Nat) (s : State) (out : Nat → Nat), n ≤ s.rxBuf.length →
      ∀ x, (readLoop pos n count s out).2 x =
        if pos + count ≤ x ∧ x < pos + count + n then s.rxBuf.getD (x - (pos + count)) 0
        else out x := by
  intro n
  induction n with
  | zero =>
    intro count s out _ x
    have : ¬ (pos + count ≤ x ∧ x < pos + count + 0) := by omega
    rw [if_neg this]
    rfl
  | succ n ih =>
    intro count s out h x
    unfold readLoop
    cases hb : s.rxBuf with
    | nil => rw [hb] at h; simp at h
    | cons b bs =>
      have hr : wireRead s = (some b, { s with rxBuf := bs }) := by simp [wireRead, hb]
      rw [hr]
      simp only
      rw [ih (count + 1) _ _ (by rw [hb] at h; simpa using h) x]
      by_cases hx : x = pos + count
      · subst hx
        have h1 : ¬ (pos + (count + 1) ≤ pos + count ∧ pos + count < pos + (count + 1) + n) := by
          omega
        have h2 : pos + count ≤ pos + count ∧ pos + count < pos + count + (n + 1) := by omega
        rw [if_neg h1, if_pos h2]
        simp
      · rw [Function.update_noteq hx]
        by_cases h1 : pos + (count + 1) ≤ x ∧ x < pos + (count + 1) + n
        · have h2 : pos + count ≤ x ∧ x < pos + count + (n + 1) := by omega
          rw [if_pos h1, if_pos h2]
          have : x - (pos + count) = (x - (pos + (count + 1))) + 1 := by omega
          rw [this, List.getD_cons_succ]
        · have h2 : ¬ (pos + count ≤ x ∧ x < pos + count + (n + 1)) := by omega
          rw [if_neg h1, if_neg h2]

theorem verifyLoop_true (buf : Nat → Nat) (pos : Nat) :
    ∀ (n count : Nat) (s : State), n ≤ s.rxBuf.length →
      ((verifyLoop buf pos n count s).1 = true ↔
        ∀ i, i < n → buf (pos + count + i) = s.rxBuf.getD i 0) := by
  intro n
  induction n with
  | zero => intro count s _; simp [verifyLoop]
  | succ n ih =>
    intro count s h
    unfold verifyLoop
    cases hb : s.rxBuf with
    | nil => rw [hb] at h; simp at h
    | cons b bs =>
      have hr : wireRead s = (some b, { s with rxBuf := bs }) := by simp [wireRead, hb]
      rw [hr]
      simp only
      split
      · rename_i hne
        constructor
        · intro hf; cases hf
        · intro hall
          exact absurd (by simpa using hall 0 (by omega)) hne
      · rename_i heq
        have heq' : buf (pos + count) = b := by simpa using heq
        rw [ih (count + 1) _ (by rw [hb] at h; simpa using h)]
        constructor
        · intro hall i hi
          cases i with
          | zero => simpa using heq'
          | succ j =>
            have := hall j (by omega)
            simpa [Nat.add_assoc, Nat.add_comm 1 j] using this
        · intro hall i hi
          have := hall (i + 1) (by omega)
          simpa [Nat.add_assoc, Nat.add_comm 1 i] using this

theorem requestFrom_full (env : Env) (hF : env.full) (s : State) (a q : Nat) :
    (wireRequestFrom env s a q).1 = q ∧
    (wireRequestFrom env s a q).2.rxBuf =
      (List.range q).map (fun i => s.mem ((s.ptr + i) % env.chip.toNat)) := by
  simp [wireRequestFrom, hF _ _, chipSend]

theorem ReadBlock_acks (env : Env) (hA : env.acks) (hF : env.full) (fuel : Nat) (s : State)
    (addr : Nat) (out : Nat → Nat) (pos length : Nat) (hl : length < 256) :
    ∃ out' s', _ReadBlock env (fuel + 1) s addr out pos length = some (length, out', s') ∧
      ∀ x, out' x =
        if pos ≤ x ∧ x < pos + length then
          s.mem ((addr % 65536 % env.chip.toNat + (x - pos)) % env.chip.toNat)
        else out x := by
  obtain ⟨s1, hw⟩ := waitATReady_acks env hA fuel (emit s (Event.readBlock addr length))
  have q1 := ((quiet_emit_call s (Event.readBlock addr length) rfl).trans_nil_right
    (quiet_waitATReady env _ _ _ hw)).trans_nil_right (quiet_addressPhase env s1 addr)
  have hp := (addressPhase_acks env hA s1 addr).1
  have hrq := requestFrom_full env hF (_endTransmission env (_beginTransmission s1 addr)).2
    (_endTransmission env (_beginTransmission s1 addr)).2._i2cAddress length
  unfold _ReadBlock
  rw [hw]
  simp only [endTransmission_fst_acks env hA, ne_eq, not_true_eq_false, if_false, hrq.1,
    Nat.mod_eq_of_lt hl]
  refine ⟨_, _, rfl, ?_⟩
  intro x
  rw [readLoop_out pos length 0 _ out (by simp [hrq.2]) x]
  simp only [Nat.add_zero, hrq.2, hp, q1.2.1]
  by_cases hx : pos ≤ x ∧ x < pos + length
  · rw [if_pos hx, if_pos hx, getD_range_map _ _ _ (by omega)]
  · rw [if_neg hx, if_neg hx]

theorem verifyBlock_acks (env : Env) (hA : env.acks) (hF : env.full) (fuel : Nat) (s : State)
    (addr : Nat) (buf : Nat → Nat) (pos length : Nat) (hl : length < 256) :
    ∃ ok s', _verifyBlock env (fuel + 1) s addr buf pos length = some (ok, s') ∧
      (ok = true ↔ ∀ i, i < length →
        buf (pos + i) = s.mem ((addr % 65536 % env.chip.toNat + i) % env.chip.toNat)) := by
  obtain ⟨s1, hw⟩ := waitATReady_acks env hA fuel (emit s (Event.verifyBlock addr length))
  have q1 := ((quiet_emit_call s (Event.verifyBlock addr length) rfl).trans_nil_right
    (quiet_waitATReady env _ _ _ hw)).trans_nil_right (quiet_addressPhase env s1 addr)
  have hp := (addressPhase_acks env hA s1 addr).1
  have hrq := requestFrom_full env hF (_endTransmission env (_beginTransmission s1 addr)).2
    (_endTransmission env (_beginTransmission s1 addr)).2._i2cAddress length
  unfold _verifyBlock
  rw [hw]
  simp only [endTransmission_fst_acks env hA, ne_eq, not_true_eq_false, if_false, hrq.1,
    Nat.mod_eq_of_lt hl]
  refine ⟨_, _, rfl, ?_⟩
  rw [verifyLoop_true buf pos length 0 _ (by simp [hrq.2])]
  simp only [Nat.add_zero, hrq.2, hp, q1.2.1]
  constructor
  · intro hall i hi
    rw [hall i hi, getD_range_map _ _ _ hi]
  · intro hall i hi
    rw [hall i hi, getD_range_map _ _ _ hi]

/-! ## The loops on an acknowledging bus -/

theorem chip_facts (c : AT24LC) :
    0 < getPageSize c ∧ getPageSize c ≤ 128 ∧ c.toNat % getPageSize c = 0 ∧
      c.toNat ≤ 65536 ∧ 0 < c.toNat := by
  cases c <;> decide

theorem readCount_spec (b : Build) (len : Nat) (hlen : 0 < len) :
    1 ≤ readCount b len ∧ readCount b len ≤ len ∧ readCount b len ≤ I2C_BUFFERSIZE b ∧
      readCount b len ≤ 128 := by
  cases b <;> simp only [readCount, I2C_BUFFERSIZE] <;> split <;> omega

theorem writeCount_spec (b : Build) (P address len : Nat) (hP : 0 < P) (hP' : P ≤ 128)
    (hlen : 0 < len) :
    1 ≤ writeCount b P address len ∧ writeCount b P address len ≤ len ∧
      writeCount b P address len ≤ P - address % P ∧
      writeCount b P address len ≤ I2C_BUFFERSIZE b := by
  have h1 := readCount_spec b len hlen
  have h2 : address % P < P := Nat.mod_lt _ hP
  have h3 : (P - address % P) % 256 = P - address % P := Nat.mod_eq_of_lt (by omega)
  unfold writeCount
  rw [h3]
  split <;> omega

theorem writeLoop_acks (env : Env) (hA : env.acks) (fuel : Nat) (buf : Nat → Nat) (incr : Bool) :
    ∀ (k : Nat) (s : State) (address len pos : Nat), Attached env s → len < k →
      address + len ≤ env.chip.toNat →
      ∃ s', writeLoop env (fuel + 1) buf incr k s address len pos = some (true, s') ∧
        (∀ x, x < address ∨ address + len ≤ x → s'.mem x = s.mem x) ∧
        (incr = true → ∀ i, i < len → s'.mem (address + i) = buf (pos + i)) := by
  intro k
  induction k with
  | zero => intro s address len pos _ hk; omega
  | succ k ih =>
    intro s address len pos hAt hk hcap
    rw [writeLoop_succ]
    by_cases hlen : len > 0
    · rw [if_pos hlen]
      obtain ⟨hP, hP', -, hC, -⟩ := chip_facts env.chip
      rw [← hAt.2] at hP hP'
      obtain ⟨hc1, hc2, hc3, -⟩ := writeCount_spec env.build s._pageSize address len hP hP' hlen
      obtain ⟨s1, hw, hm1⟩ := WriteBlock_acks env hA fuel s address buf pos
        (writeCount env.build s._pageSize address len)
      have r1 := reaches_WriteBlock env _ s address buf pos _ 0 s1 hw
      have hAt1 : Attached env s1 := ⟨r1.2.1.trans hAt.1, r1.2.2.1.trans hAt.2⟩
      rw [hw]
      simp only [ne_eq, not_true_eq_false, if_false]
      generalize writeCount env.build s._pageSize address len = c at *
      have hmod : address % 65536 % env.chip.toNat = address := by
        rw [Nat.mod_eq_of_lt (by omega), Nat.mod_eq_of_lt (by omega)]
      have hmem1 : ∀ x, s1.mem x =
          if address ≤ x ∧ x < address + c then buf (pos + (x - address)) else s.mem x := by
        intro x
        rw [hm1, hmod, ← hAt.2, pageStore_mem _ _ _ _ (by simpa using hc3) x]
        simp only [List.length_map, List.length_range]
        by_cases hx : address ≤ x ∧ x < address + c
        · rw [if_pos hx, if_pos hx, getD_range_map _ _ _ (by omega)]
        · rw [if_neg hx, if_neg hx]
      obtain ⟨s', hs', hfr, hct⟩ := ih s1 ((address + c) % 65536) (len - c)
        (if incr then pos + c else pos) hAt1 (by omega) (by omega)
      refine ⟨s', hs', ?_, ?_⟩
      · intro x hx
        rw [hfr x (by omega), hmem1 x, if_neg (by omega)]
      · intro hi i hil
        by_cases hic : i < c
        · rw [hfr (address + i) (by omega), hmem1, if_pos (by omega)]
          congr 1
          omega
        · have h3 := hct hi (i - c) (by omega)
          have h4 : (address + c) % 65536 + (i - c) = address + i := by omega
          rw [h4, hi] at h3
          rw [h3]
          simp only [if_true]
          congr 1
          omega
    · rw [if_neg hlen]
      exact ⟨s, rfl, fun _ _ => rfl, fun _ i hi => by omega⟩

theorem verifyArrayLoop_acks (env : Env) (hA : env.acks) (hF : env.full) (fuel : Nat)
    (buf : Nat → Nat) :
    ∀ (k : Nat) (s : State) (address len pos : Nat), len < k →
      address + len ≤ env.chip.toNat →
      ∃ r s', verifyArrayLoop env (fuel + 1) buf k s address len pos = some (r, s') ∧
        (r = true ↔ ∀ i, i < len → buf (pos + i) = s.mem (address + i)) := by
  intro k
  induction k with
  | zero => intro s address len pos hk; omega
  | succ k ih =>
    intro s address len pos hk hcap
    rw [verifyArrayLoop_succ]
    by_cases hlen : len > 0
    · rw [if_pos hlen]
      obtain ⟨-, -, -, hC, -⟩ := chip_facts env.chip
      obtain ⟨hc1, hc2, -, hc4⟩ := readCount_spec env.build len hlen
      obtain ⟨ok, s1, hw, hok⟩ := verifyBlock_acks env hA hF fuel s address buf pos
        (readCount env.build len) (by omega)
      have q1 := quiet_verifyBlock env _ s address buf pos _ ok s1 hw
      rw [hw]
      simp only
      generalize readCount env.build len = c at *
      have hmod : address % 65536 % env.chip.toNat = address := by
        rw [Nat.mod_eq_of_lt (by omega), Nat.mod_eq_of_lt (by omega)]
      rw [hmod] at hok
      have hok' : ok = true ↔ ∀ i, i < c → buf (pos + i) = s.mem (address + i) := by
        rw [hok]
        constructor
        · intro h i hi
          rw [h i hi, Nat.mod_eq_of_lt (by omega)]
        · intro h i hi
          rw [h i hi, Nat.mod_eq_of_lt (by omega)]
      cases ok with
      | false =>
        refine ⟨false, s1, rfl, ?_⟩
        constructor
        · intro hf; cases hf
        · intro hall
          exact hok'.2 (fun i hi => hall i (by omega))
      | true =>
        simp only [Bool.true_eq_false, if_false]
        obtain ⟨r, s', hs', hr⟩ := ih s1 ((address + c) % 65536) (len - c) (pos + c)
          (by omega) (by omega)
        refine ⟨r, s', hs', ?_⟩
        rw [hr, q1.2.1]
        have h1 := hok'.1 rfl
        constructor
        · intro hall i hi
          by_cases hic : i < c
          · exact h1 i hic
          · have h3 := hall (i - c) (by omega)
            have h4 : (address + c) % 65536 + (i - c) = address + i := by omega
            have h5 : pos + c + (i - c) = pos + i := by omega
            rw [h4, h5] at h3
            exact h3
        · intro hall i hi
          have h3 := hall (c + i) (by omega)
          have h4 : (address + c) % 65536 + i = address + (c + i) := by omega
          have h5 : pos + c + i = pos + (c + i) := by omega
          rw [h4, h5]
          exact h3
    · rw [if_neg hlen]
      exact ⟨true, s, rfl, by simp; intro i hi; omega⟩

theorem readArrayLoop_acks (env : Env) (hA : env.acks) (hF : env.full) (fuel : Nat) :
    ∀ (k : Nat) (s : State) (address len : Nat) (out : Nat → Nat) (pos : Nat), len < k →
      address + len ≤ env.chip.toNat →
      ∃ out' s', readArrayLoop env (fuel + 1) k s address len out pos =
          some (pos + len, out', s') ∧
        ∀ x, out' x =
          if pos ≤ x ∧ x < pos + len then s.mem (address + (x - pos)) else out x := by
  intro k
  induction k with
  | zero => intro s address len out pos hk; omega
  | succ k ih =>
    intro s address len out pos hk hcap
    rw [readArrayLoop_succ]
    by_cases hlen : len > 0
    · rw [if_pos hlen]
      obtain ⟨-, -, -, hC, -⟩ := chip_facts env.chip
      obtain ⟨hc1, hc2, -, hc4⟩ := readCount_spec env.build len hlen
      obtain ⟨out1, s1, hw, ho1⟩ := ReadBlock_acks env hA hF fuel s address out pos
        (readCount env.build len) (by omega)
      have q1 := quiet_ReadBlock env _ s address out pos _ _ out1 s1 hw
      rw [hw]
      simp only
      generalize readCount env.build len = c at *
      have hmod : address % 65536 % env.chip.toNat = address := by
        rw [Nat.mod_eq_of_lt (by omega), Nat.mod_eq_of_lt (by omega)]
      rw [hmod] at ho1
      obtain ⟨out', s', hs', ho'⟩ := ih s1 ((address + c) % 65536) (len - c) out1 (pos + c)
        (by omega) (by omega)
      have hp : pos + c + (len - c) = pos + len := by omega
      rw [hp] at hs'
      refine ⟨out', s', hs', ?_⟩
      intro x
      rw [ho' x, q1.2.1]
      by_cases hx : pos + c ≤ x ∧ x < pos + c + (len - c)
      · rw [if_pos hx, if_pos (by omega)]
        congr 1
        omega
      · rw [if_neg hx, ho1 x]
        by_cases hx1 : pos ≤ x ∧ x < pos + c
        · rw [if_pos hx1, if_pos (by omega), Nat.mod_eq_of_lt (by omega)]
        · rw [if_neg hx1, if_neg (by omega)]
    · rw [if_neg hlen]
      have hl : len = 0 := by omega
      subst hl
      exact ⟨out, s, rfl, fun x => by rw [if_neg (by omega)]⟩

/-! ## Reading the calls off the log -/

theorem filterMap_filter_of_none {α β : Type} (f : α → Option β) (p : α → Bool)
    (h : ∀ a, p a = false → f a = none) :
    ∀ l : List α, (l.filter p).filterMap f = l.filterMap f := by
  intro l
  induction l with
  | nil => rfl
  | cons a l ih =>
    cases hp : p a with
    | true => simp [List.filter, hp, List.filterMap_cons, ih]
    | false => simp [List.filter, hp, List.filterMap_cons, h a hp, ih]

theorem writeCalls_of_reaches (s s' : State) (cs : List Event) (h : Reaches s s' cs) :
    writeCalls s s' = cs.filterMap (fun e =>
      match e with
      | .writeBlock a n => some (a, n)
      | _ => none) := by
  obtain ⟨-, -, -, -, -, evs, hl, hf⟩ := h
  unfold writeCalls
  rw [newEvents_of_log s s' evs hl, ← hf, filterMap_filter_of_none]
  intro e he
  cases e <;> simp_all [Event.isCall]

theorem readCalls_of_reaches (s s' : State) (cs : List Event) (h : Reaches s s' cs) :
    readCalls s s' = cs.filterMap (fun e =>
      match e with
      | .readBlock a n => some (a, n)
      | _ => none) := by
  obtain ⟨-, -, -, -, -, evs, hl, hf⟩ := h
  unfold readCalls
  rw [newEvents_of_log s s' evs hl, ← hf, filterMap_filter_of_none]
  intro e he
  cases e <;> simp_all [Event.isCall]

theorem filterMap_mkWrite (cs : List (Nat × Nat)) :
    (cs.map mkWrite).filterMap (fun e =>
      match e with
      | .writeBlock a n => some (a, n)
      | _ => none) = cs := by
  induction cs with
  | nil => rfl
  | cons c cs ih => simp [mkWrite, List.filterMap_cons, ih]

theorem filterMap_mkRead (cs : List (Nat × Nat)) :
    (cs.map mkRead).filterMap (fun e =>
      match e with
      | .readBlock a n => some (a, n)
      | _ => none) = cs := by
  induction cs with
  | nil => rfl
  | cons c cs ih => simp [mkRead, List.filterMap_cons, ih]

theorem filterMap_write_mkRead (cs : List (Nat × Nat)) :
    (cs.map mkRead).filterMap (fun e =>
      match e with
      | .writeBlock a n => some (a, n)
      | _ => none) = [] := by
  induction cs with
  | nil => rfl
  | cons c cs ih => simp [mkRead, List.filterMap_cons, ih]

/-! ## The chunk lists -/

theorem writeChunks_spec (b : Build) (P : Nat) (hP : 0 < P) (hP' : P ≤ 128) :
    ∀ (k address len : Nat) (c : Nat × Nat), c ∈ writeChunks b P k address len →
      1 ≤ c.2 ∧ c.2 ≤ I2C_BUFFERSIZE b ∧ c.2 ≤ P - c.1 % P := by
  intro k
  induction k with
  | zero => intro address len c hc; simp [writeChunks] at hc
  | succ k ih =>
    intro address len c hc
    unfold writeChunks at hc
    split at hc
    · rename_i hlen
      rcases List.mem_cons.1 hc with h | h
      · subst h
        obtain ⟨h1, -, h3, h4⟩ := writeCount_spec b P address len hP hP' hlen
        exact ⟨h1, h4, h3⟩
      · exact ih _ _ c h
    · simp at hc

theorem writeChunks_fuel (b : Build) (P : Nat) (hP : 0 < P) (hP' : P ≤ 128) :
    ∀ (k k' address len : Nat), len < k → len < k' →
      writeChunks b P k address len = writeChunks b P k' address len := by
  intro k
  induction k with
  | zero => intro k' address len h; omega
  | succ k ih =>
    intro k' address len h h'
    cases k' with
    | zero => omega
    | succ k' =>
      unfold writeChunks
      split
      · rename_i hlen
        obtain ⟨h1, -, -, -⟩ := writeCount_spec b P address len hP hP' hlen
        rw [ih k' _ _ (by omega) (by omega)]
      · rfl

theorem writeChunks_zero (b : Build) (P k address : Nat) :
    writeChunks b P k address 0 = [] := by
  cases k <;> simp [writeChunks]

theorem same_page (P a n : Nat) (hP : 0 < P) (h1 : 1 ≤ n) (h2 : n ≤ P - a % P) :
    a / P = (a + n - 1) / P := by
  have hm : a % P < P := Nat.mod_lt _ hP
  have hd := Nat.div_add_mod a P
  symm
  apply Nat.div_eq_of_lt_le
  · calc a / P * P = P * (a / P) := Nat.mul_comm _ _
      _ ≤ a + n - 1 := by omega
  · have h3 : (a / P + 1) * P = P * (a / P) + P := by ring
    show a + n - 1 < (a / P + 1) * P
    omega

theorem writeLoop_terminates (env : Env) (hA : env.acks) (fuel : Nat) (buf : Nat → Nat)
    (incr : Bool) :
    ∀ (k : Nat) (s : State) (address len pos : Nat), 0 < s._pageSize → s._pageSize ≤ 128 →
      len < k → ∃ s', writeLoop env (fuel + 1) buf incr k s address len pos = some (true, s') := by
  intro k
  induction k with
  | zero => intro s address len pos _ _ hk; omega
  | succ k ih =>
    intro s address len pos hP hP' hk
    rw [writeLoop_succ]
    by_cases hlen : len > 0
    · rw [if_pos hlen]
      obtain ⟨hc1, -, -, -⟩ := writeCount_spec env.build s._pageSize address len hP hP' hlen
      obtain ⟨s1, hw, -⟩ := WriteBlock_acks env hA fuel s address buf pos
        (writeCount env.build s._pageSize address len)
      have r1 := reaches_WriteBlock env _ s address buf pos _ 0 s1 hw
      rw [hw]
      simp only [ne_eq, not_true_eq_false, if_false]
      exact ih s1 _ _ _ (by rw [r1.2.2.1]; exact hP) (by rw [r1.2.2.1]; exact hP') (by omega)
    · rw [if_neg hlen]
      exact ⟨s, rfl⟩

/-! ## Page boundaries and chunk sizes of `_writeArray` -/

theorem pageSize_bounds (P : Nat) (hP : P = 16 ∨ P = 32 ∨ P = 64 ∨ P = 128) :
    0 < P ∧ P ≤ 128 := by
  omega

theorem writeArray_calls (env : Env) (fuel : Nat) (s : State) (addr : Nat) (buf : Nat → Nat)
    (pos length : Nat) (incr r : Bool) (s' : State)
    (h : _writeArray env fuel s addr buf pos length incr = some (r, s')) :
    Reaches s s' ((writeCalls s s').map mkWrite) ∧
    writeCalls s s' <+: writeChunks env.build s._pageSize fuel (addr % 65536) (length % 65536) ∧
    (r = true →
      writeCalls s s' = writeChunks env.build s._pageSize fuel (addr % 65536) (length % 65536) ∧
      ((writeCalls s s').map Prod.snd).sum = length % 65536) := by
  obtain ⟨cs, hp, hr, ht, -⟩ := writeLoop_trace env fuel buf incr fuel s _ _ pos r s' h
  have hc : writeCalls s s' = cs := by
    rw [writeCalls_of_reaches s s' _ hr, filterMap_mkWrite]
  rw [hc]
  exact ⟨hr, hp, ht⟩

theorem writeArray_payloads (env : Env) (fuel : Nat) (s : State) (addr : Nat) (buf : Nat → Nat)
    (pos length : Nat) (incr r : Bool) (s' : State) (hP : 0 < s._pageSize)
    (hP' : s._pageSize ≤ 128)
    (h : _writeArray env fuel s addr buf pos length incr = some (r, s')) :
    payloads s s' = (writeCalls s s').length := by
  obtain ⟨cs, hp, hr, -, hpl⟩ := writeLoop_trace env fuel buf incr fuel s _ _ pos r s' h
  have hc : writeCalls s s' = cs := by
    rw [writeCalls_of_reaches s s' _ hr, filterMap_mkWrite]
  rw [hc, hpl]
  congr 1
  rw [List.filter_eq_self]
  intro c hc'
  obtain ⟨h1, -, -⟩ := writeChunks_spec env.build _ hP hP' _ _ _ c (hp.subset hc')
  simpa using h1

/-- C2: every chunk that `_writeArray` hands to `_WriteBlock` has at least one byte, at most
I2C_BUFFERSIZE bytes, and ends in the page it starts in, for each page size 16, 32, 64, 128,
every start address, every length and every behaviour of the bus; on an acknowledging bus the call returns; and with page size 32,
address 30 and length 10 the chunks of a successful call are exactly (30, 2) and (32, 8). -/
theorem writeArray_chunks_stay_in_page (env : Env) (s : State) (addr pos length : Nat)
    (buf : Nat → Nat) (incr : Bool)
    (hP : s._pageSize = 16 ∨ s._pageSize = 32 ∨ s._pageSize = 64 ∨ s._pageSize = 128) :
    (∀ fuel r s', _writeArray env fuel s addr buf pos length incr = some (r, s') →
      ∀ c ∈ writeCalls s s',
        1 ≤ c.2 ∧ c.2 ≤ I2C_BUFFERSIZE env.build ∧
          c.1 / s._pageSize = (c.1 + c.2 - 1) / s._pageSize) ∧
    (env.acks → ∀ fuel, length % 65536 < fuel →
      ∃ s', _writeArray env fuel s addr buf pos length incr = some (true, s')) ∧
    (s._pageSize = 32 → addr = 30 → length = 10 →
      ∀ fuel s', _writeArray env fuel s addr buf pos length incr = some (true, s') →
        writeCalls s s' = [(30, 2), (32, 8)]) := by
  obtain ⟨hP0, hP1⟩ := pageSize_bounds _ hP
  refine ⟨?_, ?_, ?_⟩
  · intro fuel r s' h c hc
    obtain ⟨-, hp, -⟩ := writeArray_calls env fuel s addr buf pos length incr r s' h
    obtain ⟨h1, h2, h3⟩ := writeChunks_spec env.build _ hP0 hP1 _ _ _ c (hp.subset hc)
    exact ⟨h1, h2, same_page _ _ _ hP0 h1 h3⟩
  · intro hA fuel hf
    cases fuel with
    | zero => omega
    | succ f => exact writeLoop_terminates env hA f buf incr _ s _ _ pos hP0 hP1 hf
  · intro h32 ha hl fuel s' h
    obtain ⟨-, -, ht⟩ := writeArray_calls env fuel s addr buf pos length incr true s' h
    obtain ⟨h1, h2⟩ := ht rfl
    rw [h1] at h2 ⊢
    rw [h32, ha, hl] at h2 ⊢
    match fuel with
    | 0 => simp [writeChunks] at h2
    | 1 => cases hb : env.build <;>
        simp [hb, writeChunks, writeCount, readCount, I2C_BUFFERSIZE] at h2
    | k + 2 => cases hb : env.build <;>
        simp [writeChunks, writeCount, readCount, I2C_BUFFERSIZE, writeChunks_zero]

/-- C2, at page size 32, address 30, length 10 on an acknowledging bus. -/
theorem writeArray_chunks_stay_in_page_witness :
    ((new (fun _ => 0) 80 AT24LC.AT24LC32 (-1))._pageSize = 16 ∨
      (new (fun _ => 0) 80 AT24LC.AT24LC32 (-1))._pageSize = 32 ∨
      (new (fun _ => 0) 80 AT24LC.AT24LC32 (-1))._pageSize = 64 ∨
      (new (fun _ => 0) 80 AT24LC.AT24LC32 (-1))._pageSize = 128) ∧
    ∃ s', _writeArray (idealEnv Build.other AT24LC.AT24LC32) 11
        (new (fun _ => 0) 80 AT24LC.AT24LC32 (-1)) 30 (fun i => i) 0 10 true = some (true, s') ∧
      writeCalls (new (fun _ => 0) 80 AT24LC.AT24LC32 (-1)) s' = [(30, 2), (32, 8)] := by
  have hP : (new (fun _ => 0) 80 AT24LC.AT24LC32 (-1))._pageSize = 16 ∨
      (new (fun _ => 0) 80 AT24LC.AT24LC32 (-1))._pageSize = 32 ∨
      (new (fun _ => 0) 80 AT24LC.AT24LC32 (-1))._pageSize = 64 ∨
      (new (fun _ => 0) 80 AT24LC.AT24LC32 (-1))._pageSize = 128 := Or.inr (Or.inl rfl)
  have h := writeArray_chunks_stay_in_page (idealEnv Build.other AT24LC.AT24LC32)
    (new (fun _ => 0) 80 AT24LC.AT24LC32 (-1)) 30 0 10 (fun i => i) true hP
  obtain ⟨s', hs'⟩ := h.2.1 (fun _ => rfl) 11 (by decide)
  exact ⟨hP, s', hs', h.2.2 rfl rfl rfl 11 s' hs'⟩

/-- C3: for every length in 1..65535 and every start address, a call of `_writeArray` in which
every block write reported completion code 0 (the call returned true) made block writes of at
least 1 and at most min(I2C_BUFFERSIZE, page size) bytes whose sizes sum to the length; on an
acknowledging bus the loop does return, after at most `length` passes. -/
theorem writeArray_chunk_sizes (env : Env) (s : State) (addr pos length : Nat)
    (buf : Nat → Nat) (incr : Bool)
    (hP : s._pageSize = 16 ∨ s._pageSize = 32 ∨ s._pageSize = 64 ∨ s._pageSize = 128)
    (hlen : 0 < length) (h16 : length < 65536) :
    (∀ fuel s', _writeArray env fuel s addr buf pos length incr = some (true, s') →
      (∀ c ∈ writeCalls s s',
        1 ≤ c.2 ∧ c.2 ≤ min (I2C_BUFFERSIZE env.build) s._pageSize) ∧
      ((writeCalls s s').map Prod.snd).sum = length ∧
      (writeCalls s s').length ≤ length) ∧
    (env.acks → ∀ fuel, length < fuel →
      ∃ s', _writeArray env fuel s addr buf pos length incr = some (true, s')) := by
  obtain ⟨hP0, hP1⟩ := pageSize_bounds _ hP
  refine ⟨?_, ?_⟩
  · intro fuel s' h
    obtain ⟨-, hp, ht⟩ := writeArray_calls env fuel s addr buf pos length incr true s' h
    obtain ⟨-, h2⟩ := ht rfl
    rw [Nat.mod_eq_of_lt h16] at h2
    have hall : ∀ c ∈ writeCalls s s',
        1 ≤ c.2 ∧ c.2 ≤ min (I2C_BUFFERSIZE env.build) s._pageSize := by
      intro c hc
      obtain ⟨h1, h3, h4⟩ := writeChunks_spec env.build _ hP0 hP1 _ _ _ c (hp.subset hc)
      exact ⟨h1, le_min h3 (le_trans h4 (Nat.sub_le _ _))⟩
    refine ⟨hall, h2, ?_⟩
    have hcard : ∀ l : List (Nat × Nat), (∀ c ∈ l, 1 ≤ c.2) → l.length ≤ (l.map Prod.snd).sum := by
      intro l
      induction l with
      | nil => intro _; simp
      | cons a l ih =>
        intro hl
        have h1 := hl a (List.mem_cons_self _ _)
        have h2 := ih (fun c hc => hl c (List.mem_cons_of_mem _ hc))
        simp only [List.length_cons, List.map_cons, List.sum_cons]
        omega
    rw [← h2]
    exact hcard _ (fun c hc => (hall c hc).1)
  · intro hA fuel hf
    cases fuel with
    | zero => omega
    | succ f =>
      exact writeLoop_terminates env hA f buf incr _ s _ _ pos hP0 hP1
        (by rw [Nat.mod_eq_of_lt h16]; exact hf)

/-- C3, at address 30, length 10 on the 4096-byte chip. -/
theorem writeArray_chunk_sizes_witness :
    (0 < 10 ∧ 10 < 65536) ∧
    ∃ s', _writeArray (idealEnv Build.other AT24LC.AT24LC32) 11
        (new (fun _ => 0) 80 AT24LC.AT24LC32 (-1)) 30 (fun i => i) 0 10 true = some (true, s') ∧
      ((writeCalls (new (fun _ => 0) 80 AT24LC.AT24LC32 (-1)) s').map Prod.snd).sum = 10 := by
  have h := writeArray_chunk_sizes (idealEnv Build.other AT24LC.AT24LC32)
    (new (fun _ => 0) 80 AT24LC.AT24LC32 (-1)) 30 0 10 (fun i => i) true
    (Or.inr (Or.inl rfl)) (by decide) (by decide)
  obtain ⟨s', hs'⟩ := h.2 (fun _ => rfl) 11 (by decide)
  exact ⟨by decide, s', hs', (h.1 11 s' hs').2.1⟩

/-! ## Round trip and the read path -/

theorem isValidAddress_iff (s : State) (addr length : Nat) :
    isValidAddress s addr length = true ↔ addr + length ≤ s._deviceSize := by
  simp [isValidAddress]

theorem isValidAddress_of_reaches (s s' : State) (cs : List Event) (h : Reaches s s' cs)
    (addr length : Nat) : isValidAddress s' addr length = isValidAddress s addr length := by
  simp [isValidAddress, h.2.1]

theorem attached_of_reaches (env : Env) (s s' : State) (cs : List Event) (h : Reaches s s' cs)
    (hAt : Attached env s) : Attached env s' :=
  ⟨h.2.1.trans hAt.1, h.2.2.1.trans hAt.2⟩

/-- Round trip below 65536 bytes: on an acknowledging bus that serves reads in full,
`writeArray` of `n < 65536` bytes into a valid range returns true, the chip then holds the
bytes, and `readArray` of the range returns them. -/
theorem writeArray_readArray_roundtrip (env : Env) (hA : env.acks) (hF : env.full) (s : State)
    (hAt : Attached env s) (addr n : Nat) (buf out : Nat → Nat)
    (hv : addr + n ≤ s._deviceSize) (hn : n < 65536) (fuel : Nat) (hfuel : n < fuel) :
    ∃ s1, writeArray env fuel s addr buf n = some (true, s1) ∧
      (∀ i, i < n → s1.mem (addr + i) = buf i) ∧
      (∀ x, x < addr ∨ addr + n ≤ x → s1.mem x = s.mem x) ∧
      Reaches s s1 ((newEvents s s1).filter Event.isCall) ∧
      ∃ out' s2, readArray env fuel s1 addr out n = some (some n, out', s2) ∧
        (∀ i, i < n → out' i = buf i) ∧ (∀ x, n ≤ x → out' x = out x) := by
  obtain ⟨f, rfl⟩ : ∃ f, fuel = f + 1 := ⟨fuel - 1, by omega⟩
  obtain ⟨-, -, -, hC, -⟩ := chip_facts env.chip
  have hcap : addr % 65536 + n ≤ env.chip.toNat := by
    rw [← hAt.1]
    exact le_trans (Nat.add_le_add_right (Nat.mod_le _ _) _) hv
  have haddr : 0 < n → addr % 65536 = addr := by
    intro h0
    have := hAt.1
    exact Nat.mod_eq_of_lt (by omega)
  -- the write pass
  obtain ⟨s1, hw, hfr, hct⟩ := writeLoop_acks env hA f buf true (f + 1) s (addr % 65536) n 0
    hAt hfuel hcap
  have hw' : _writeArray env (f + 1) s addr buf 0 n true = some (true, s1) := by
    unfold _writeArray
    rw [Nat.mod_eq_of_lt hn]
    exact hw
  have r1 := (writeArray_calls env (f + 1) s addr buf 0 n true true s1 hw').1
  -- the verification pass
  obtain ⟨r, s2, hver, hr⟩ := verifyArrayLoop_acks env hA hF f buf (f + 1) s1 (addr % 65536) n 0
    hfuel hcap
  have hrt : r = true := by
    rw [hr]
    intro i hi
    rw [hct rfl i hi]
  subst hrt
  obtain ⟨cs, -, q2, -⟩ := verifyArrayLoop_trace env (f + 1) buf (f + 1) s1 _ _ 0 true s2 hver
  have r2 := r1.andThen q2.1
  have hwa : writeArray env (f + 1) s addr buf n = some (true, s2) := by
    unfold writeArray
    rw [(isValidAddress_iff s addr n).2 hv]
    simp only [Bool.not_true, Bool.false_eq_true, if_false, hw']
    unfold verifyArray
    rw [Nat.mod_eq_of_lt hn]
    exact hver
  have hmem2 : ∀ i, i < n → s2.mem (addr + i) = buf i := by
    intro i hi
    have := hct rfl i hi
    rw [haddr (by omega)] at this
    rw [q2.2.1, this, Nat.zero_add]
  -- the read pass
  obtain ⟨out', s3, hrd, ho⟩ := readArrayLoop_acks env hA hF f (f + 1) s2 (addr % 65536) n out 0
    hfuel hcap
  refine ⟨s2, hwa, hmem2, ?_, ?_, out', s3, ?_, ?_, ?_⟩
  · intro x hx
    rw [q2.2.1]
    by_cases h0 : 0 < n
    · rw [haddr h0] at hfr
      exact hfr x hx
    · exact hfr x (by omega)
  · obtain ⟨a1, a2, a3, a4, a5, evs, hl, hf⟩ := r2
    refine ⟨a1, a2, a3, a4, a5, evs, hl, ?_⟩
    rw [newEvents_of_log s s2 evs hl]
  · unfold readArray
    rw [isValidAddress_of_reaches s s2 _ r2, (isValidAddress_iff s addr n).2 hv]
    simp only [Bool.not_true, Bool.false_eq_true, if_false]
    rw [Nat.mod_eq_of_lt hn, hrd]
    simp
  · intro i hi
    rw [ho i, if_pos (by omega), haddr (by omega)]
    simpa using hmem2 i hi
  · intro x hx
    by_cases h0 : 0 < n
    · rw [ho x, if_neg (by omega)]
    · rw [ho x, if_neg (by omega)]

/-- C1, at the input where the round trip fails: on the 65536-byte chip a `writeArray` of the
whole device (address 0, length 65536) is a valid range, returns true and leaves bus, chip and
driver as they were, and the `readArray` of the same range returns with the output untouched,
on every bus. -/
theorem writeArray_whole_AT24LC512_skipped (env : Env) (fuel : Nat) (mem buf out : Nat → Nat)
    (i2c : Nat) (pin : Int) :
    writeArray env (fuel + 1) (new mem i2c AT24LC.AT24LC512 pin) 0 buf 65536 =
      some (true, new mem i2c AT24LC.AT24LC512 pin) ∧
    readArray env (fuel + 1) (new mem i2c AT24LC.AT24LC512 pin) 0 out 65536 =
      some (some 0, out, new mem i2c AT24LC.AT24LC512 pin) := by
  have hv : isValidAddress (new mem i2c AT24LC.AT24LC512 pin) 0 65536 = true := rfl
  have h0 : 65536 % 65536 = 0 := rfl
  constructor
  · unfold writeArray _writeArray verifyArray
    rw [hv, h0]
    rfl
  · unfold readArray
    rw [hv, h0]
    rfl

theorem readChunks_spec (b : Build) :
    ∀ (k address len : Nat),
      (∀ c ∈ readChunks b k address len, 1 ≤ c.2 ∧ c.2 ≤ I2C_BUFFERSIZE b) ∧
      Consecutive address (readChunks b k address len) := by
  intro k
  induction k with
  | zero => intro address len; simp [readChunks, Consecutive]
  | succ k ih =>
    intro address len
    unfold readChunks
    split
    · rename_i hlen
      obtain ⟨h1, -, h3, -⟩ := readCount_spec b len hlen
      obtain ⟨i1, i2⟩ := ih ((address + readCount b len) % 65536) (len - readCount b len)
      refine ⟨?_, ⟨rfl, i2⟩⟩
      intro c hc
      rcases List.mem_cons.1 hc with h | h
      · subst h; exact ⟨h1, h3⟩
      · exact i1 c h
    · simp [Consecutive]

/-- The read path below 65536 bytes: a `readArray` of `length < 65536` bytes from a valid
range that returns has issued block reads of 1 to I2C_BUFFERSIZE bytes, at consecutive
addresses from `addr`, summing to `length`; on an acknowledging bus it returns. -/
theorem readArray_chunking (env : Env) (s : State) (addr length : Nat) (out : Nat → Nat)
    (hv : addr + length ≤ s._deviceSize) (h16 : length < 65536) :
    (∀ fuel r, readArray env fuel s addr out length = some r →
      (∀ c ∈ readCalls s r.2.2, 1 ≤ c.2 ∧ c.2 ≤ I2C_BUFFERSIZE env.build) ∧
      Consecutive (addr % 65536) (readCalls s r.2.2) ∧
      ((readCalls s r.2.2).map Prod.snd).sum = length) ∧
    (env.acks → env.full → Attached env s → ∀ fuel, length < fuel →
      ∃ r, readArray env fuel s addr out length = some r) := by
  constructor
  · intro fuel r h
    unfold readArray at h
    rw [(isValidAddress_iff s addr length).2 hv] at h
    simp only [Bool.not_true, Bool.false_eq_true, if_false] at h
    split at h
    · cases h
    · rename_i p out1 s1 hl
      cases h
      obtain ⟨hq, hs, -⟩ := readArrayLoop_trace env fuel fuel s _ _ out 0 p out1 s1 hl
      have hc : readCalls s s1 = readChunks env.build fuel (addr % 65536) (length % 65536) := by
        rw [readCalls_of_reaches s s1 _ hq.1, filterMap_mkRead]
      obtain ⟨h1, h2⟩ := readChunks_spec env.build fuel (addr % 65536) (length % 65536)
      simp only
      rw [hc]
      rw [Nat.mod_eq_of_lt h16] at hs ⊢
      exact ⟨by rw [Nat.mod_eq_of_lt h16] at h1; exact h1,
        by rw [Nat.mod_eq_of_lt h16] at h2; exact h2, hs⟩
  · intro hA hF hAt fuel hf
    obtain ⟨f, rfl⟩ : ∃ f, fuel = f + 1 := ⟨fuel - 1, by omega⟩
    have hcap : addr % 65536 + length ≤ env.chip.toNat := by
      rw [← hAt.1]
      exact le_trans (Nat.add_le_add_right (Nat.mod_le _ _) _) hv
    obtain ⟨out', s3, hrd, -⟩ := readArrayLoop_acks env hA hF f (f + 1) s (addr % 65536) length
      out 0 hf hcap
    unfold readArray
    rw [(isValidAddress_iff s addr length).2 hv]
    simp only [Bool.not_true, Bool.false_eq_true, if_false]
    rw [Nat.mod_eq_of_lt h16, hrd]
    exact ⟨_, rfl⟩

/-- C4, at the input where it fails: on the 65536-byte chip `readArray` of the whole device
(address 0, length 65536, a valid range) returns without one block read, so the sizes of its
block reads sum to 0 and not to 65536, on every bus. -/
theorem readArray_whole_AT24LC512_reads_nothing (env : Env) (fuel : Nat) (mem out : Nat → Nat)
    (i2c : Nat) (pin : Int) :
    isValidAddress (new mem i2c AT24LC.AT24LC512 pin) 0 65536 = true ∧
    readArray env (fuel + 1) (new mem i2c AT24LC.AT24LC512 pin) 0 out 65536 =
      some (some 0, out, new mem i2c AT24LC.AT24LC512 pin) ∧
    readCalls (new mem i2c AT24LC.AT24LC512 pin) (new mem i2c AT24LC.AT24LC512 pin) = [] ∧
    ((readCalls (new mem i2c AT24LC.AT24LC512 pin)
      (new mem i2c AT24LC.AT24LC512 pin)).map Prod.snd).sum ≠ 65536 := by
  have hv : isValidAddress (new mem i2c AT24LC.AT24LC512 pin) 0 65536 = true := rfl
  have h0 : 65536 % 65536 = 0 := rfl
  have hc : readCalls (new mem i2c AT24LC.AT24LC512 pin) (new mem i2c AT24LC.AT24LC512 pin)
      = [] := by
    unfold readCalls newEvents
    rw [List.drop_length]
    rfl
  refine ⟨hv, ?_, hc, ?_⟩
  · unfold readArray
    rw [hv, h0]
    rfl
  · rw [hc]
    decide

/-! ## Invalid ranges -/

/-- C5: when the range check fails, the member returns its sentinel and hands back the state
it was handed: no bus transaction, no pin change, no change of the driver or of the output
buffer.  For the byte members the check fails when `addr + 1 > capacity`: `readu8` returns 0,
`writeu8` and `updateu8` return false.  For the array members it fails when
`addr + length > capacity`, also when `addr` itself lies inside the chip: `readArray` returns
the null pointer, `writeArray` and `updateArray` return false.  The range check fails exactly
on these ranges. -/
theorem invalid_range_rejected (env : Env) (fuel : Nat) (s : State) (addr length val : Nat)
    (buf out : Nat → Nat) :
    (s._deviceSize < addr + 1 →
      readu8 env fuel s addr = some (0, s) ∧
      writeu8 env fuel s addr val = some (false, s) ∧
      updateu8 env fuel s addr val = some (false, s)) ∧
    (s._deviceSize < addr + length →
      readArray env fuel s addr out length = some (none, out, s) ∧
      writeArray env fuel s addr buf length = some (false, s) ∧
      updateArray env fuel s addr buf length = some (false, s)) ∧
    (isValidAddress s addr length = false ↔ s._deviceSize < addr + length) ∧
    newEvents s s = [] := by
  refine ⟨?_, ?_, ?_, ?_⟩
  · intro h1
    have e1 : isValidAddress s addr 1 = false := by
      simp [isValidAddress]; omega
    simp [readu8, writeu8, updateu8, e1]
  · intro hn
    have en : isValidAddress s addr length = false := by
      simp [isValidAddress]; omega
    simp [readArray, writeArray, updateArray, en]
  · simp [isValidAddress]
  · simp [newEvents]

/-- C5, on the 4096-byte chip: the range of 10 bytes from address 4090 starts inside the chip
and ends beyond it, and the three array members reject it; the byte members reject address
4096. -/
theorem invalid_range_rejected_witness :
    (4090 < (new (fun _ => 0) 80 AT24LC.AT24LC32 5)._deviceSize ∧
      (new (fun _ => 0) 80 AT24LC.AT24LC32 5)._deviceSize < 4090 + 10) ∧
    (readArray (idealEnv Build.esp AT24LC.AT24LC32) 9 (new (fun _ => 0) 80 AT24LC.AT24LC32 5)
        4090 (fun _ => 7) 10 = some (none, fun _ => 7, new (fun _ => 0) 80 AT24LC.AT24LC32 5) ∧
      writeArray (idealEnv Build.esp AT24LC.AT24LC32) 9 (new (fun _ => 0) 80 AT24LC.AT24LC32 5)
        4090 (fun i => i) 10 = some (false, new (fun _ => 0) 80 AT24LC.AT24LC32 5) ∧
      updateArray (idealEnv Build.esp AT24LC.AT24LC32) 9 (new (fun _ => 0) 80 AT24LC.AT24LC32 5)
        4090 (fun i => i) 10 = some (false, new (fun _ => 0) 80 AT24LC.AT24LC32 5)) ∧
    (new (fun _ => 0) 80 AT24LC.AT24LC32 5)._deviceSize < 4096 + 1 ∧
    (readu8 (idealEnv Build.esp AT24LC.AT24LC32) 9 (new (fun _ => 0) 80 AT24LC.AT24LC32 5)
        4096 = some (0, new (fun _ => 0) 80 AT24LC.AT24LC32 5) ∧
      writeu8 (idealEnv Build.esp AT24LC.AT24LC32) 9 (new (fun _ => 0) 80 AT24LC.AT24LC32 5)
        4096 3 = some (false, new (fun _ => 0) 80 AT24LC.AT24LC32 5) ∧
      updateu8 (idealEnv Build.esp AT24LC.AT24LC32) 9 (new (fun _ => 0) 80 AT24LC.AT24LC32 5)
        4096 3 = some (false, new (fun _ => 0) 80 AT24LC.AT24LC32 5)) := by
  have hin : 4090 < (new (fun _ => 0) 80 AT24LC.AT24LC32 5)._deviceSize := by decide
  have hn : (new (fun _ => 0) 80 AT24LC.AT24LC32 5)._deviceSize < 4090 + 10 := by decide
  have h1 : (new (fun _ => 0) 80 AT24LC.AT24LC32 5)._deviceSize < 4096 + 1 := by decide
  exact ⟨⟨hin, hn⟩,
    (invalid_range_rejected (idealEnv Build.esp AT24LC.AT24LC32) 9
      (new (fun _ => 0) 80 AT24LC.AT24LC32 5) 4090 10 0 (fun i => i) (fun _ => 7)).2.1 hn,
    h1,
    (invalid_range_rejected (idealEnv Build.esp AT24LC.AT24LC32) 9
      (new (fun _ => 0) 80 AT24LC.AT24LC32 5) 4096 0 3 (fun i => i) (fun _ => 7)).1 h1⟩

/-! ## The update path -/

theorem memcmpNe_false (buf : Nat → Nat) (pos : Nat) (tmp : Nat → Nat) (count : Nat) :
    memcmpNe buf pos tmp count = false ↔ ∀ i, i < count → buf (pos + i) = tmp i := by
  simp [memcmpNe, List.any_eq_false]

theorem verifyArrayLoop_zero (env : Env) (fuel : Nat) (buf : Nat → Nat) (k : Nat) (s : State)
    (address pos : Nat) :
    verifyArrayLoop env fuel buf (k + 1) s address 0 pos = some (true, s) := rfl

theorem updateLoop_len (env : Env) (fuel : Nat) (buf : Nat → Nat) :
    ∀ (k : Nat) (s : State) (address len pos p l : Nat) (s' : State),
      updateLoop env fuel buf k s address len pos = some (p, l, s') → l = 0 ∧ p = pos + len := by
  intro k
  induction k with
  | zero => intro s address len pos p l s' h; simp [updateLoop] at h
  | succ k ih =>
    intro s address len pos p l s' h
    rw [updateLoop_succ] at h
    have hc := readCount_le env.build len
    split at h
    · split at h
      · cases h
      · split at h
        · split at h
          · cases h
          · obtain ⟨h1, h2⟩ := ih _ _ _ _ _ _ _ h
            exact ⟨h1, by omega⟩
        · obtain ⟨h1, h2⟩ := ih _ _ _ _ _ _ _ h
          exact ⟨h1, by omega⟩
    · simp only [Option.some.injEq, Prod.mk.injEq] at h
      obtain ⟨rfl, rfl, rfl⟩ := h
      omega

/-- On every bus, `updateArray` on a valid range hands `verifyArray` the length 0: when it
returns it returns true, whatever the chip holds. -/
theorem updateArray_never_verifies (env : Env) (fuel : Nat) (s : State) (addr length : Nat)
    (buf : Nat → Nat) (r : Bool) (s' : State) (hv : addr + length ≤ s._deviceSize)
    (h : updateArray env fuel s addr buf length = some (r, s')) : r = true := by
  unfold updateArray at h
  rw [(isValidAddress_iff s addr length).2 hv] at h
  simp only [Bool.not_true, Bool.false_eq_true, if_false] at h
  split at h
  · cases h
  · rename_i p l s1 hl
    obtain ⟨rfl, -⟩ := updateLoop_len env fuel buf fuel s _ _ 0 p l s1 hl
    cases fuel with
    | zero => simp [updateLoop] at hl
    | succ f =>
      unfold verifyArray at h
      rw [show (0 : Nat) % 65536 = 0 from rfl, verifyArrayLoop_zero] at h
      simp only [Option.some.injEq, Prod.mk.injEq] at h
      exact h.1.symm

theorem updateLoop_unchanged (env : Env) (hA : env.acks) (hF : env.full) (fuel : Nat)
    (buf : Nat → Nat) :
    ∀ (k : Nat) (s : State) (address len pos : Nat), len < k →
      address + len ≤ env.chip.toNat →
      (∀ i, i < len → s.mem (address + i) = buf (pos + i)) →
      ∃ s', updateLoop env (fuel + 1) buf k s address len pos = some (pos + len, 0, s') ∧
        Quiet s s' ((readChunks env.build k address len).map mkRead) := by
  intro k
  induction k with
  | zero => intro s address len pos hk; omega
  | succ k ih =>
    intro s address len pos hk hcap heq
    rw [updateLoop_succ]
    by_cases hlen : len > 0
    · rw [if_pos hlen]
      obtain ⟨-, -, -, hC, -⟩ := chip_facts env.chip
      obtain ⟨hc1, hc2, -, hc4⟩ := readCount_spec env.build len hlen
      obtain ⟨tmp, s1, hw, ho⟩ := ReadBlock_acks env hA hF fuel s address env.indeterminate 0
        (readCount env.build len) (by omega)
      have q1 := quiet_ReadBlock env _ s address _ 0 _ _ tmp s1 hw
      rw [hw]
      simp only
      have hmod : address % 65536 % env.chip.toNat = address := by
        rw [Nat.mod_eq_of_lt (by omega), Nat.mod_eq_of_lt (by omega)]
      have hcmp : memcmpNe buf pos tmp (readCount env.build len) = false := by
        rw [memcmpNe_false]
        intro i hi
        rw [ho i, if_pos (by omega), hmod, Nat.sub_zero, Nat.mod_eq_of_lt (by omega),
          heq i (by omega)]
      rw [hcmp]
      simp only [Bool.false_eq_true, if_false]
      obtain ⟨s', hs', hq⟩ := ih s1 ((address + readCount env.build len) % 65536)
        (len - readCount env.build len) (pos + readCount env.build len) (by omega) (by omega)
        (by
          intro i hi
          rw [q1.2.1]
          have h4 : (address + readCount env.build len) % 65536 + i
              = address + (readCount env.build len + i) := by omega
          have h5 : pos + readCount env.build len + i = pos + (readCount env.build len + i) := by
            omega
          rw [h4, h5]
          exact heq _ (by omega))
      have hp : pos + readCount env.build len + (len - readCount env.build len) = pos + len := by
        omega
      rw [hp] at hs'
      refine ⟨s', hs', ?_⟩
      simp only [readChunks, hlen, if_true]
      simpa [mkRead] using q1.followedBy hq
    · rw [if_neg hlen]
      have hl : len = 0 := by omega
      subst hl
      exact ⟨s, rfl, by simpa [readChunks] using Quiet.still s⟩

theorem updateLoop_acks (env : Env) (hA : env.acks) (hF : env.full) (fuel : Nat)
    (buf : Nat → Nat) :
    ∀ (k : Nat) (s : State) (address len pos : Nat), Attached env s → len < k → len ≤ fuel →
      address + len ≤ env.chip.toNat →
      ∃ s', updateLoop env (fuel + 1) buf k s address len pos = some (pos + len, 0, s') ∧
        (∀ i, i < len → s'.mem (address + i) = buf (pos + i)) ∧
        (∀ x, x < address ∨ address + len ≤ x → s'.mem x = s.mem x) ∧
        ∃ cs, Reaches s s' cs := by
  intro k
  induction k with
  | zero => intro s address len pos _ hk; omega
  | succ k ih =>
    intro s address len pos hAt hk hfl hcap
    rw [updateLoop_succ]
    by_cases hlen : len > 0
    · rw [if_pos hlen]
      obtain ⟨-, -, -, hC, -⟩ := chip_facts env.chip
      obtain ⟨hc1, hc2, -, hc4⟩ := readCount_spec env.build len hlen
      obtain ⟨tmp, s1, hw, ho⟩ := ReadBlock_acks env hA hF fuel s address env.indeterminate 0
        (readCount env.build len) (by omega)
      have q1 := quiet_ReadBlock env _ s address _ 0 _ _ tmp s1 hw
      have hAt1 := attached_of_reaches env s s1 _ q1.1 hAt
      rw [hw]
      simp only
      have hmod : address % 65536 % env.chip.toNat = address := by
        rw [Nat.mod_eq_of_lt (by omega), Nat.mod_eq_of_lt (by omega)]
      have htmp : ∀ i, i < readCount env.build len → tmp i = s.mem (address + i) := by
        intro i hi
        rw [ho i, if_pos (by omega), hmod, Nat.sub_zero, Nat.mod_eq_of_lt (by omega)]
      generalize readCount env.build len = c at *
      have hpl : pos + c + (len - c) = pos + len := by omega
      cases hcmp : memcmpNe buf pos tmp c with
      | true =>
        simp only [if_true]
        obtain ⟨s2, hw2, hfr2, hct2⟩ := writeLoop_acks env hA fuel buf true (fuel + 1) s1 address c
          pos hAt1 (by omega) (by omega)
        have hw2' : _writeArray env (fuel + 1) s1 address buf pos c true = some (true, s2) := by
          unfold _writeArray
          rw [Nat.mod_eq_of_lt (show address < 65536 by omega),
            Nat.mod_eq_of_lt (show c < 65536 by omega)]
          exact hw2
        have r2 := (writeArray_calls env (fuel + 1) s1 address buf pos c true true s2 hw2').1
        have hAt2 := attached_of_reaches env s1 s2 _ r2 hAt1
        rw [hw2']
        simp only
        obtain ⟨s', hs', hct, hfr, cs, hr⟩ := ih s2 ((address + c) % 65536) (len - c) (pos + c)
          hAt2 (by omega) (by omega) (by omega)
        rw [hpl] at hs'
        refine ⟨s', hs', ?_, ?_, _, (q1.1.andThen r2).andThen hr⟩
        · intro i hi
          by_cases hic : i < c
          · rw [hfr (address + i) (by omega), hct2 rfl i hic]
          · have h3 := hct (i - c) (by omega)
            have h4 : (address + c) % 65536 + (i - c) = address + i := by omega
            have h5 : pos + c + (i - c) = pos + i := by omega
            rw [h4, h5] at h3
            exact h3
        · intro x hx
          rw [hfr x (by omega), hfr2 x (by omega), q1.2.1]
      | false =>
        simp only [Bool.false_eq_true, if_false]
        obtain ⟨s', hs', hct, hfr, cs, hr⟩ := ih s1 ((address + c) % 65536) (len - c) (pos + c)
          hAt1 (by omega) (by omega) (by omega)
        rw [hpl] at hs'
        refine ⟨s', hs', ?_, ?_, _, q1.1.andThen hr⟩
        · intro i hi
          by_cases hic : i < c
          · rw [hfr (address + i) (by omega), q1.2.1, ← htmp i hic]
            exact ((memcmpNe_false buf pos tmp c).1 hcmp i hic).symm
          · have h3 := hct (i - c) (by omega)
            have h4 : (address + c) % 65536 + (i - c) = address + i := by omega
            have h5 : pos + c + (i - c) = pos + i := by omega
            rw [h4, h5] at h3
            exact h3
        · intro x hx
          rw [hfr x (by omega), q1.2.1]
    · rw [if_neg hlen]
      have hl : len = 0 := by omega
      subst hl
      exact ⟨s, rfl, fun i hi => by omega, fun _ _ => rfl, [], Reaches.here s⟩

theorem updateArray_unchanged (env : Env) (hA : env.acks) (hF : env.full) (s : State)
    (hAt : Attached env s) (addr length : Nat) (buf : Nat → Nat) (fuel : Nat)
    (hv : addr + length ≤ s._deviceSize) (hfuel : length % 65536 < fuel)
    (heq : ∀ i, i < length % 65536 → s.mem (addr % 65536 + i) = buf i) :
    ∃ s', updateArray env fuel s addr buf length = some (true, s') ∧ writeCalls s s' = [] ∧
      payloads s s' = 0 ∧ s'.mem = s.mem ∧ s'._lastWrite = s._lastWrite := by
  obtain ⟨f, rfl⟩ : ∃ f, fuel = f + 1 := ⟨fuel - 1, by omega⟩
  have hcap : addr % 65536 + length % 65536 ≤ env.chip.toNat := by
    rw [← hAt.1]
    exact le_trans (Nat.add_le_add (Nat.mod_le _ _) (Nat.mod_le _ _)) hv
  obtain ⟨s', hs', hq⟩ := updateLoop_unchanged env hA hF f buf (f + 1) s (addr % 65536)
    (length % 65536) 0 hfuel hcap (by simpa using heq)
  refine ⟨s', ?_, ?_, hq.2.2.2, hq.2.1, hq.2.2.1⟩
  · unfold updateArray
    rw [(isValidAddress_iff s addr length).2 hv]
    simp only [Bool.not_true, Bool.false_eq_true, if_false, hs']
    unfold verifyArray
    rw [show (0 : Nat) % 65536 = 0 from rfl, verifyArrayLoop_zero]
  · rw [writeCalls_of_reaches s s' _ hq.1, filterMap_write_mkRead]

theorem updateu8_unchanged (env : Env) (hA : env.acks) (hF : env.full) (s : State)
    (hAt : Attached env s) (addr : Nat) (fuel : Nat) (hv : addr + 1 ≤ s._deviceSize)
    (hfuel : 0 < fuel) :
    ∃ s', updateu8 env fuel s addr (s.mem addr) = some (true, s') ∧ writeCalls s s' = [] ∧
      payloads s s' = 0 ∧ s'.mem = s.mem ∧ s'._lastWrite = s._lastWrite := by
  obtain ⟨f, rfl⟩ : ∃ f, fuel = f + 1 := ⟨fuel - 1, by omega⟩
  obtain ⟨-, -, -, hC, -⟩ := chip_facts env.chip
  have hd := hAt.1
  obtain ⟨tmp, s1, hw, ho⟩ := ReadBlock_acks env hA hF f s addr env.indeterminate 0 1
    (by omega)
  have q1 := quiet_ReadBlock env _ s addr _ 0 _ _ tmp s1 hw
  have hmod : addr % 65536 % env.chip.toNat = addr := by
    rw [Nat.mod_eq_of_lt (by omega), Nat.mod_eq_of_lt (by omega)]
  have h0 : tmp 0 = s.mem addr := by
    rw [ho 0, if_pos (by omega), hmod, Nat.sub_zero, Nat.add_zero, Nat.mod_eq_of_lt (by omega)]
  refine ⟨s1, ?_, ?_, q1.2.2.2, q1.2.1, q1.2.2.1⟩
  · unfold updateu8 readu8
    rw [(isValidAddress_iff s addr 1).2 hv]
    simp only [Bool.not_true, Bool.false_eq_true, if_false, hw, h0, if_true]
  · rw [writeCalls_of_reaches s s1 _ q1.1]
    rfl

/-- C8: on a bus that acknowledges and serves reads in full, for a valid range:
`updateArray` on content that already equals the target makes no call of `_WriteBlock`, puts no
write transaction on the bus, leaves the chip and `_lastWrite` as they were and returns true; so
does `updateu8` on a byte that already has the value; and a second `updateArray` of the same
array right after a first one makes no call of `_WriteBlock` and no write transaction. -/
theorem update_skips_unchanged (env : Env) (hA : env.acks) (hF : env.full) (s : State)
    (hAt : Attached env s) (addr length : Nat) (buf : Nat → Nat) (fuel : Nat)
    (hv : addr + length ≤ s._deviceSize) (hfuel : length < fuel) :
    ((∀ i, i < length → s.mem (addr + i) = buf i) →
      ∃ s', updateArray env fuel s addr buf length = some (true, s') ∧ writeCalls s s' = [] ∧
        payloads s s' = 0 ∧ s'.mem = s.mem ∧ s'._lastWrite = s._lastWrite) ∧
    (addr + 1 ≤ s._deviceSize →
      ∃ s', updateu8 env fuel s addr (s.mem addr) = some (true, s') ∧ writeCalls s s' = [] ∧
        payloads s s' = 0 ∧ s'.mem = s.mem ∧ s'._lastWrite = s._lastWrite) ∧
    (∃ s1, updateArray env fuel s addr buf length = some (true, s1) ∧
      ∃ s2, updateArray env fuel s1 addr buf length = some (true, s2) ∧
        writeCalls s1 s2 = [] ∧ payloads s1 s2 = 0 ∧ s2.mem = s1.mem ∧
        s2._lastWrite = s1._lastWrite) := by
  obtain ⟨-, -, -, hC, -⟩ := chip_facts env.chip
  have hd := hAt.1
  have hmodle : length % 65536 ≤ length := Nat.mod_le _ _
  have haddr : 0 < length % 65536 → addr % 65536 = addr := by
    intro h0
    exact Nat.mod_eq_of_lt (by omega)
  refine ⟨?_, ?_, ?_⟩
  · intro heq
    refine updateArray_unchanged env hA hF s hAt addr length buf fuel hv (by omega) ?_
    intro i hi
    rw [haddr (by omega)]
    exact heq i (by omega)
  · intro hv1
    exact updateu8_unchanged env hA hF s hAt addr fuel hv1 (by omega)
  · obtain ⟨f, rfl⟩ : ∃ f, fuel = f + 1 := ⟨fuel - 1, by omega⟩
    have hcap : addr % 65536 + length % 65536 ≤ env.chip.toNat := by
      rw [← hAt.1]
      exact le_trans (Nat.add_le_add (Nat.mod_le _ _) (Nat.mod_le _ _)) hv
    obtain ⟨s1, hs1, hct, -, cs, hr⟩ := updateLoop_acks env hA hF f buf (f + 1) s (addr % 65536)
      (length % 65536) 0 hAt (by omega) (by omega) hcap
    have hu1 : updateArray env (f + 1) s addr buf length = some (true, s1) := by
      unfold updateArray
      rw [(isValidAddress_iff s addr length).2 hv]
      simp only [Bool.not_true, Bool.false_eq_true, if_false, hs1]
      unfold verifyArray
      rw [show (0 : Nat) % 65536 = 0 from rfl, verifyArrayLoop_zero]
    have hAt1 := attached_of_reaches env s s1 _ hr hAt
    have hv1 : addr + length ≤ s1._deviceSize := by
      rw [hr.2.1]
      exact hv
    obtain ⟨s2, hs2, h2⟩ := updateArray_unchanged env hA hF s1 hAt1 addr length buf (f + 1) hv1
      (by omega) (by simpa using hct)
    exact ⟨s1, hu1, s2, hs2, h2⟩

/-- C8, on the 4096-byte chip holding 7 everywhere, range 30..39. -/
theorem update_skips_unchanged_witness :
    ((idealEnv Build.other AT24LC.AT24LC32).acks ∧ (idealEnv Build.other AT24LC.AT24LC32).full ∧
      Attached (idealEnv Build.other AT24LC.AT24LC32) (new (fun _ => 7) 80 AT24LC.AT24LC32 (-1)) ∧
      30 + 10 ≤ (new (fun _ => 7) 80 AT24LC.AT24LC32 (-1))._deviceSize ∧ 10 < 11) ∧
    ∃ s', updateArray (idealEnv Build.other AT24LC.AT24LC32) 11
        (new (fun _ => 7) 80 AT24LC.AT24LC32 (-1)) 30 (fun _ => 7) 10 = some (true, s') ∧
      writeCalls (new (fun _ => 7) 80 AT24LC.AT24LC32 (-1)) s' = [] ∧
      payloads (new (fun _ => 7) 80 AT24LC.AT24LC32 (-1)) s' = 0 ∧
      s'.mem = (new (fun _ => 7) 80 AT24LC.AT24LC32 (-1)).mem ∧
      s'._lastWrite = (new (fun _ => 7) 80 AT24LC.AT24LC32 (-1))._lastWrite := by
  have hA : (idealEnv Build.other AT24LC.AT24LC32).acks := fun _ => rfl
  have hF : (idealEnv Build.other AT24LC.AT24LC32).full := fun _ _ => rfl
  have hAt : Attached (idealEnv Build.other AT24LC.AT24LC32)
      (new (fun _ => 7) 80 AT24LC.AT24LC32 (-1)) := ⟨rfl, rfl⟩
  have hv : 30 + 10 ≤ (new (fun _ => 7) 80 AT24LC.AT24LC32 (-1))._deviceSize := by decide
  have h := update_skips_unchanged (idealEnv Build.other AT24LC.AT24LC32) hA hF
    (new (fun _ => 7) 80 AT24LC.AT24LC32 (-1)) hAt 30 10 (fun _ => 7) 11 hv (by decide)
  exact ⟨⟨hA, hF, hAt, hv, by decide⟩, h.1 (fun _ _ => rfl)⟩

/-! ## Verification after a write -/

/-- C6, at inputs where it fails.  On a bus where the write transmission is not acknowledged
(code 2) and the read-back request delivers no byte, `writeu8(0, 90)` and
`writeArray(0, [90], 1)` return true while address 0 of the chip still holds 0: `_verifyBlock`
compared nothing.  On the 65536-byte chip with an ideal bus, `writeArray` of the whole device
returns true with no transaction at all, and address 0 still holds its old value. -/
theorem write_true_without_stored_data :
    (writeu8 (faultyEnv Build.other AT24LC.AT24LC32 0 (fun _ => 0)) 1
        (new (fun _ => 0) 80 AT24LC.AT24LC32 (-1)) 0 90).map (fun r => (r.1, r.2.mem 0, r.2.log))
      = some (true, 0,
          [Event.writeBlock 0 1, Event.transmission 80 [0, 0, 90] 2, Event.i2cError 80 2,
           Event.verifyBlock 0 1, Event.transmission 80 [0, 0] 0, Event.requestFrom 80 1 0]) ∧
    (writeArray (faultyEnv Build.other AT24LC.AT24LC32 0 (fun _ => 0)) 2
        (new (fun _ => 0) 80 AT24LC.AT24LC32 (-1)) 0 (fun _ => 90) 1).map
        (fun r => (r.1, r.2.mem 0, r.2.log))
      = some (true, 0,
          [Event.writeBlock 0 1, Event.transmission 80 [0, 0, 90] 2, Event.i2cError 80 2,
           Event.verifyBlock 0 1, Event.transmission 80 [0, 0] 0, Event.requestFrom 80 1 0]) ∧
    (writeArray (idealEnv Build.esp AT24LC.AT24LC512) 1
        (new (fun _ => 0) 80 AT24LC.AT24LC512 (-1)) 0 (fun _ => 90) 65536).map
        (fun r => (r.1, r.2.mem 0, r.2.log))
      = some (true, 0, []) := by
  refine ⟨by decide, by decide, by decide⟩

/-- C7, at an input where it fails.  On a bus where the one write transmission is not
acknowledged (code 2), `updateArray(0, [90], 1)` returns true while address 0 of the chip still
holds 0, and its log has no call of `_verifyBlock`: the trailing `verifyArray` got length 0. -/
theorem updateArray_true_without_verification :
    (updateArray (faultyEnv Build.other AT24LC.AT24LC32 1 (fun q => q)) 2
        (new (fun _ => 0) 80 AT24LC.AT24LC32 (-1)) 0 (fun _ => 90) 1).map
        (fun r => (r.1, r.2.mem 0, r.2.log))
      = some (true, 0,
          [Event.readBlock 0 1, Event.transmission 80 [0, 0] 0, Event.requestFrom 80 1 1,
           Event.writeBlock 0 1, Event.transmission 80 [0, 0, 90] 2, Event.i2cError 80 2]) := by
  decide

/-! ## `format` -/

theorem format_eq (env : Env) (fuel : Nat) (s : State) (v : Nat) (h : s._deviceSize < 65536) :
    format env fuel s v =
      writeLoop env fuel (fun i => if i = 0 then v else 0) false fuel s 0 s._deviceSize 0 := by
  unfold format _writeArray
  rw [Nat.mod_eq_of_lt h]

theorem chip_lt (c : AT24LC) (h : c ≠ AT24LC.AT24LC512) : c.toNat < 65536 := by
  cases c <;> first | decide | exact absurd rfl h

theorem writeCount_first (b : Build) (c : AT24LC) :
    2 ≤ writeCount b (getPageSize c) 0 c.toNat := by
  cases b <;> cases c <;> decide

/-- On an acknowledging bus `format(v)` of a chip below 65536 bytes returns true, its calls of
`_WriteBlock` are the chunks of the whole device, address 0 holds `v` and address 1 holds 0. -/
theorem format_acks (env : Env) (hA : env.acks) (s : State) (hAt : Attached env s)
    (hchip : env.chip ≠ AT24LC.AT24LC512) (v fuel : Nat) (hf : s._deviceSize < fuel) :
    ∃ s', format env fuel s v = some (true, s') ∧
      writeCalls s s' =
        writeChunks env.build s._pageSize (s._deviceSize + 1) 0 s._deviceSize ∧
      payloads s s' = (writeCalls s s').length ∧
      s'.mem 0 = v ∧ s'.mem 1 = 0 := by
  obtain ⟨f, rfl⟩ : ∃ f, fuel = f + 1 := ⟨fuel - 1, by omega⟩
  obtain ⟨hP, hP', -, hC, hC0⟩ := chip_facts env.chip
  have h16 := chip_lt env.chip hchip
  have hd := hAt.1
  have hp := hAt.2
  have hc2 := writeCount_first env.build env.chip
  rw [← hp, ← hd] at hc2
  rw [← hp] at hP hP'
  obtain ⟨-, hc1, hc3, -⟩ := writeCount_spec env.build s._pageSize 0 s._deviceSize hP hP'
    (by omega)
  rw [format_eq env _ s v (by omega)]
  -- the first pass of the loop
  obtain ⟨s1, hw, hm1⟩ := WriteBlock_acks env hA f s 0 (fun i => if i = 0 then v else 0) 0
    (writeCount env.build s._pageSize 0 s._deviceSize)
  have r1 := reaches_WriteBlock env _ s 0 _ 0 _ 0 s1 hw
  have hAt1 := attached_of_reaches env s s1 _ r1 hAt
  have hmem1 : ∀ x, x < 2 → s1.mem x = if x = 0 then v else 0 := by
    intro x hx
    rw [hm1, ← hp, show (0 : Nat) % 65536 % env.chip.toNat = 0 from by simp,
      pageStore_mem _ _ _ _ (by simpa using hc3) x]
    simp only [List.length_map, List.length_range]
    rw [if_pos (by omega), Nat.sub_zero, getD_range_map _ _ _ (by omega), Nat.zero_add]
  -- the remaining passes
  obtain ⟨s', hs', hfr, -⟩ := writeLoop_acks env hA f (fun i => if i = 0 then v else 0) false f s1
    ((0 + writeCount env.build s._pageSize 0 s._deviceSize) % 65536)
    (s._deviceSize - writeCount env.build s._pageSize 0 s._deviceSize) 0 hAt1 (by omega)
    (by omega)
  have hrun : writeLoop env (f + 1) (fun i => if i = 0 then v else 0) false (f + 1) s 0
      s._deviceSize 0 = some (true, s') := by
    rw [writeLoop_succ, if_pos (by omega), hw]
    simp only [ne_eq, not_true_eq_false, if_false, Bool.false_eq_true]
    exact hs'
  have hfm : format env (f + 1) s v = some (true, s') := by
    rw [format_eq env _ s v (by omega)]
    exact hrun
  refine ⟨s', hrun, ?_, writeArray_payloads env (f + 1) s 0 _ 0 s._deviceSize false true s' hP hP'
    hfm, ?_, ?_⟩
  · obtain ⟨-, -, ht⟩ := writeArray_calls env (f + 1) s 0 _ 0 s._deviceSize false true s' hfm
    rw [(ht rfl).1, show (0 : Nat) % 65536 = 0 from rfl, Nat.mod_eq_of_lt (by omega)]
    exact writeChunks_fuel env.build _ hP hP' _ _ _ _ (by omega) (by omega)
  · rw [hfr 0 (by omega), hmem1 0 (by omega), if_pos rfl]
  · rw [hfr 1 (by omega), hmem1 1 (by omega), if_neg (by omega)]

theorem format_chunk_count (b : Build) (c : AT24LC) :
    (writeChunks b (getPageSize c) (c.toNat + 1) 0 c.toNat).length =
      c.toNat / getPageSize c *
        ((getPageSize c + min (I2C_BUFFERSIZE b) (getPageSize c) - 1) /
          min (I2C_BUFFERSIZE b) (getPageSize c)) := by
  cases b <;> cases c <;> decide!

/-- C9, at an input where it fails: `format(0xFF)` on the 4096-byte chip with an ideal bus
returns true, address 0 holds 0xFF and address 1 holds 0, not 0xFF. -/
theorem format_leaves_zero_bytes :
    ∃ s', format (idealEnv Build.esp AT24LC.AT24LC32) 4097
        (new (fun _ => 85) 80 AT24LC.AT24LC32 (-1)) 255 = some (true, s') ∧
      s'.mem 0 = 255 ∧ s'.mem 1 = 0 := by
  obtain ⟨s', h1, -, -, h3, h4⟩ := format_acks (idealEnv Build.esp AT24LC.AT24LC32) (fun _ => rfl)
    (new (fun _ => 85) 80 AT24LC.AT24LC32 (-1)) ⟨rfl, rfl⟩ (by decide) 255 4097 (by decide)
  exact ⟨s', h1, h3, h4⟩

/-- C10 as stated fails: on the 4096-byte chip in the 30-byte build `format(0xFF)` makes 256
block writes (256 write transactions on the bus) on an ideal bus, not
ceil(4096 / min(30, 32)) = 137. -/
theorem format_count_counterexample :
    ∃ s', format (idealEnv Build.other AT24LC.AT24LC32) 4097
        (new (fun _ => 0) 80 AT24LC.AT24LC32 (-1)) 255 = some (true, s') ∧
      (writeCalls (new (fun _ => 0) 80 AT24LC.AT24LC32 (-1)) s').length = 256 ∧
      payloads (new (fun _ => 0) 80 AT24LC.AT24LC32 (-1)) s' = 256 ∧
      (writeCalls (new (fun _ => 0) 80 AT24LC.AT24LC32 (-1)) s').length ≠
        ((new (fun _ => 0) 80 AT24LC.AT24LC32 (-1))._deviceSize +
            min (I2C_BUFFERSIZE Build.other) (new (fun _ => 0) 80 AT24LC.AT24LC32 (-1))._pageSize
            - 1) /
          min (I2C_BUFFERSIZE Build.other) (new (fun _ => 0) 80 AT24LC.AT24LC32 (-1))._pageSize := by
  obtain ⟨s', h1, h2, hp, -⟩ := format_acks (idealEnv Build.other AT24LC.AT24LC32)
    (fun _ => rfl) (new (fun _ => 0) 80 AT24LC.AT24LC32 (-1)) ⟨rfl, rfl⟩ (by decide) 255 4097
    (by decide)
  have h3 : (writeCalls (new (fun _ => 0) 80 AT24LC.AT24LC32 (-1)) s').length = 256 := by
    rw [h2]
    exact format_chunk_count Build.other AT24LC.AT24LC32
  refine ⟨s', h1, h3, hp.trans h3, ?_⟩
  rw [h3]
  decide

/-- C10, amended: on an acknowledging bus, for the chips of 4096, 8192, 16384 and 32768 bytes
and both values of I2C_BUFFERSIZE, `format` returns true after exactly
(capacity / page size) * ceil(page size / min(I2C_BUFFERSIZE, page size)) block writes, each
of them one write transaction on the bus. -/
theorem format_write_count (env : Env) (hA : env.acks) (s : State) (hAt : Attached env s)
    (hchip : env.chip ≠ AT24LC.AT24LC512) (v fuel : Nat) (hf : s._deviceSize < fuel) :
    ∃ s', format env fuel s v = some (true, s') ∧
      (writeCalls s s').length =
        s._deviceSize / s._pageSize *
          ((s._pageSize + min (I2C_BUFFERSIZE env.build) s._pageSize - 1) /
            min (I2C_BUFFERSIZE env.build) s._pageSize) ∧
      payloads s s' = (writeCalls s s').length := by
  obtain ⟨s', h1, h2, hp, -⟩ := format_acks env hA s hAt hchip v fuel hf
  refine ⟨s', h1, ?_, hp⟩
  rw [h2, hAt.1, hAt.2]
  exact format_chunk_count env.build env.chip

/-- C10 amended, on the 32768-byte chip in the 30-byte build: 1536 block writes. -/
theorem format_write_count_witness :
    ((idealEnv Build.other AT24LC.AT24LCC256).acks ∧
      Attached (idealEnv Build.other AT24LC.AT24LCC256)
        (new (fun _ => 0) 80 AT24LC.AT24LCC256 (-1)) ∧
      (idealEnv Build.other AT24LC.AT24LCC256).chip ≠ AT24LC.AT24LC512 ∧
      (new (fun _ => 0) 80 AT24LC.AT24LCC256 (-1))._deviceSize < 32769) ∧
    ∃ s', format (idealEnv Build.other AT24LC.AT24LCC256) 32769
        (new (fun _ => 0) 80 AT24LC.AT24LCC256 (-1)) 255 = some (true, s') ∧
      (writeCalls (new (fun _ => 0) 80 AT24LC.AT24LCC256 (-1)) s').length = 1536 ∧
      payloads (new (fun _ => 0) 80 AT24LC.AT24LCC256 (-1)) s' = 1536 := by
  have hA : (idealEnv Build.other AT24LC.AT24LCC256).acks := fun _ => rfl
  have hAt : Attached (idealEnv Build.other AT24LC.AT24LCC256)
      (new (fun _ => 0) 80 AT24LC.AT24LCC256 (-1)) := ⟨rfl, rfl⟩
  have hc : (idealEnv Build.other AT24LC.AT24LCC256).chip ≠ AT24LC.AT24LC512 := by decide
  have hf : (new (fun _ => 0) 80 AT24LC.AT24LCC256 (-1))._deviceSize < 32769 := by decide
  obtain ⟨s', h1, h2, h3⟩ := format_write_count (idealEnv Build.other AT24LC.AT24LCC256) hA
    (new (fun _ => 0) 80 AT24LC.AT24LCC256 (-1)) hAt hc 255 32769 hf
  exact ⟨⟨hA, hAt, hc, hf⟩, s', h1, h2, h3.trans h2⟩

/-! ## Exact logs of the primitives -/

theorem isConnected_log (env : Env) (s : State) :
    (isConnected env s).2.log =
      s.log ++ [probeEvent s._i2cAddress (env.completion s.ends % 256)] := by
  unfold isConnected
  simp only
  rw [wireEnd_log]
  rfl

theorem isConnected_fst (env : Env) (s : State) :
    (isConnected env s).1 = true ↔ env.completion s.ends % 256 = 0 := by
  simp [isConnected, wireEnd_fst, wireBegin]

theorem waitATReady_log (env : Env) :
    ∀ (fuel : Nat) (s s' : State), _waitATReady env fuel s = some s' →
      ∃ cs : List Nat, s'.log = s.log ++ cs.map (probeEvent s._i2cAddress) := by
  intro fuel
  induction fuel with
  | zero => intro s s' h; simp [_waitATReady] at h
  | succ n ih =>
    intro s s' h
    unfold _waitATReady at h
    simp only at h
    split at h
    · split at h
      · cases h
        exact ⟨[env.completion (micros env s).2.ends % 256], by rw [isConnected_log]; rfl⟩
      · obtain ⟨cs, hcs⟩ := ih _ _ h
        refine ⟨(env.completion (micros env s).2.ends % 256) :: cs, ?_⟩
        have hq := (quiet_micros env s).followedBy (quiet_isConnected env (micros env s).2)
        rw [hcs, isConnected_log, hq.1.1]
        simp [micros]
    · cases h
      exact ⟨[], by simp [micros]⟩

theorem beginTransmission_log (s : State) (addr : Nat) :
    (_beginTransmission s addr).log = s.log ++ pinEvents s._writeProtectPin false ∧
    (_beginTransmission s addr).txAddress = s._i2cAddress ∧
    (_beginTransmission s addr).ends = s.ends ∧
    (_beginTransmission s addr)._writeProtectPin = s._writeProtectPin ∧
    (_beginTransmission s addr)._i2cAddress = s._i2cAddress ∧
    (_beginTransmission s addr).clockReads = s.clockReads := by
  unfold _beginTransmission pinEvents
  simp only
  split <;> simp [wireWrite, wireBegin, digitalWrite]

theorem endTransmission_log (env : Env) (s : State) :
    (_endTransmission env s).2.log =
      s.log ++ [Event.transmission s.txAddress s.txBuf (env.completion s.ends % 256)] ++
        pinEvents s._writeProtectPin true ++
        errorEvents s._i2cAddress (env.completion s.ends % 256) := by
  have hr := reaches_wireEnd env s
  have hp : (wireEnd env s).2._writeProtectPin = s._writeProtectPin := hr.2.2.2.2.1
  have hi : (wireEnd env s).2._i2cAddress = s._i2cAddress := hr.1
  unfold _endTransmission pinEvents errorEvents
  simp only [wireEnd_fst, hp, hi]
  split <;> split <;> simp [emit, digitalWrite, wireEnd_log, hi]

/-- The events of one addressed transmission: write-protect low, the transmission with its
completion code, write-protect high, the error report. -/
theorem addressPhase_log (env : Env) (s : State) (addr : Nat) (payload : List Nat) :
    (_endTransmission env (wireWrite (_beginTransmission s addr) payload)).2.log =
      s.log ++ pinEvents s._writeProtectPin false ++
        [Event.transmission s._i2cAddress (header addr ++ payload)
          (env.completion s.ends % 256)] ++
        pinEvents s._writeProtectPin true ++
        errorEvents s._i2cAddress (env.completion s.ends % 256) := by
  obtain ⟨h1, h2, h3, h4, h5, -⟩ := beginTransmission_log s addr
  rw [endTransmission_log]
  simp only [wireWrite, beginTransmission_txBuf, h1, h2, h3, h4, h5, header]

theorem wireWrite_nil (s : State) : wireWrite s [] = s := by
  simp [wireWrite]

theorem addressPhase_log_nil (env : Env) (s : State) (addr : Nat) :
    (_endTransmission env (_beginTransmission s addr)).2.log =
      s.log ++ pinEvents s._writeProtectPin false ++
        [Event.transmission s._i2cAddress (header addr) (env.completion s.ends % 256)] ++
        pinEvents s._writeProtectPin true ++
        errorEvents s._i2cAddress (env.completion s.ends % 256) := by
  have h := addressPhase_log env s addr []
  rw [wireWrite_nil, List.append_nil] at h
  exact h

theorem addressPhase_code (env : Env) (s : State) (addr : Nat) (payload : List Nat) :
    (_endTransmission env (wireWrite (_beginTransmission s addr) payload)).1 =
      env.completion s.ends % 256 := by
  rw [endTransmission_fst]
  simp [wireWrite, (beginTransmission_log s addr).2.2.1]

theorem addressPhase_code_nil (env : Env) (s : State) (addr : Nat) :
    (_endTransmission env (_beginTransmission s addr)).1 = env.completion s.ends % 256 := by
  rw [endTransmission_fst, (beginTransmission_log s addr).2.2.1]

/-- What a returning `_WriteBlock` did: it waited, sent one transmission made of the header
and the payload, and stored the clock value read after `_endTransmission` in `_lastWrite`. -/
theorem WriteBlock_log (env : Env) (fuel : Nat) (s : State) (addr : Nat) (buf : Nat → Nat)
    (pos length ret : Nat) (s' : State)
    (h : _WriteBlock env fuel s addr buf pos length = some (ret, s')) :
    ∃ (sw : State) (cs : List Nat),
      _waitATReady env fuel (emit s (Event.writeBlock addr length)) = some sw ∧
      sw.log = s.log ++ [Event.writeBlock addr length] ++ cs.map (probeEvent s._i2cAddress) ∧
      ret = env.completion sw.ends % 256 ∧
      s'.log = sw.log ++ pinEvents s._writeProtectPin false ++
        [Event.transmission s._i2cAddress (header addr ++ payloadOf buf pos length) ret] ++
        pinEvents s._writeProtectPin true ++ errorEvents s._i2cAddress ret ∧
      s' = { (micros env (_endTransmission env (wireWrite (_beginTransmission sw addr)
              (payloadOf buf pos length))).2).2 with
            _lastWrite := (micros env (_endTransmission env (wireWrite
              (_beginTransmission sw addr) (payloadOf buf pos length))).2).1 } := by
  unfold _WriteBlock at h
  split at h
  · cases h
  · rename_i sw hw
    simp only [Option.some.injEq, Prod.mk.injEq] at h
    obtain ⟨hret, hs'⟩ := h
    obtain ⟨cs, hcs⟩ := waitATReady_log env fuel _ _ hw
    have hq := quiet_waitATReady env fuel _ _ hw
    have hi : sw._i2cAddress = s._i2cAddress := hq.1.1
    have hp : sw._writeProtectPin = s._writeProtectPin := hq.1.2.2.2.2.1
    refine ⟨sw, cs, hw, ?_, ?_, ?_, ?_⟩
    · rw [hcs]
      rfl
    · rw [← hret]
      exact addressPhase_code env sw addr _
    · rw [← hs', ← hret]
      show (_endTransmission env _).2.log = _
      rw [addressPhase_code env sw addr _]
      have := addressPhase_log env sw addr (payloadOf buf pos length)
      rw [hi, hp] at this
      exact this
    · rw [← hs']
      rfl

theorem readLoop_log (pos : Nat) :
    ∀ (n count : Nat) (s : State) (out : Nat → Nat), (readLoop pos n count s out).1.log = s.log := by
  intro n
  induction n with
  | zero => intro count s out; rfl
  | succ n ih =>
    intro count s out
    unfold readLoop
    rw [ih]
    unfold wireRead
    split <;> rfl

theorem verifyLoop_log (buf : Nat → Nat) (pos : Nat) :
    ∀ (n count : Nat) (s : State), (verifyLoop buf pos n count s).2.log = s.log := by
  intro n
  induction n with
  | zero => intro count s; rfl
  | succ n ih =>
    intro count s
    have hw : (wireRead s).2.log = s.log := by
      unfold wireRead
      split <;> rfl
    unfold verifyLoop
    simp only
    split
    · exact hw
    · rw [ih, hw]

theorem addressPhase_requests (env : Env) (s : State) (addr : Nat) :
    (_endTransmission env (_beginTransmission s addr)).2.requests = s.requests := by
  rw [(endTransmission_mem env _).2.2]
  have h1 : (_beginTransmission s addr).requests = s.requests := by
    unfold _beginTransmission
    simp only
    split <;> rfl
  rw [← h1]
  unfold wireEnd
  simp only
  split
  · unfold chipReceive
    split <;> rfl
  · rfl

theorem addressPhase_ptr (env : Env) (s : State) (addr : Nat)
    (h : env.completion s.ends % 256 = 0) :
    (_endTransmission env (_beginTransmission s addr)).2.ptr = addr % 65536 % env.chip.toNat := by
  rw [(endTransmission_mem env _).2.1]
  unfold wireEnd
  simp only [(beginTransmission_log s addr).2.2.1, h, if_true, beginTransmission_txBuf]
  simp [chipReceive, pageStore, header_decode]

/-- What a returning `_ReadBlock` did. -/
theorem ReadBlock_log (env : Env) (fuel : Nat) (s : State) (addr : Nat) (out : Nat → Nat)
    (pos length n : Nat) (out' : Nat → Nat) (s' : State)
    (h : _ReadBlock env fuel s addr out pos length = some (n, out', s')) :
    ∃ (sw : State) (cs : List Nat),
      _waitATReady env fuel (emit s (Event.readBlock addr length)) = some sw ∧
      sw.log = s.log ++ [Event.readBlock addr length] ++ cs.map (probeEvent s._i2cAddress) ∧
      s'.log = sw.log ++ pinEvents s._writeProtectPin false ++
        [Event.transmission s._i2cAddress (header addr) (env.completion sw.ends % 256)] ++
        pinEvents s._writeProtectPin true ++
        errorEvents s._i2cAddress (env.completion sw.ends % 256) ++
        (if env.completion sw.ends % 256 = 0 then
          Event.requestFrom s._i2cAddress length (received env sw.requests length) ::
            mismatchEvents addr length (received env sw.requests length % 256)
         else []) ∧
      n = (if env.completion sw.ends % 256 = 0 then received env sw.requests length % 256
           else 0) := by
  unfold _ReadBlock at h
  split at h
  · cases h
  · rename_i sw hw
    obtain ⟨cs, hcs⟩ := waitATReady_log env fuel _ _ hw
    have hq := quiet_waitATReady env fuel _ _ hw
    have hi : sw._i2cAddress = s._i2cAddress := hq.1.1
    have hp : sw._writeProtectPin = s._writeProtectPin := hq.1.2.2.2.2.1
    have hlog := addressPhase_log_nil env sw addr
    rw [hi, hp] at hlog
    have hcode := addressPhase_code_nil env sw addr
    have hreq := addressPhase_requests env sw addr
    have hi2 : (_endTransmission env (_beginTransmission sw addr)).2._i2cAddress
        = s._i2cAddress := (quiet_addressPhase env sw addr).1.1.trans hi
    have hq1 : (wireRequestFrom env (_endTransmission env (_beginTransmission sw addr)).2
        (_endTransmission env (_beginTransmission sw addr)).2._i2cAddress length).1
        = received env sw.requests length := by
      simp [wireRequestFrom, received, hreq]
    have hq2 : (wireRequestFrom env (_endTransmission env (_beginTransmission sw addr)).2
        (_endTransmission env (_beginTransmission sw addr)).2._i2cAddress length).2.log
        = (_endTransmission env (_beginTransmission sw addr)).2.log ++
          [Event.requestFrom s._i2cAddress length (received env sw.requests length)] := by
      simp [wireRequestFrom, received, hreq, hi2]
    refine ⟨sw, cs, hw, by rw [hcs]; rfl, ?_⟩
    simp only [hcode, hq1] at h
    by_cases hc : env.completion sw.ends % 256 = 0
    · rw [if_neg (by simpa using hc)] at h
      simp only [Option.some.injEq, Prod.mk.injEq] at h
      obtain ⟨hn, -, hs'⟩ := h
      rw [if_pos hc, if_pos hc, ← hs', ← hn, readLoop_log]
      refine ⟨?_, rfl⟩
      unfold mismatchEvents
      by_cases hm : received env sw.requests length % 256 ≠ length
      · rw [if_pos hm, if_pos hm]
        simp [emit, hq2, hlog]
      · rw [if_neg hm, if_neg hm, hq2, hlog]
    · rw [if_pos (by simpa using hc)] at h
      simp only [Option.some.injEq, Prod.mk.injEq] at h
      obtain ⟨hn, -, hs'⟩ := h
      rw [if_neg hc, if_neg hc, ← hs', ← hn, hlog]
      simp

/-- What a returning `_verifyBlock` did, and what its result is. -/
theorem verifyBlock_log (env : Env) (fuel : Nat) (s : State) (addr : Nat) (buf : Nat → Nat)
    (pos length : Nat) (ok : Bool) (s' : State)
    (h : _verifyBlock env fuel s addr buf pos length = some (ok, s')) :
    ∃ (sw : State) (cs : List Nat),
      _waitATReady env fuel (emit s (Event.verifyBlock addr length)) = some sw ∧
      sw.log = s.log ++ [Event.verifyBlock addr length] ++ cs.map (probeEvent s._i2cAddress) ∧
      s'.log = sw.log ++ pinEvents s._writeProtectPin false ++
        [Event.transmission s._i2cAddress (header addr) (env.completion sw.ends % 256)] ++
        pinEvents s._writeProtectPin true ++
        errorEvents s._i2cAddress (env.completion sw.ends % 256) ++
        (if env.completion sw.ends % 256 = 0 then
          [Event.requestFrom s._i2cAddress length (received env sw.requests length)]
         else []) ∧
      (ok = true ↔ env.completion sw.ends % 256 = 0 ∧
        ∀ i, i < received env sw.requests length % 256 →
          buf (pos + i) = s.mem ((addr % 65536 % env.chip.toNat + i) % env.chip.toNat)) := by
  unfold _verifyBlock at h
  split at h
  · cases h
  · rename_i sw hw
    obtain ⟨cs, hcs⟩ := waitATReady_log env fuel _ _ hw
    have hq := (quiet_emit_call s (Event.verifyBlock addr length) rfl).trans_nil_right
      (quiet_waitATReady env fuel _ _ hw)
    have hi : sw._i2cAddress = s._i2cAddress := hq.1.1
    have hp : sw._writeProtectPin = s._writeProtectPin := hq.1.2.2.2.2.1
    have hlog := addressPhase_log_nil env sw addr
    rw [hi, hp] at hlog
    have hcode := addressPhase_code_nil env sw addr
    have hreq := addressPhase_requests env sw addr
    have hqa := quiet_addressPhase env sw addr
    have hi2 : (_endTransmission env (_beginTransmission sw addr)).2._i2cAddress
        = s._i2cAddress := hqa.1.1.trans hi
    have hmem : (_endTransmission env (_beginTransmission sw addr)).2.mem = s.mem :=
      hqa.2.1.trans hq.2.1
    refine ⟨sw, cs, hw, by rw [hcs]; rfl, ?_⟩
    simp only [hcode] at h
    by_cases hc : env.completion sw.ends % 256 = 0
    · rw [if_neg (by simpa using hc)] at h
      simp only [Option.some.injEq] at h
      have hptr := addressPhase_ptr env sw addr hc
      have hv := verifyLoop_true buf pos
        ((wireRequestFrom env (_endTransmission env (_beginTransmission sw addr)).2
          (_endTransmission env (_beginTransmission sw addr)).2._i2cAddress length).1 % 256) 0
        (wireRequestFrom env (_endTransmission env (_beginTransmission sw addr)).2
          (_endTransmission env (_beginTransmission sw addr)).2._i2cAddress length).2
        (by
          simp only [wireRequestFrom, chipSend, List.length_map, List.length_range]
          exact Nat.mod_le _ _)
      have hl := verifyLoop_log buf pos
        ((wireRequestFrom env (_endTransmission env (_beginTransmission sw addr)).2
          (_endTransmission env (_beginTransmission sw addr)).2._i2cAddress length).1 % 256) 0
        (wireRequestFrom env (_endTransmission env (_beginTransmission sw addr)).2
          (_endTransmission env (_beginTransmission sw addr)).2._i2cAddress length).2
      rw [h] at hv hl
      simp only at hv hl
      rw [if_pos hc]
      refine ⟨?_, ?_⟩
      · rw [hl]
        simp [wireRequestFrom, hlog, hreq, hi2, hc, errorEvents, received]
      · rw [hv]
        simp only [hc, true_and, wireRequestFrom, hreq, chipSend, hptr, hmem, Nat.add_zero,
          received]
        constructor
        · intro hall i hi'
          rw [hall i hi', getD_range_map _ _ _ (lt_of_lt_of_le hi' (Nat.mod_le _ _))]
        · intro hall i hi'
          rw [hall i hi', getD_range_map _ _ _ (lt_of_lt_of_le hi' (Nat.mod_le _ _))]
    · rw [if_pos (by simpa using hc)] at h
      simp only [Option.some.injEq, Prod.mk.injEq] at h
      obtain ⟨hok, hs'⟩ := h
      rw [if_neg hc, ← hs', ← hok, hlog]
      simp [hc]

/-! ## The timing gate -/

theorem waitATReady_last_pass (env : Env) :
    ∀ (fuel : Nat) (s s' : State), _waitATReady env fuel s = some s' →
      ∃ s0, Quiet s s0 [] ∧ GateOpen env (waitTime env s) s._lastWrite s0 s' := by
  intro fuel
  induction fuel with
  | zero => intro s s' h; simp [_waitATReady] at h
  | succ n ih =>
    intro s s' h
    unfold _waitATReady at h
    simp only at h
    split at h
    · rename_i hle
      split at h
      · rename_i hc
        cases h
        refine ⟨s, Quiet.still s, Or.inr ⟨hle, hc, rfl, ?_⟩⟩
        rw [isConnected_log]
        have h0 := (isConnected_fst env (micros env s).2).1 hc
        rw [h0]
        rfl
      · obtain ⟨s0, hq, hg⟩ := ih _ _ h
        have hq1 := (quiet_micros env s).trans_nil (quiet_isConnected env (micros env s).2)
        refine ⟨s0, hq1.trans_nil hq, ?_⟩
        have e1 : waitTime env (isConnected env (micros env s).2).2 = waitTime env s := by
          unfold waitTime
          rw [hq1.1.2.2.2.1]
        rw [e1, hq1.2.2.1] at hg
        exact hg
    · rename_i hgt
      cases h
      exact ⟨s, Quiet.still s, Or.inl ⟨by
        have : ¬ elapsed (env.clock s.clockReads % 2 ^ 32) s._lastWrite ≤ waitTime env s := hgt
        omega, rfl, rfl⟩⟩

theorem waitATReady_elapsed (env : Env) (fuel : Nat) (s : State)
    (h : waitTime env s < elapsed (env.clock s.clockReads % 2 ^ 32) s._lastWrite) :
    _waitATReady env (fuel + 1) s = some (micros env s).2 := by
  unfold _waitATReady
  simp only
  have : ¬ ((micros env s).1 + 2 ^ 32 - s._lastWrite) % 2 ^ 32
      ≤ (env.I2C_WRITEDELAY + s._extraTWR * 1000) % 2 ^ 32 := by
    have h' : waitTime env s < elapsed ((micros env s).1) s._lastWrite := h
    unfold waitTime elapsed at h'
    omega
  rw [if_neg this]

/-- C12: with `I2C_WRITEDELAY + _extraTWR * 1000` below 2^32, whenever `_waitATReady` returns,
its last pass either read a clock value more than that delay after `_lastWrite` (difference
taken modulo 2^32) and did nothing else, or issued a presence probe that was acknowledged; if
the delay has already passed at the first clock reading it returns without a probe and without
any bus traffic; and a `_WriteBlock` sends its transmission only after such a wait, measured
from the `_lastWrite` that the block write before it recorded. -/
theorem timing_gate (env : Env) (fuel : Nat) (s : State)
    (hsum : env.I2C_WRITEDELAY + s._extraTWR * 1000 < 2 ^ 32) :
    (∀ s', _waitATReady env fuel s = some s' →
      ∃ s0, Quiet s s0 [] ∧
        GateOpen env (env.I2C_WRITEDELAY + s._extraTWR * 1000) s._lastWrite s0 s') ∧
    (env.I2C_WRITEDELAY + s._extraTWR * 1000 <
        elapsed (env.clock s.clockReads % 2 ^ 32) s._lastWrite →
      _waitATReady env (fuel + 1) s = some (micros env s).2 ∧ (micros env s).2.log = s.log ∧
        (micros env s).2.ends = s.ends) ∧
    (∀ addr buf pos length ret s',
      _WriteBlock env fuel s addr buf pos length = some (ret, s') →
      ∃ sw s0, Quiet s s0 [Event.writeBlock addr length] ∧
        GateOpen env (env.I2C_WRITEDELAY + s._extraTWR * 1000) s._lastWrite s0 sw ∧
        s'.log = sw.log ++ pinEvents s._writeProtectPin false ++
          [Event.transmission s._i2cAddress (header addr ++ payloadOf buf pos length) ret] ++
          pinEvents s._writeProtectPin true ++ errorEvents s._i2cAddress ret) := by
  have hw : waitTime env s = env.I2C_WRITEDELAY + s._extraTWR * 1000 := Nat.mod_eq_of_lt hsum
  refine ⟨?_, ?_, ?_⟩
  · intro s' h
    obtain ⟨s0, hq, hg⟩ := waitATReady_last_pass env fuel s s' h
    rw [hw] at hg
    exact ⟨s0, hq, hg⟩
  · intro h
    rw [← hw] at h
    exact ⟨waitATReady_elapsed env fuel s h, rfl, rfl⟩
  · intro addr buf pos length ret s' h
    obtain ⟨sw, cs, h1, -, -, h4, -⟩ := WriteBlock_log env fuel s addr buf pos length ret s' h
    obtain ⟨s0, hq, hg⟩ := waitATReady_last_pass env fuel _ sw h1
    have e1 : waitTime env (emit s (Event.writeBlock addr length)) = waitTime env s := rfl
    have e2 : (emit s (Event.writeBlock addr length))._lastWrite = s._lastWrite := rfl
    rw [e1, e2, hw] at hg
    exact ⟨sw, s0, (quiet_emit_call s (Event.writeBlock addr length) rfl).trans_nil_right hq, hg,
      h4⟩

/-- C12, on a fresh driver with the default delay of 5000 µs. -/
theorem timing_gate_witness :
    (idealEnv Build.other AT24LC.AT24LC32).I2C_WRITEDELAY +
        (new (fun _ => 0) 80 AT24LC.AT24LC32 (-1))._extraTWR * 1000 < 2 ^ 32 ∧
    ∃ s0, Quiet (new (fun _ => 0) 80 AT24LC.AT24LC32 (-1)) s0 [] ∧
      GateOpen (idealEnv Build.other AT24LC.AT24LC32) 5000 0 s0
        (isConnected (idealEnv Build.other AT24LC.AT24LC32)
          (micros (idealEnv Build.other AT24LC.AT24LC32)
            (new (fun _ => 0) 80 AT24LC.AT24LC32 (-1))).2).2 := by
  have hsum : (idealEnv Build.other AT24LC.AT24LC32).I2C_WRITEDELAY +
      (new (fun _ => 0) 80 AT24LC.AT24LC32 (-1))._extraTWR * 1000 < 2 ^ 32 := by decide
  exact ⟨hsum, (timing_gate (idealEnv Build.other AT24LC.AT24LC32) 1
    (new (fun _ => 0) 80 AT24LC.AT24LC32 (-1)) hsum).1 _ rfl⟩

/-! ## Page size, wire format, frame of the read path -/

/-- C14: the page size is the step function of the capacity with breakpoints 2048, 8192 and
32768; `getPageSize` is that function of the enumerator's value; and for each chip of the
enumeration the page size stored by the constructor is that value, fits in 8 bits and divides
the capacity, which is one of 4096, 8192, 16384, 32768, 65536. -/
theorem page_size_step_function :
    (∀ v, (v ≤ 2048 → pageSizeOfValue v = 16) ∧
      (2048 < v → v ≤ 8192 → pageSizeOfValue v = 32) ∧
      (8192 < v → v ≤ 32768 → pageSizeOfValue v = 64) ∧
      (32768 < v → pageSizeOfValue v = 128)) ∧
    (∀ c, getPageSize c = pageSizeOfValue c.toNat) ∧
    (∀ (c : AT24LC) (mem : Nat → Nat) (i2c : Nat) (pin : Int),
      (new mem i2c c pin)._pageSize = pageSizeOfValue c.toNat ∧
      (new mem i2c c pin)._deviceSize = c.toNat ∧
      (new mem i2c c pin)._pageSize < 256 ∧
      (new mem i2c c pin)._deviceSize % (new mem i2c c pin)._pageSize = 0 ∧
      (c.toNat = 4096 ∨ c.toNat = 8192 ∨ c.toNat = 16384 ∨ c.toNat = 32768 ∨
        c.toNat = 65536)) := by
  refine ⟨?_, ?_, ?_⟩
  · intro v
    unfold pageSizeOfValue
    refine ⟨?_, ?_, ?_, ?_⟩
    · intro h; rw [if_pos h]
    · intro h1 h2; rw [if_neg (by omega), if_pos h2]
    · intro h1 h2; rw [if_neg (by omega), if_neg (by omega), if_pos h2]
    · intro h; rw [if_neg (by omega), if_neg (by omega), if_neg (by omega)]
  · intro c; rfl
  · intro c mem i2c pin
    obtain ⟨-, h2, h3, -, -⟩ := chip_facts c
    have hp : (new mem i2c c pin)._pageSize = getPageSize c := rfl
    have hd : (new mem i2c c pin)._deviceSize = c.toNat := rfl
    refine ⟨rfl, rfl, by rw [hp]; omega, by rw [hp, hd]; exact h3, ?_⟩
    cases c <;> decide

theorem filter_addressed_probes (i2c : Nat) (cs : List Nat) :
    (cs.map (probeEvent i2c)).filter Event.isAddressed = [] := by
  induction cs with
  | nil => rfl
  | cons c cs ih => simp [List.filter, probeEvent, Event.isAddressed]

theorem filter_addressed_pin (pin : Int) (b : Bool) :
    (pinEvents pin b).filter Event.isAddressed = [] := by
  unfold pinEvents
  split <;> rfl

theorem filter_addressed_error (i2c code : Nat) :
    (errorEvents i2c code).filter Event.isAddressed = [] := by
  unfold errorEvents
  split <;> rfl

theorem filter_addressed_mismatch (a l r : Nat) :
    (mismatchEvents a l r).filter Event.isAddressed = [] := by
  unfold mismatchEvents
  split <;> rfl

theorem header_bits (addr : Nat) (ha : addr < 65536) :
    header addr = [addr >>> 8, addr &&& 0xFF] ∧ (addr >>> 8) * 256 + (addr &&& 0xFF) = addr ∧
      addr >>> 8 < 256 ∧ addr &&& 0xFF < 256 := by
  have h1 : addr >>> 8 = addr / 256 := Nat.shiftRight_eq_div_pow addr 8
  have h2 : addr &&& 0xFF = addr % 256 := Nat.and_pow_two_sub_one_eq_mod addr 8
  rw [h1, h2]
  refine ⟨?_, by omega, by omega, by omega⟩
  unfold header
  rw [Nat.mod_eq_of_lt (show addr / 256 < 256 by omega)]

theorem addressed_of_log (s s' : State) (evs : List Event) (h : s'.log = s.log ++ evs) :
    addressed s s' = evs.filter Event.isAddressed := by
  rw [addressed, newEvents_of_log s s' evs h]

/-- C15: for a 16-bit address `a`, the header is the two bytes `a >> 8`, `a & 0xFF`, which
give back `a` as hi * 256 + lo; the one transmission with bytes that a block write makes is
header then payload and nothing else, and the one that a block read or a block verify makes is
the header alone. -/
theorem address_header_wire_format (env : Env) (fuel : Nat) (s : State) (addr : Nat)
    (ha : addr < 65536) :
    (header addr = [addr >>> 8, addr &&& 0xFF] ∧
      (addr >>> 8) * 256 + (addr &&& 0xFF) = addr ∧ addr >>> 8 < 256 ∧ addr &&& 0xFF < 256) ∧
    (∀ buf pos length ret s', _WriteBlock env fuel s addr buf pos length = some (ret, s') →
      addressed s s' = [Event.transmission s._i2cAddress
        (addr >>> 8 :: (addr &&& 0xFF) :: payloadOf buf pos length) ret] ∧
      (payloadOf buf pos length).length = length) ∧
    (∀ out pos length n out' s', _ReadBlock env fuel s addr out pos length = some (n, out', s') →
      ∃ code, addressed s s' =
        [Event.transmission s._i2cAddress [addr >>> 8, addr &&& 0xFF] code]) ∧
    (∀ buf pos length ok s', _verifyBlock env fuel s addr buf pos length = some (ok, s') →
      ∃ code, addressed s s' =
        [Event.transmission s._i2cAddress [addr >>> 8, addr &&& 0xFF] code]) := by
  have hb := header_bits addr ha
  refine ⟨hb, ?_, ?_, ?_⟩
  · intro buf pos length ret s' h
    obtain ⟨sw, cs, -, h2, -, h4, -⟩ := WriteBlock_log env fuel s addr buf pos length ret s' h
    rw [h2] at h4
    refine ⟨?_, by simp [payloadOf]⟩
    unfold addressed newEvents
    rw [h4]
    simp only [List.append_assoc, List.drop_left, List.filter_append, filter_addressed_probes,
      filter_addressed_pin, filter_addressed_error, hb.1]
    simp [List.filter, Event.isAddressed]
  · intro out pos length n out' s' h
    obtain ⟨sw, cs, -, h2, h3, -⟩ := ReadBlock_log env fuel s addr out pos length n out' s' h
    rw [h2] at h3
    refine ⟨env.completion sw.ends % 256, ?_⟩
    unfold addressed newEvents
    rw [h3]
    simp only [List.append_assoc, List.drop_left, List.filter_append, filter_addressed_probes,
      filter_addressed_pin, filter_addressed_error, hb.1]
    split <;> simp [List.filter, Event.isAddressed, filter_addressed_mismatch]
  · intro buf pos length ok s' h
    obtain ⟨sw, cs, -, h2, h3, -⟩ := verifyBlock_log env fuel s addr buf pos length ok s' h
    rw [h2] at h3
    refine ⟨env.completion sw.ends % 256, ?_⟩
    unfold addressed newEvents
    rw [h3]
    simp only [List.append_assoc, List.drop_left, List.filter_append, filter_addressed_probes,
      filter_addressed_pin, filter_addressed_error, hb.1]
    split <;> simp [List.filter, Event.isAddressed]

/-- C15, at address 0x1234 with two payload bytes on an ideal bus. -/
theorem address_header_wire_format_witness :
    (0x1234 < 65536) ∧ header 0x1234 = [0x12, 0x34] ∧
    ∃ s', _WriteBlock (idealEnv Build.other AT24LC.AT24LCC256) 1
        (new (fun _ => 0) 80 AT24LC.AT24LCC256 (-1)) 0x1234 (fun i => 7 + i) 0 2 = some (0, s') ∧
      addressed (new (fun _ => 0) 80 AT24LC.AT24LCC256 (-1)) s' =
        [Event.transmission 80 [0x12, 0x34, 7, 8] 0] := by
  have h := address_header_wire_format (idealEnv Build.other AT24LC.AT24LCC256) 1
    (new (fun _ => 0) 80 AT24LC.AT24LCC256 (-1)) 0x1234 (by decide)
  refine ⟨by decide, by decide, _, rfl, ?_⟩
  exact (h.2.1 (fun i => 7 + i) 0 2 0 _ rfl).1

theorem verifyBlock_returns (env : Env) (hA : env.acks) (fuel : Nat) (s : State) (addr : Nat)
    (buf : Nat → Nat) (pos length : Nat) :
    ∃ ok s', _verifyBlock env (fuel + 1) s addr buf pos length = some (ok, s') := by
  obtain ⟨sw, hw⟩ := waitATReady_acks env hA fuel (emit s (Event.verifyBlock addr length))
  unfold _verifyBlock
  rw [hw]
  simp only [endTransmission_fst_acks env hA, ne_eq, not_true_eq_false, if_false]
  exact ⟨_, _, rfl⟩

theorem verifyBlock_nothing_delivered (env : Env) (hA : env.acks)
    (h0 : ∀ k q, env.delivered k q = 0) (fuel : Nat) (s : State) (addr : Nat)
    (buf : Nat → Nat) (pos length : Nat) :
    ∃ s', _verifyBlock env (fuel + 1) s addr buf pos length = some (true, s') := by
  obtain ⟨ok, s', h⟩ := verifyBlock_returns env hA fuel s addr buf pos length
  obtain ⟨sw, cs, -, -, -, hok⟩ := verifyBlock_log env _ s addr buf pos length ok s' h
  have : ok = true := by
    rw [hok]
    refine ⟨by rw [hA], ?_⟩
    intro i hi
    simp [received, h0] at hi
  subst this
  exact ⟨s', h⟩

theorem verifyArrayLoop_nothing_delivered (env : Env) (hA : env.acks)
    (h0 : ∀ k q, env.delivered k q = 0) (fuel : Nat) (buf : Nat → Nat) :
    ∀ (k : Nat) (s : State) (address len pos : Nat), len < k →
      ∃ s', verifyArrayLoop env (fuel + 1) buf k s address len pos = some (true, s') := by
  intro k
  induction k with
  | zero => intro s address len pos hk; omega
  | succ k ih =>
    intro s address len pos hk
    rw [verifyArrayLoop_succ]
    by_cases hlen : len > 0
    · rw [if_pos hlen]
      obtain ⟨hc1, -, -, -⟩ := readCount_spec env.build len hlen
      obtain ⟨s1, hv⟩ := verifyBlock_nothing_delivered env hA h0 fuel s address buf pos
        (readCount env.build len)
      rw [hv]
      simp only [Bool.true_eq_false, if_false]
      exact ih s1 _ _ _ (by omega)
    · rw [if_neg hlen]
      exact ⟨s, rfl⟩

/-- C17: a returning `_verifyBlock` gives true exactly when its address phase ended with
completion code 0 and each of the bytes the bus delivered (the count that `requestFrom`
returned, as a `uint8_t`) equals the expected byte at its index; the requested length does not
enter.  So with an address phase that is acknowledged and no byte delivered it gives true, and
on such a bus `verifyArray` returns true for every range and buffer and `writeu8` returns true
for every valid address and value, whatever the chip holds. -/
theorem verifyBlock_compares_delivered_bytes (env : Env) (fuel : Nat) (s : State)
    (addr : Nat) (buf : Nat → Nat) (pos length : Nat) :
    (∀ ok s', _verifyBlock env fuel s addr buf pos length = some (ok, s') →
      ∃ sw, _waitATReady env fuel (emit s (Event.verifyBlock addr length)) = some sw ∧
        (ok = true ↔ env.completion sw.ends % 256 = 0 ∧
          ∀ i, i < received env sw.requests length % 256 →
            buf (pos + i) = s.mem ((addr % 65536 % env.chip.toNat + i) % env.chip.toNat)) ∧
        (env.completion sw.ends % 256 = 0 → env.delivered sw.requests length = 0 →
          ok = true)) ∧
    (env.acks → (∀ k q, env.delivered k q = 0) →
      (∃ s', _verifyBlock env (fuel + 1) s addr buf pos length = some (true, s')) ∧
      (length % 65536 ≤ fuel →
        ∃ s', verifyArray env (fuel + 1) s addr buf pos length = some (true, s')) ∧
      (addr + 1 ≤ s._deviceSize → ∀ data,
        ∃ s', writeu8 env (fuel + 1) s addr data = some (true, s'))) := by
  refine ⟨?_, ?_⟩
  · intro ok s' h
    obtain ⟨sw, cs, hw, -, -, hok⟩ := verifyBlock_log env fuel s addr buf pos length ok s' h
    refine ⟨sw, hw, hok, ?_⟩
    intro hc hd
    rw [hok]
    refine ⟨hc, ?_⟩
    intro i hi
    simp [received, hd] at hi
  · intro hA h0
    refine ⟨verifyBlock_nothing_delivered env hA h0 fuel s addr buf pos length, ?_, ?_⟩
    · intro hf
      unfold verifyArray
      exact verifyArrayLoop_nothing_delivered env hA h0 fuel buf (fuel + 1) s _ _ pos
        (by omega)
    · intro hv data
      obtain ⟨s1, hw, -⟩ := WriteBlock_acks env hA fuel s addr (fun _ => data) 0 1
      obtain ⟨s2, hv2⟩ := verifyBlock_nothing_delivered env hA h0 fuel s1 addr
        (fun _ => data) 0 1
      refine ⟨s2, ?_⟩
      unfold writeu8
      rw [(isValidAddress_iff s addr 1).2 hv]
      simp only [Bool.not_true, Bool.false_eq_true, if_false, hw, hv2]

/-! ## Narrowing of lengths -/

theorem isValid_mod (s : State) (addr length : Nat) (hv : addr + length ≤ s._deviceSize) :
    isValidAddress s addr length = true ∧ isValidAddress s addr (length % 65536) = true := by
  have := Nat.mod_le length 65536
  exact ⟨(isValidAddress_iff _ _ _).2 hv, (isValidAddress_iff _ _ _).2 (by omega)⟩

/-- C20: the length handed to `_writeArray`, `verifyArray`, `readArray`, `writeArray` and
`updateArray` is narrowed to 16 bits: each call does exactly what the call with
`length % 65536` does (for the public members on a valid range), the block writes of a
successful `_writeArray` and the block reads of a returning `readArray` sum to
`length % 65536`; and on the 65536-byte chip `format` returns true without a single event on
bus, pin or logger and with chip and driver unchanged, on every bus. -/
theorem lengths_narrowed_to_16_bits (env : Env) (fuel : Nat) (s : State) (addr length : Nat)
    (buf out : Nat → Nat) (pos : Nat) (incr : Bool) :
    _writeArray env fuel s addr buf pos length incr =
      _writeArray env fuel s addr buf pos (length % 65536) incr ∧
    verifyArray env fuel s addr buf pos length =
      verifyArray env fuel s addr buf pos (length % 65536) ∧
    (addr + length ≤ s._deviceSize →
      readArray env fuel s addr out length = readArray env fuel s addr out (length % 65536) ∧
      writeArray env fuel s addr buf length = writeArray env fuel s addr buf (length % 65536) ∧
      updateArray env fuel s addr buf length =
        updateArray env fuel s addr buf (length % 65536)) ∧
    (∀ s', _writeArray env fuel s addr buf pos length incr = some (true, s') →
      ((writeCalls s s').map Prod.snd).sum = length % 65536) ∧
    (addr + length ≤ s._deviceSize → ∀ r, readArray env fuel s addr out length = some r →
      ((readCalls s r.2.2).map Prod.snd).sum = length % 65536) ∧
    (s._deviceSize = 65536 → ∀ v, format env (fuel + 1) s v = some (true, s)) := by
  have hmm : length % 65536 % 65536 = length % 65536 := Nat.mod_mod _ _
  refine ⟨?_, ?_, ?_, ?_, ?_, ?_⟩
  · unfold _writeArray
    rw [hmm]
  · unfold verifyArray
    rw [hmm]
  · intro hv
    obtain ⟨h1, h2⟩ := isValid_mod s addr length hv
    refine ⟨?_, ?_, ?_⟩
    · unfold readArray
      rw [h1, h2, hmm]
    · unfold writeArray _writeArray verifyArray
      rw [h1, h2, hmm]
    · unfold updateArray
      rw [h1, h2, hmm]
  · intro s' h
    exact ((writeArray_calls env fuel s addr buf pos length incr true s' h).2.2 rfl).2
  · intro hv r h
    unfold readArray at h
    rw [(isValidAddress_iff s addr length).2 hv] at h
    simp only [Bool.not_true, Bool.false_eq_true, if_false] at h
    split at h
    · cases h
    · rename_i p out1 s1 hl
      cases h
      obtain ⟨hq, hs, -⟩ := readArrayLoop_trace env fuel fuel s _ _ out 0 p out1 s1 hl
      simp only
      rw [readCalls_of_reaches s s1 _ hq.1, filterMap_mkRead]
      exact hs
  · intro hd v
    unfold format _writeArray
    rw [hd, show (65536 : Nat) % 65536 = 0 from rfl]
    rfl

/-! ## The shape of the pin and bus events -/

theorem Gated.empty (pin : Int) : Gated pin [] := ⟨[], rfl, rfl⟩

theorem Gated.concat {pin : Int} {a b : List Event} (ha : Gated pin a) (hb : Gated pin b) :
    Gated pin (a ++ b) := by
  obtain ⟨sa, wa, ea⟩ := ha
  obtain ⟨sb, wb, eb⟩ := hb
  refine ⟨sa ++ sb, ?_, ?_⟩
  · rw [List.all_append, wa, wb]
    rfl
  · rw [List.flatMap_append, ea, eb]

theorem Gated.ofPlain (pin : Int) (evs : List Event)
    (h : ∀ e, e ∈ evs → e.isPin = false ∧ e.isAddressed = false) : Gated pin evs := by
  induction evs with
  | nil => exact Gated.empty pin
  | cons e r ih =>
    have hr := ih (fun x hx => h x (List.mem_cons_of_mem _ hx))
    have he := h e (List.mem_cons_self _ _)
    have h1 : Gated pin [e] := ⟨[Step.plain e], by simp [Step.wellFormed, he.1, he.2],
      by simp [Step.events]⟩
    exact h1.concat hr

theorem Gated.ofTransmission (pin : Int) (a : Nat) (bytes : List Nat) (c : Nat) (hb : bytes ≠ []) :
    Gated pin (pinEvents pin false ++ [Event.transmission a bytes c] ++ pinEvents pin true) := by
  refine ⟨[Step.gatedTx a bytes c], ?_, ?_⟩
  · cases bytes with
    | nil => exact absurd rfl hb
    | cons x xs => rfl
  · simp [Step.events]

theorem gated_probes (pin : Int) (i2c : Nat) (cs : List Nat) :
    Gated pin (cs.map (probeEvent i2c)) := by
  apply Gated.ofPlain
  intro e he
  obtain ⟨c, -, rfl⟩ := List.mem_map.1 he
  exact ⟨rfl, rfl⟩

theorem gated_errors (pin : Int) (i2c code : Nat) : Gated pin (errorEvents i2c code) := by
  apply Gated.ofPlain
  intro e he
  unfold errorEvents at he
  split at he
  · rw [List.mem_singleton] at he
    subst he
    exact ⟨rfl, rfl⟩
  · cases he

theorem gated_mismatch (pin : Int) (a l r : Nat) : Gated pin (mismatchEvents a l r) := by
  apply Gated.ofPlain
  intro e he
  unfold mismatchEvents at he
  split at he
  · rw [List.mem_singleton] at he
    subst he
    exact ⟨rfl, rfl⟩
  · cases he

theorem gated_one (pin : Int) (e : Event) (h1 : e.isPin = false) (h2 : e.isAddressed = false) :
    Gated pin [e] := by
  apply Gated.ofPlain
  intro x hx
  rw [List.mem_singleton] at hx
  subst hx
  exact ⟨h1, h2⟩

theorem header_ne_nil (addr : Nat) (l : List Nat) : header addr ++ l ≠ [] := by
  simp [header]

theorem Shaped.idle (s : State) : Shaped s s := ⟨rfl, [], by simp, Gated.empty _⟩

theorem Shaped.next {s s1 s2 : State} (h1 : Shaped s s1) (h2 : Shaped s1 s2) :
    Shaped s s2 := by
  obtain ⟨p1, e1, l1, g1⟩ := h1
  obtain ⟨p2, e2, l2, g2⟩ := h2
  rw [p1] at g2
  exact ⟨p2.trans p1, e1 ++ e2, by rw [l2, l1, List.append_assoc], g1.concat g2⟩

theorem shaped_isConnected (env : Env) (s : State) : Shaped s (isConnected env s).2 := by
  refine ⟨(quiet_isConnected env s).1.2.2.2.2.1, _, isConnected_log env s, ?_⟩
  exact gated_one _ _ rfl rfl

theorem shaped_WriteBlock (env : Env) (fuel : Nat) (s : State) (addr : Nat) (buf : Nat → Nat)
    (pos length ret : Nat) (s' : State)
    (h : _WriteBlock env fuel s addr buf pos length = some (ret, s')) : Shaped s s' := by
  obtain ⟨sw, cs, -, h1, -, h2, -⟩ := WriteBlock_log env fuel s addr buf pos length ret s' h
  have hg := (gated_one s._writeProtectPin (Event.writeBlock addr length) rfl rfl).concat
    ((gated_probes s._writeProtectPin s._i2cAddress cs).concat
      ((Gated.ofTransmission s._writeProtectPin s._i2cAddress (header addr ++ payloadOf buf pos length)
        ret (header_ne_nil _ _)).concat (gated_errors s._writeProtectPin s._i2cAddress ret)))
  refine ⟨(reaches_WriteBlock env fuel s addr buf pos length ret s' h).2.2.2.2.1, _, ?_, hg⟩
  rw [h2, h1]
  simp only [List.append_assoc]

theorem shaped_ReadBlock (env : Env) (fuel : Nat) (s : State) (addr : Nat) (out : Nat → Nat)
    (pos length n : Nat) (out' : Nat → Nat) (s' : State)
    (h : _ReadBlock env fuel s addr out pos length = some (n, out', s')) : Shaped s s' := by
  obtain ⟨sw, cs, -, h1, h2, -⟩ := ReadBlock_log env fuel s addr out pos length n out' s' h
  have h3 : Gated s._writeProtectPin
      (if env.completion sw.ends % 256 = 0 then
        Event.requestFrom s._i2cAddress length (received env sw.requests length) ::
          mismatchEvents addr length (received env sw.requests length % 256)
       else []) := by
    split
    · exact Gated.concat (gated_one _ (Event.requestFrom _ _ _) rfl rfl)
        (gated_mismatch _ _ _ _)
    · exact Gated.empty _
  have hg := (gated_one s._writeProtectPin (Event.readBlock addr length) rfl rfl).concat
    ((gated_probes s._writeProtectPin s._i2cAddress cs).concat
      (((Gated.ofTransmission s._writeProtectPin s._i2cAddress (header addr)
        (env.completion sw.ends % 256) (by simp [header])).concat
        (gated_errors s._writeProtectPin s._i2cAddress (env.completion sw.ends % 256))).concat
        h3))
  refine ⟨(quiet_ReadBlock env fuel s addr out pos length n out' s' h).1.2.2.2.2.1, _, ?_, hg⟩
  rw [h2, h1]
  simp only [List.append_assoc]

theorem shaped_verifyBlock (env : Env) (fuel : Nat) (s : State) (addr : Nat)
    (buf : Nat → Nat) (pos length : Nat) (ok : Bool) (s' : State)
    (h : _verifyBlock env fuel s addr buf pos length = some (ok, s')) : Shaped s s' := by
  obtain ⟨sw, cs, -, h1, h2, -⟩ := verifyBlock_log env fuel s addr buf pos length ok s' h
  have h3 : Gated s._writeProtectPin
      (if env.completion sw.ends % 256 = 0 then
        [Event.requestFrom s._i2cAddress length (received env sw.requests length)]
       else []) := by
    split
    · exact gated_one _ (Event.requestFrom _ _ _) rfl rfl
    · exact Gated.empty _
  have hg := (gated_one s._writeProtectPin (Event.verifyBlock addr length) rfl rfl).concat
    ((gated_probes s._writeProtectPin s._i2cAddress cs).concat
      (((Gated.ofTransmission s._writeProtectPin s._i2cAddress (header addr)
        (env.completion sw.ends % 256) (by simp [header])).concat
        (gated_errors s._writeProtectPin s._i2cAddress (env.completion sw.ends % 256))).concat
        h3))
  refine ⟨(quiet_verifyBlock env fuel s addr buf pos length ok s' h).1.2.2.2.2.1, _, ?_, hg⟩
  rw [h2, h1]
  simp only [List.append_assoc]

theorem shaped_writeLoop (env : Env) (fuel : Nat) (buf : Nat → Nat) (incr : Bool) :
    ∀ (k : Nat) (s : State) (address len pos : Nat) (r : Bool) (s' : State),
      writeLoop env fuel buf incr k s address len pos = some (r, s') → Shaped s s' := by
  intro k
  induction k with
  | zero => intro s address len pos r s' h; cases h
  | succ k ih =>
    intro s address len pos r s' h
    rw [writeLoop_succ] at h
    split at h
    · split at h
      · cases h
      · rename_i ret s1 hb
        have hs := shaped_WriteBlock env fuel s _ buf pos _ ret s1 hb
        split at h
        · cases h
          exact hs
        · exact hs.next (ih _ _ _ _ _ _ h)
    · cases h
      exact Shaped.idle s

theorem shaped_verifyArrayLoop (env : Env) (fuel : Nat) (buf : Nat → Nat) :
    ∀ (k : Nat) (s : State) (address len pos : Nat) (r : Bool) (s' : State),
      verifyArrayLoop env fuel buf k s address len pos = some (r, s') → Shaped s s' := by
  intro k
  induction k with
  | zero => intro s address len pos r s' h; cases h
  | succ k ih =>
    intro s address len pos r s' h
    rw [verifyArrayLoop_succ] at h
    split at h
    · split at h
      · cases h
      · rename_i ok s1 hb
        have hs := shaped_verifyBlock env fuel s _ buf pos _ ok s1 hb
        split at h
        · cases h
          exact hs
        · exact hs.next (ih _ _ _ _ _ _ h)
    · cases h
      exact Shaped.idle s

theorem shaped_readArrayLoop (env : Env) (fuel : Nat) :
    ∀ (k : Nat) (s : State) (address len : Nat) (out : Nat → Nat) (pos p : Nat)
      (out' : Nat → Nat) (s' : State),
      readArrayLoop env fuel k s address len out pos = some (p, out', s') → Shaped s s' := by
  intro k
  induction k with
  | zero => intro s address len out pos p out' s' h; cases h
  | succ k ih =>
    intro s address len out pos p out' s' h
    rw [readArrayLoop_succ] at h
    split at h
    · split at h
      · cases h
      · rename_i n out1 s1 hb
        exact (shaped_ReadBlock env fuel s _ out pos _ n out1 s1 hb).next
          (ih _ _ _ _ _ _ _ _ h)
    · cases h
      exact Shaped.idle s

theorem shaped_updateLoop (env : Env) (fuel : Nat) (buf : Nat → Nat) :
    ∀ (k : Nat) (s : State) (address len pos p l : Nat) (s' : State),
      updateLoop env fuel buf k s address len pos = some (p, l, s') → Shaped s s' := by
  intro k
  induction k with
  | zero => intro s address len pos p l s' h; cases h
  | succ k ih =>
    intro s address len pos p l s' h
    rw [updateLoop_succ] at h
    split at h
    · split at h
      · cases h
      · rename_i n tmp s1 hb
        have hs := shaped_ReadBlock env fuel s _ _ _ _ n tmp s1 hb
        split at h
        · split at h
          · cases h
          · rename_i r s2 hw
            exact (hs.next (shaped_writeLoop env fuel buf true _ _ _ _ _ _ _ hw)).next
              (ih _ _ _ _ _ _ _ h)
        · exact hs.next (ih _ _ _ _ _ _ _ h)
    · cases h
      exact Shaped.idle s

theorem shaped_readu8 (env : Env) (fuel : Nat) (s : State) (addr r : Nat) (s' : State)
    (h : readu8 env fuel s addr = some (r, s')) : Shaped s s' := by
  unfold readu8 at h
  split at h
  · cases h
    exact Shaped.idle s
  · split at h
    · cases h
    · rename_i n rdata s1 hb
      cases h
      exact shaped_ReadBlock env fuel s addr _ _ _ n rdata _ hb

theorem shaped_writeu8 (env : Env) (fuel : Nat) (s : State) (addr data : Nat) (r : Bool)
    (s' : State) (h : writeu8 env fuel s addr data = some (r, s')) : Shaped s s' := by
  unfold writeu8 at h
  split at h
  · cases h
    exact Shaped.idle s
  · split at h
    · cases h
    · rename_i ret s1 hb
      exact (shaped_WriteBlock env fuel s addr _ _ _ ret s1 hb).next
        (shaped_verifyBlock env fuel s1 addr _ _ _ r s' h)

theorem shaped_updateu8 (env : Env) (fuel : Nat) (s : State) (addr val : Nat) (r : Bool)
    (s' : State) (h : updateu8 env fuel s addr val = some (r, s')) : Shaped s s' := by
  unfold updateu8 at h
  split at h
  · cases h
    exact Shaped.idle s
  · split at h
    · cases h
    · rename_i x s1 hb
      have h1 := shaped_readu8 env fuel s addr x s1 hb
      split at h
      · cases h
        exact h1
      · exact h1.next (shaped_writeu8 env fuel s1 addr val r s' h)

theorem shaped_writeArray_inner (env : Env) (fuel : Nat) (s : State) (addr : Nat)
    (buf : Nat → Nat) (pos length : Nat) (incr r : Bool) (s' : State)
    (h : _writeArray env fuel s addr buf pos length incr = some (r, s')) : Shaped s s' :=
  shaped_writeLoop env fuel buf incr _ _ _ _ _ _ _ h

theorem shaped_verifyArray (env : Env) (fuel : Nat) (s : State) (addr : Nat)
    (buf : Nat → Nat) (pos length : Nat) (r : Bool) (s' : State)
    (h : verifyArray env fuel s addr buf pos length = some (r, s')) : Shaped s s' :=
  shaped_verifyArrayLoop env fuel buf _ _ _ _ _ _ _ h

theorem shaped_format (env : Env) (fuel : Nat) (s : State) (v : Nat) (r : Bool) (s' : State)
    (h : format env fuel s v = some (r, s')) : Shaped s s' :=
  shaped_writeLoop env fuel _ false _ _ _ _ _ _ _ h

theorem shaped_readArray (env : Env) (fuel : Nat) (s : State) (addr : Nat) (out : Nat → Nat)
    (length : Nat) (p : Option Nat) (out' : Nat → Nat) (s' : State)
    (h : readArray env fuel s addr out length = some (p, out', s')) : Shaped s s' := by
  unfold readArray at h
  split at h
  · cases h
    exact Shaped.idle s
  · split at h
    · cases h
    · rename_i q out1 s1 hb
      cases h
      exact shaped_readArrayLoop env fuel _ _ _ _ _ _ _ _ _ hb

theorem shaped_writeArray (env : Env) (fuel : Nat) (s : State) (addr : Nat) (buf : Nat → Nat)
    (length : Nat) (r : Bool) (s' : State)
    (h : writeArray env fuel s addr buf length = some (r, s')) : Shaped s s' := by
  unfold writeArray at h
  split at h
  · cases h
    exact Shaped.idle s
  · split at h
    · cases h
    · rename_i x s1 hb
      exact (shaped_writeArray_inner env fuel s addr buf 0 length true x s1 hb).next
        (shaped_verifyArray env fuel s1 addr buf 0 length r s' h)

theorem shaped_updateArray (env : Env) (fuel : Nat) (s : State) (addr : Nat)
    (buf : Nat → Nat) (length : Nat) (r : Bool) (s' : State)
    (h : updateArray env fuel s addr buf length = some (r, s')) : Shaped s s' := by
  unfold updateArray at h
  split at h
  · cases h
    exact Shaped.idle s
  · split at h
    · cases h
    · rename_i p l s1 hb
      exact (shaped_updateLoop env fuel buf _ _ _ _ _ _ _ _ hb).next
        (shaped_verifyArray env fuel s1 addr buf p l r s' h)

/-! ## The level of the write-protect line -/

theorem lineAfter_append (pin : Int) (b : Bool) (l1 l2 : List Event) :
    lineAfter pin b (l1 ++ l2) = lineAfter pin (lineAfter pin b l1) l2 := by
  unfold lineAfter
  rw [List.foldl_append]

theorem lineAfter_cons (pin : Int) (b : Bool) (e : Event) (l : List Event) :
    lineAfter pin b (e :: l) = lineAfter pin (lineAfter pin b [e]) l :=
  lineAfter_append pin b [e] l

theorem lineAfter_plain (pin : Int) (b : Bool) (e : Event) (h : e.isPin = false) :
    lineAfter pin b [e] = b := by
  cases e <;> first | rfl | cases h

theorem lineAfter_steps (pin : Int) (hp : pin > -1) :
    ∀ steps : List Step, steps.all Step.wellFormed = true →
      lineAfter pin true (steps.flatMap (Step.events pin)) = true := by
  intro steps
  induction steps with
  | nil => intro _; rfl
  | cons st r ih =>
    intro hw
    rw [List.all_cons, Bool.and_eq_true] at hw
    have h1 : lineAfter pin true (Step.events pin st) = true := by
      cases st with
      | plain e =>
        have h2 : e.isPin = false := by
          have := hw.1
          simp only [Step.wellFormed, Bool.and_eq_true, Bool.not_eq_true'] at this
          exact this.1
        exact lineAfter_plain pin true e h2
      | gatedTx a bytes c =>
        simp only [Step.events, pinEvents, if_pos hp]
        simp [lineAfter]
    rw [List.flatMap_cons, lineAfter_append, h1]
    exact ih hw.2

theorem gated_line_high (pin : Int) (hp : pin > -1) (evs : List Event) (h : Gated pin evs) :
    lineAfter pin true evs = true := by
  obtain ⟨steps, hw, rfl⟩ := h
  exact lineAfter_steps pin hp steps hw

theorem gated_no_pin (pin : Int) (hp : ¬ pin > -1) (evs : List Event) (h : Gated pin evs) :
    ∀ e, e ∈ evs → e.isPin = false := by
  obtain ⟨steps, hw, rfl⟩ := h
  intro e he
  rw [List.mem_flatMap] at he
  obtain ⟨st, hst, hev⟩ := he
  have hwf := List.all_eq_true.1 hw st hst
  cases st with
  | plain x =>
    simp only [Step.events, List.mem_singleton] at hev
    subst hev
    simp only [Step.wellFormed, Bool.and_eq_true, Bool.not_eq_true'] at hwf
    exact hwf.1
  | gatedTx a bytes c =>
    simp only [Step.events, pinEvents, if_neg hp, List.append_nil, List.nil_append,
      List.mem_singleton] at hev
    subst hev
    rfl

theorem lineKept_of_shaped (s s' : State) (h : Shaped s s') : LineKept s s' := by
  obtain ⟨-, evs, hl, hg⟩ := h
  refine ⟨?_, ?_⟩
  · intro hp hhigh
    rw [hl, lineAfter_append, hhigh]
    exact gated_line_high _ hp evs hg
  · intro hp e he
    rw [newEvents_of_log s s' evs hl] at he
    exact gated_no_pin _ hp evs hg e he

/-- The new events of a returning `_ReadBlock` or `_verifyBlock` contain the lowering of a
configured write-protect line. -/
theorem low_mem_of_log (s sw s' : State) (m pr a b c d : List Event)
    (hp : s._writeProtectPin > -1) (h1 : sw.log = s.log ++ m ++ pr)
    (h2 : s'.log = sw.log ++ pinEvents s._writeProtectPin false ++ a ++ b ++ c ++ d) :
    Event.digitalWrite s._writeProtectPin false ∈ newEvents s s' := by
  rw [newEvents_of_log s s' (m ++ pr ++ pinEvents s._writeProtectPin false ++ a ++ b ++ c ++ d)
    (by rw [h2, h1]; simp only [List.append_assoc])]
  simp [pinEvents, hp]

/-- C13 (amended): the write-protect line is gated around every transmission that carries
bytes, the address phases of `_ReadBlock` and `_verifyBlock` as well as the write
transactions of `_WriteBlock`: the events of every public member are a sequence of steps, each
a single event that is neither a pin event nor a transmission with bytes, or a transmission
with bytes between a `digitalWrite(pin, LOW)` and a `digitalWrite(pin, HIGH)` when a pin is
configured; and with a pin configured every returning `_ReadBlock` and `_verifyBlock`, so
every `readu8` on a valid address, drives the line low. -/
theorem write_protect_gates_every_addressed_transmission (env : Env) (fuel : Nat) (s : State) :
    Shaped s (isConnected env s).2 ∧
    (∀ addr r s', readu8 env fuel s addr = some (r, s') → Shaped s s') ∧
    (∀ addr data r s', writeu8 env fuel s addr data = some (r, s') → Shaped s s') ∧
    (∀ addr val r s', updateu8 env fuel s addr val = some (r, s') → Shaped s s') ∧
    (∀ v r s', format env fuel s v = some (r, s') → Shaped s s') ∧
    (∀ addr out length p out' s',
      readArray env fuel s addr out length = some (p, out', s') → Shaped s s') ∧
    (∀ addr buf length r s',
      writeArray env fuel s addr buf length = some (r, s') → Shaped s s') ∧
    (∀ addr buf length r s',
      updateArray env fuel s addr buf length = some (r, s') → Shaped s s') ∧
    (∀ addr buf pos length r s',
      verifyArray env fuel s addr buf pos length = some (r, s') → Shaped s s') ∧
    (s._writeProtectPin > -1 →
      (∀ addr out pos length n out' s',
        _ReadBlock env fuel s addr out pos length = some (n, out', s') →
        Event.digitalWrite s._writeProtectPin false ∈ newEvents s s') ∧
      (∀ addr buf pos length ok s',
        _verifyBlock env fuel s addr buf pos length = some (ok, s') →
        Event.digitalWrite s._writeProtectPin false ∈ newEvents s s') ∧
      (∀ addr r s', addr + 1 ≤ s._deviceSize → readu8 env fuel s addr = some (r, s') →
        Event.digitalWrite s._writeProtectPin false ∈ newEvents s s')) := by
  refine ⟨shaped_isConnected env s, fun a r s' h => shaped_readu8 env fuel s a r s' h,
    fun a d r s' h => shaped_writeu8 env fuel s a d r s' h,
    fun a v r s' h => shaped_updateu8 env fuel s a v r s' h,
    fun v r s' h => shaped_format env fuel s v r s' h,
    fun a o l p o' s' h => shaped_readArray env fuel s a o l p o' s' h,
    fun a b l r s' h => shaped_writeArray env fuel s a b l r s' h,
    fun a b l r s' h => shaped_updateArray env fuel s a b l r s' h,
    fun a b p l r s' h => shaped_verifyArray env fuel s a b p l r s' h, ?_⟩
  intro hp
  have hread : ∀ addr out pos length n out' s',
      _ReadBlock env fuel s addr out pos length = some (n, out', s') →
      Event.digitalWrite s._writeProtectPin false ∈ newEvents s s' := by
    intro addr out pos length n out' s' h
    obtain ⟨sw, cs, -, h1, h2, -⟩ := ReadBlock_log env fuel s addr out pos length n out' s' h
    exact low_mem_of_log s sw s' _ _ _ _ _ _ hp h1 h2
  refine ⟨hread, ?_, ?_⟩
  · intro addr buf pos length ok s' h
    obtain ⟨sw, cs, -, h1, h2, -⟩ := verifyBlock_log env fuel s addr buf pos length ok s' h
    exact low_mem_of_log s sw s' _ _ _ _ _ _ hp h1 h2
  · intro addr r s' hv h
    unfold readu8 at h
    rw [(isValidAddress_iff s addr 1).2 hv] at h
    simp only [Bool.not_true, Bool.false_eq_true, if_false] at h
    split at h
    · cases h
    · rename_i n rdata s1 hb
      cases h
      exact hread _ _ _ _ _ _ _ hb

/-- C13 (counterexample): a fresh driver with write-protect pin 7 on an AT24LC32, ideal bus:
`readu8(0)` probes the chip, then drives pin 7 low, sends the two address bytes, drives pin 7
high and requests one byte. -/
theorem readu8_lowers_write_protect :
    (readu8 (idealEnv Build.other AT24LC.AT24LC32) 1
        (new (fun _ => 0) 80 AT24LC.AT24LC32 7) 0).map
      (fun r => newEvents (new (fun _ => 0) 80 AT24LC.AT24LC32 7) r.2) =
    some [Event.readBlock 0 1, Event.transmission 80 [] 0, Event.digitalWrite 7 false,
      Event.transmission 80 [0, 0] 0, Event.digitalWrite 7 true,
      Event.requestFrom 80 1 1] := by
  decide

/-- C18: the write-protect line invariant.  With a pin configured the line is high after
construction, and a line that is high when a public member is called is high when it returns,
whatever it returns and on every bus; without a pin the constructor and every public member
leave all pins alone. -/
theorem write_protect_line_invariant (env : Env) (fuel : Nat) (s : State) :
    (∀ mem i2c c (pin : Int), pin > -1 →
      lineAfter pin false (new mem i2c c pin).log = true) ∧
    (∀ mem i2c c (pin : Int), ¬ pin > -1 → (new mem i2c c pin).log = []) ∧
    LineKept s (isConnected env s).2 ∧
    (∀ addr r s', readu8 env fuel s addr = some (r, s') → LineKept s s') ∧
    (∀ addr data r s', writeu8 env fuel s addr data = some (r, s') → LineKept s s') ∧
    (∀ addr val r s', updateu8 env fuel s addr val = some (r, s') → LineKept s s') ∧
    (∀ v r s', format env fuel s v = some (r, s') → LineKept s s') ∧
    (∀ addr out length p out' s',
      readArray env fuel s addr out length = some (p, out', s') → LineKept s s') ∧
    (∀ addr buf length r s',
      writeArray env fuel s addr buf length = some (r, s') → LineKept s s') ∧
    (∀ addr buf length r s',
      updateArray env fuel s addr buf length = some (r, s') → LineKept s s') ∧
    (∀ addr buf pos length r s',
      verifyArray env fuel s addr buf pos length = some (r, s') → LineKept s s') := by
  refine ⟨?_, ?_, lineKept_of_shaped _ _ (shaped_isConnected env s),
    fun a r s' h => lineKept_of_shaped _ _ (shaped_readu8 env fuel s a r s' h),
    fun a d r s' h => lineKept_of_shaped _ _ (shaped_writeu8 env fuel s a d r s' h),
    fun a v r s' h => lineKept_of_shaped _ _ (shaped_updateu8 env fuel s a v r s' h),
    fun v r s' h => lineKept_of_shaped _ _ (shaped_format env fuel s v r s' h),
    fun a o l p o' s' h => lineKept_of_shaped _ _ (shaped_readArray env fuel s a o l p o' s' h),
    fun a b l r s' h => lineKept_of_shaped _ _ (shaped_writeArray env fuel s a b l r s' h),
    fun a b l r s' h => lineKept_of_shaped _ _ (shaped_updateArray env fuel s a b l r s' h),
    fun a b p l r s' h => lineKept_of_shaped _ _ (shaped_verifyArray env fuel s a b p l r s' h)⟩
  · intro mem i2c c pin hp
    simp [new, hp, lineAfter]
  · intro mem i2c c pin hp
    simp [new, hp]

/-! ## Completion codes of the write transactions -/

theorem writeCodes_of_log (s s' : State) (evs : List Event) (h : s'.log = s.log ++ evs) :
    writeCodes s s' = evs.filterMap Event.writeCode := by
  unfold writeCodes
  rw [newEvents_of_log s s' evs h]

theorem writeCodes_andThen {s s1 s2 : State} {c1 c2 : List Event}
    (h1 : Reaches s s1 c1) (h2 : Reaches s1 s2 c2) :
    writeCodes s s2 = writeCodes s s1 ++ writeCodes s1 s2 := by
  obtain ⟨-, -, -, -, -, e1, l1, -⟩ := h1
  obtain ⟨-, -, -, -, -, e2, l2, -⟩ := h2
  rw [writeCodes_of_log s s1 e1 l1, writeCodes_of_log s1 s2 e2 l2,
    writeCodes_of_log s s2 (e1 ++ e2) (by rw [l2, l1, List.append_assoc]),
    List.filterMap_append]

theorem writeCode_probes (i2c : Nat) (cs : List Nat) :
    (cs.map (probeEvent i2c)).filterMap Event.writeCode = [] := by
  induction cs with
  | nil => rfl
  | cons c r _ => simp [List.filterMap_cons, probeEvent, Event.writeCode]

theorem writeCode_pin (pin : Int) (b : Bool) :
    (pinEvents pin b).filterMap Event.writeCode = [] := by
  unfold pinEvents
  split <;> rfl

theorem writeCode_error (i2c code : Nat) :
    (errorEvents i2c code).filterMap Event.writeCode = [] := by
  unfold errorEvents
  split <;> rfl

theorem writeCodes_WriteBlock (env : Env) (fuel : Nat) (s : State) (addr : Nat)
    (buf : Nat → Nat) (pos length ret : Nat) (s' : State)
    (h : _WriteBlock env fuel s addr buf pos length = some (ret, s')) :
    writeCodes s s' = if 0 < length then [ret] else [] := by
  obtain ⟨sw, cs, -, h1, -, h2, -⟩ := WriteBlock_log env fuel s addr buf pos length ret s' h
  rw [writeCodes_of_log s s' ([Event.writeBlock addr length] ++
    cs.map (probeEvent s._i2cAddress) ++ pinEvents s._writeProtectPin false ++
    [Event.transmission s._i2cAddress (header addr ++ payloadOf buf pos length) ret] ++
    pinEvents s._writeProtectPin true ++ errorEvents s._i2cAddress ret)
    (by rw [h2, h1]; simp only [List.append_assoc])]
  simp only [List.filterMap_append, writeCode_probes, writeCode_pin, writeCode_error,
    List.append_nil, List.nil_append]
  have hl : (header addr ++ payloadOf buf pos length).length = 2 + length := by
    simp [header, payloadOf]
    omega
  by_cases h0 : 0 < length
  · rw [if_pos h0]
    simp [Event.writeCode, hl, h0]
  · rw [if_neg h0]
    have : length = 0 := by omega
    subst this
    simp [Event.writeCode, header, payloadOf]

theorem writeLoop_true_codes (env : Env) (fuel : Nat) (buf : Nat → Nat) (incr : Bool) :
    ∀ (k : Nat) (s : State) (address len pos : Nat) (s' : State),
      writeLoop env fuel buf incr k s address len pos = some (true, s') →
      ∀ c, c ∈ writeCodes s s' → c = 0 := by
  intro k
  induction k with
  | zero => intro s address len pos s' h; cases h
  | succ k ih =>
    intro s address len pos s' h c hc
    rw [writeLoop_succ] at h
    split at h
    · split at h
      · cases h
      · rename_i ret s1 hw
        have r1 := reaches_WriteBlock env fuel s address buf pos _ ret s1 hw
        have c1 := writeCodes_WriteBlock env fuel s address buf pos _ ret s1 hw
        split at h
        · cases h
        · rename_i hret
          have hret0 : ret = 0 := by
            by_contra hne
            exact hret hne
          obtain ⟨cs, -, r2, -, -⟩ := writeLoop_trace env fuel buf incr k _ _ _ _ _ _ h
          rw [writeCodes_andThen r1 r2, List.mem_append] at hc
          cases hc with
          | inl hc =>
            rw [c1] at hc
            split at hc
            · rw [List.mem_singleton] at hc
              rw [hc, hret0]
            · cases hc
          | inr hc => exact ih _ _ _ _ _ h c hc
    · simp only [Option.some.injEq, Prod.mk.injEq, true_and] at h
      subst h
      rw [writeCodes_of_log s s [] (by simp)] at hc
      cases hc

/-! ## What a block write does to the chip -/

theorem wireEnd_mem (env : Env) (s : State) (hi lo : Nat) (payload : List Nat)
    (h : s.txBuf = hi :: lo :: payload) :
    (wireEnd env s).2.mem =
      if env.completion s.ends % 256 = 0 then
        (pageStore (getPageSize env.chip) s.mem ((hi * 256 + lo) % env.chip.toNat) payload).1
      else s.mem := by
  unfold wireEnd
  simp only
  split
  · rw [h]
    rfl
  · rfl

theorem WriteBlock_mem (env : Env) (fuel : Nat) (s : State) (addr : Nat) (buf : Nat → Nat)
    (pos length ret : Nat) (s' : State)
    (h : _WriteBlock env fuel s addr buf pos length = some (ret, s')) :
    s'.mem = if ret = 0 then
        (pageStore (getPageSize env.chip) s.mem (addr % 65536 % env.chip.toNat)
          (payloadOf buf pos length)).1
      else s.mem := by
  obtain ⟨sw, cs, hw, -, hret, -, hs'⟩ := WriteBlock_log env fuel s addr buf pos length ret s' h
  have q1 := (quiet_emit_call s (Event.writeBlock addr length) rfl).trans_nil_right
    (quiet_waitATReady env _ _ _ hw)
  have q2 := quiet_beginTransmission sw addr
  have hb := beginTransmission_log sw addr
  rw [hs']
  show (_endTransmission env _).2.mem = _
  rw [(endTransmission_mem env _).1, wireEnd_mem env _ (addr / 256 % 256) (addr % 256)
    (payloadOf buf pos length) (by simp [wireWrite, beginTransmission_txBuf]), header_decode]
  have he : (wireWrite (_beginTransmission sw addr) (payloadOf buf pos length)).ends = sw.ends :=
    hb.2.2.1
  have hm : (wireWrite (_beginTransmission sw addr) (payloadOf buf pos length)).mem = s.mem := by
    show (_beginTransmission sw addr).mem = s.mem
    rw [q2.2.1, q1.2.1]
  rw [he, hm, ← hret]

theorem WriteBlock_frame (env : Env) (fuel : Nat) (s : State) (addr : Nat) (buf : Nat → Nat)
    (pos length ret : Nat) (s' : State) (hAt : Attached env s) (h1 : 1 ≤ length)
    (h2 : length ≤ s._pageSize - addr % s._pageSize) (hv : addr + length ≤ s._deviceSize)
    (h : _WriteBlock env fuel s addr buf pos length = some (ret, s')) :
    ∀ x, x < addr ∨ addr + length ≤ x → s'.mem x = s.mem x := by
  intro x hx
  rw [WriteBlock_mem env fuel s addr buf pos length ret s' h]
  split
  · obtain ⟨-, -, -, hc, -⟩ := chip_facts env.chip
    have hd := hAt.1
    have hlt : addr < env.chip.toNat := by omega
    have ha : addr % 65536 % env.chip.toNat = addr := by
      rw [Nat.mod_eq_of_lt (by omega : addr < 65536), Nat.mod_eq_of_lt hlt]
    have hl : (payloadOf buf pos length).length = length := by simp [payloadOf]
    rw [ha, ← hAt.2, pageStore_mem _ _ _ _ (by rw [hl]; exact h2) x, hl,
      if_neg (by omega)]
  · rfl

theorem no_chunks_of_zero_len (b : Build) (P k address : Nat) (cs : List (Nat × Nat))
    (h : cs <+: writeChunks b P k address 0) : cs = [] := by
  rw [writeChunks_zero] at h
  exact List.prefix_nil.1 h

/-- The loop of `_writeArray` on every bus: the calls are a prefix of the chunk list, the
codes of the write transactions are zeros, followed by one non-zero code exactly when the
result is false, and nothing outside the called chunks is written. -/
theorem writeLoop_stops (env : Env) (fuel : Nat) (buf : Nat → Nat) (incr : Bool) :
    ∀ (k : Nat) (s : State) (address len pos : Nat) (r : Bool) (s' : State),
      Attached env s → address + len ≤ s._deviceSize →
      writeLoop env fuel buf incr k s address len pos = some (r, s') →
      ∃ cs : List (Nat × Nat),
        cs <+: writeChunks env.build s._pageSize k address len ∧
        Reaches s s' (cs.map mkWrite) ∧
        (r = true → cs = writeChunks env.build s._pageSize k address len ∧
          writeCodes s s' = List.replicate cs.length 0) ∧
        (r = false → 0 < cs.length ∧
          ∃ c, c ≠ 0 ∧ writeCodes s s' = List.replicate (cs.length - 1) 0 ++ [c]) ∧
        (∀ x, x < address ∨ address + (cs.map Prod.snd).sum ≤ x → s'.mem x = s.mem x) := by
  intro k
  induction k with
  | zero => intro s address len pos r s' _ _ h; cases h
  | succ k ih =>
    intro s address len pos r s' hAt hv h
    obtain ⟨hP0, hP1, -, hcap, -⟩ := chip_facts env.chip
    rw [← hAt.2] at hP0 hP1
    rw [← hAt.1] at hcap
    rw [writeLoop_succ] at h
    split at h
    · rename_i hlen
      obtain ⟨hc1, hc2, hc3, -⟩ := writeCount_spec env.build s._pageSize address len hP0 hP1 hlen
      split at h
      · cases h
      · rename_i ret s1 hw
        have r1 := reaches_WriteBlock env fuel s address buf pos _ ret s1 hw
        have c1 := writeCodes_WriteBlock env fuel s address buf pos _ ret s1 hw
        rw [if_pos (by omega)] at c1
        have f1 := WriteBlock_frame env fuel s address buf pos _ ret s1 hAt hc1 hc3
          (by omega) hw
        split at h
        · rename_i hret
          simp only [Option.some.injEq, Prod.mk.injEq] at h
          obtain ⟨rfl, rfl⟩ := h
          refine ⟨[(address, writeCount env.build s._pageSize address len)], ?_, r1, ?_, ?_, ?_⟩
          · simp [writeChunks, hlen]
          · intro hf
            cases hf
          · intro _
            exact ⟨by simp, ret, hret, by rw [c1]; rfl⟩
          · intro x hx
            simp only [List.map_cons, List.map_nil, List.sum_cons, List.sum_nil,
              Nat.add_zero] at hx
            exact f1 x hx
        · rename_i hret
          have hret0 : ret = 0 := by
            by_contra hne
            exact hret hne
          have hAt1 := attached_of_reaches env s s1 _ r1 hAt
          have hnext : (address + writeCount env.build s._pageSize address len) % 65536 +
              (len - writeCount env.build s._pageSize address len) ≤ s1._deviceSize := by
            rw [r1.2.1]
            by_cases hlt : address + writeCount env.build s._pageSize address len < 65536
            · rw [Nat.mod_eq_of_lt hlt]
              omega
            · have : address + writeCount env.build s._pageSize address len = 65536 := by omega
              rw [this]
              omega
          obtain ⟨cs, hp, hr, ht, hf, hfr⟩ := ih _ _ _ _ _ _ hAt1 hnext h
          rw [r1.2.2.1] at hp ht
          have hr' : Reaches s1 s' (cs.map mkWrite) := hr
          refine ⟨(address, writeCount env.build s._pageSize address len) :: cs,
            ?_, ?_, ?_, ?_, ?_⟩
          · simp only [writeChunks, hlen, if_true]
            exact (List.prefix_cons_inj _).2 hp
          · simpa [mkWrite] using r1.andThen hr
          · intro hr2
            obtain ⟨h1, h2⟩ := ht hr2
            refine ⟨?_, ?_⟩
            · simp only [writeChunks, hlen, if_true]
              rw [← h1]
            · rw [writeCodes_andThen r1 hr', c1, h2, hret0]
              rfl
          · intro hr2
            obtain ⟨h1, c, hc, h2⟩ := hf hr2
            refine ⟨by simp, c, hc, ?_⟩
            rw [writeCodes_andThen r1 hr', c1, h2, hret0]
            simp only [List.length_cons, Nat.add_sub_cancel]
            obtain ⟨n, hn⟩ : ∃ n, cs.length = n + 1 := ⟨cs.length - 1, by omega⟩
            rw [hn]
            rfl
          · intro x hx
            simp only [List.map_cons, List.sum_cons] at hx
            have hz : len - writeCount env.build s._pageSize address len = 0 →
                (cs.map Prod.snd).sum = 0 := by
              intro h0
              rw [h0] at hp
              rw [no_chunks_of_zero_len _ _ _ _ cs hp]
              rfl
            rw [hfr x ?_, f1 x (by omega)]
            by_cases hlt : address + writeCount env.build s._pageSize address len < 65536
            · rw [Nat.mod_eq_of_lt hlt]
              omega
            · have h65 : address + writeCount env.build s._pageSize address len = 65536 := by
                omega
              have := hz (by omega)
              rw [h65, this]
              omega
    · simp only [Option.some.injEq, Prod.mk.injEq] at h
      obtain ⟨rfl, rfl⟩ := h
      have hl : len = 0 := by omega
      refine ⟨[], by simp, by simpa using Reaches.here s, ?_, ?_, ?_⟩
      · intro _
        exact ⟨by simp [writeChunks, hl], writeCodes_of_log s s [] (by simp)⟩
      · intro hf
        cases hf
      · intro x _
        rfl

/-- C19: `_writeArray` stops at the first failing block.  For a driver attached to its chip
and a range inside the chip, every returning call issued exactly `k` block writes and `k`
write transactions, the first `k` chunks of the all-success chunk list; the result is false
exactly when the last of them ended with a non-zero completion code, all before it having
ended with 0, and true only when every transaction reported 0 and all chunks were issued;
no address outside the issued chunks, so none at or beyond the end of the k-th chunk, is
written; and on an acknowledging bus the call returns true having issued the whole list. -/
theorem writeArray_stops_at_first_failure (env : Env) (fuel : Nat) (s : State) (addr : Nat)
    (buf : Nat → Nat) (pos length : Nat) (incr : Bool) (hAt : Attached env s)
    (hv : addr + length % 65536 ≤ s._deviceSize) :
    (∀ r s', _writeArray env fuel s addr buf pos length incr = some (r, s') →
      ∃ k, k ≤ (writeChunks env.build s._pageSize fuel (addr % 65536) (length % 65536)).length ∧
        writeCalls s s' =
          (writeChunks env.build s._pageSize fuel (addr % 65536) (length % 65536)).take k ∧
        payloads s s' = k ∧ (writeCodes s s').length = k ∧
        (r = false → 0 < k ∧ ∃ c, c ≠ 0 ∧ writeCodes s s' = List.replicate (k - 1) 0 ++ [c]) ∧
        (r = true → writeCodes s s' = List.replicate k 0 ∧
          k = (writeChunks env.build s._pageSize fuel (addr % 65536)
            (length % 65536)).length) ∧
        (∀ x, x < addr ∨ addr + ((writeCalls s s').map Prod.snd).sum ≤ x →
          s'.mem x = s.mem x)) ∧
    (∀ env' : Env, env'.acks → env'.build = env.build → length % 65536 < fuel →
      ∃ s', _writeArray env' fuel s addr buf pos length incr = some (true, s') ∧
        writeCalls s s' =
          writeChunks env.build s._pageSize fuel (addr % 65536) (length % 65536)) := by
  obtain ⟨hP0, hP1, -, hcap, -⟩ := chip_facts env.chip
  rw [← hAt.2] at hP0 hP1
  rw [← hAt.1] at hcap
  refine ⟨?_, ?_⟩
  · intro r s' h
    have hv' : addr % 65536 + length % 65536 ≤ s._deviceSize := by
      have := Nat.mod_le addr 65536
      omega
    obtain ⟨cs, hp, hr, ht, hf, hfr⟩ :=
      writeLoop_stops env fuel buf incr fuel s _ _ pos r s' hAt hv' h
    have hcalls : writeCalls s s' = cs := by
      rw [writeCalls_of_reaches s s' _ hr, filterMap_mkWrite]
    have hpay := writeArray_payloads env fuel s addr buf pos length incr r s' hP0 hP1 h
    have hlen : (writeCodes s s').length = cs.length := by
      cases r with
      | true => rw [(ht rfl).2, List.length_replicate]
      | false =>
        obtain ⟨h0, c, -, hc⟩ := hf rfl
        rw [hc, List.length_append, List.length_replicate]
        simp only [List.length_singleton]
        omega
    refine ⟨cs.length, hp.length_le, ?_, ?_, hlen, hf, ?_, ?_⟩
    · rw [hcalls]
      exact List.prefix_iff_eq_take.1 hp
    · rw [hpay, hcalls]
    · intro hr2
      exact ⟨(ht hr2).2, by rw [← (ht hr2).1]⟩
    · intro x hx
      rw [hcalls] at hx
      apply hfr x
      by_cases hlt : addr < 65536
      · rw [Nat.mod_eq_of_lt hlt]
        exact hx
      · have h65 : addr = 65536 := by omega
        have hl0 : length % 65536 = 0 := by omega
        rw [hl0] at hp
        rw [no_chunks_of_zero_len _ _ _ _ cs hp]
        right
        rw [h65]
        exact Nat.zero_le x
  · intro env' hA hb hfuel
    cases fuel with
    | zero => omega
    | succ f =>
      obtain ⟨s', hs'⟩ := writeLoop_terminates env' hA f buf incr (f + 1) s (addr % 65536)
        (length % 65536) pos hP0 hP1 hfuel
      refine ⟨s', hs', ?_⟩
      have := ((writeArray_calls env' (f + 1) s addr buf pos length incr true s' hs').2.2 rfl).1
      rw [hb] at this
      exact this

/-- C19, on an AT24LC32 with 30-byte transport buffer: writing 40 bytes from address 0 on a
bus that does not acknowledge the second transmission issues the chunks (0, 30) and (30, 2),
with completion codes 0 and 2, and returns false; the third chunk (32, 8) is never sent. -/
theorem writeArray_stops_at_first_failure_witness :
    Attached (faultyEnv Build.other AT24LC.AT24LC32 1 (fun q => q))
      (new (fun _ => 0) 80 AT24LC.AT24LC32 (-1)) ∧
    0 + 40 % 65536 ≤ (new (fun _ => 0) 80 AT24LC.AT24LC32 (-1))._deviceSize ∧
    (_writeArray (faultyEnv Build.other AT24LC.AT24LC32 1 (fun q => q)) 41
        (new (fun _ => 0) 80 AT24LC.AT24LC32 (-1)) 0 (fun i => i + 1) 0 40 true).map
      (fun r => (r.1, writeCalls (new (fun _ => 0) 80 AT24LC.AT24LC32 (-1)) r.2,
        writeCodes (new (fun _ => 0) 80 AT24LC.AT24LC32 (-1)) r.2, r.2.mem 29, r.2.mem 30)) =
      some (false, [(0, 30), (30, 2)], [0, 2], 30, 0) ∧
    ∀ s', _writeArray (faultyEnv Build.other AT24LC.AT24LC32 1 (fun q => q)) 41
        (new (fun _ => 0) 80 AT24LC.AT24LC32 (-1)) 0 (fun i => i + 1) 0 40 true =
        some (false, s') →
      ∀ x, 0 + ((writeCalls (new (fun _ => 0) 80 AT24LC.AT24LC32 (-1)) s').map Prod.snd).sum ≤ x →
        s'.mem x = 0 := by
  have hAt : Attached (faultyEnv Build.other AT24LC.AT24LC32 1 (fun q => q))
      (new (fun _ => 0) 80 AT24LC.AT24LC32 (-1)) := ⟨rfl, rfl⟩
  have hv : 0 + 40 % 65536 ≤ (new (fun _ => 0) 80 AT24LC.AT24LC32 (-1))._deviceSize := by
    decide
  refine ⟨hAt, hv, by decide, ?_⟩
  intro s' h x hx
  obtain ⟨k, -, -, -, -, -, -, hfr⟩ := (writeArray_stops_at_first_failure
    (faultyEnv Build.other AT24LC.AT24LC32 1 (fun q => q)) 41
    (new (fun _ => 0) 80 AT24LC.AT24LC32 (-1)) 0 (fun i => i + 1) 0 40 true hAt hv).1
    false s' h
  exact hfr x (Or.inr hx)

/-! ## The result of the write members -/

/-- C11 (amended): `format` propagates a transport error on a write as false: it returns
false whenever one of its write transactions ended with a non-zero completion code.  `writeu8`
discards the code of its block write and returns what the read-back `_verifyBlock` returns; a
failed block write leaves the chip content alone, so the result is false when the read-back
delivers the byte and the chip did not already hold `data` at the address.  `writeArray`
returns what `verifyArray` returns after `_writeArray`, whatever `_writeArray` returned, and
`updateu8` returns true without writing when the byte read equals the value and otherwise
what `writeu8` returns. -/
theorem write_error_propagation (env : Env) (fuel : Nat) (s : State) :
    (∀ v r s', format env fuel s v = some (r, s') →
      (∃ c, c ∈ writeCodes s s' ∧ c ≠ 0) → r = false) ∧
    (∀ addr data ok s', addr + 1 ≤ s._deviceSize →
      writeu8 env fuel s addr data = some (ok, s') →
      ∃ ret s1, _WriteBlock env fuel s addr (fun _ => data) 0 1 = some (ret, s1) ∧
        writeCodes s s1 = [ret] ∧
        _verifyBlock env fuel s1 addr (fun _ => data) 0 1 = some (ok, s') ∧
        (ret ≠ 0 → s1.mem = s.mem) ∧
        (ret ≠ 0 → s.mem (addr % 65536 % env.chip.toNat) ≠ data →
          ∀ sw, _waitATReady env fuel (emit s1 (Event.verifyBlock addr 1)) = some sw →
            1 ≤ received env sw.requests 1 % 256 → ok = false)) ∧
    (∀ addr buf length ok s', addr + length ≤ s._deviceSize →
      writeArray env fuel s addr buf length = some (ok, s') →
      ∃ r1 s1, _writeArray env fuel s addr buf 0 length true = some (r1, s1) ∧
        verifyArray env fuel s1 addr buf 0 length = some (ok, s')) ∧
    (∀ addr val ok s', addr + 1 ≤ s._deviceSize →
      updateu8 env fuel s addr val = some (ok, s') →
      ∃ rd s1, readu8 env fuel s addr = some (rd, s1) ∧
        (val = rd → ok = true ∧ s' = s1) ∧
        (val ≠ rd → writeu8 env fuel s1 addr val = some (ok, s'))) := by
  refine ⟨?_, ?_, ?_, ?_⟩
  · intro v r s' h hc
    cases r with
    | false => rfl
    | true =>
      obtain ⟨c, hc1, hc2⟩ := hc
      exact absurd (writeLoop_true_codes env fuel _ false _ _ _ _ _ _ h c hc1) hc2
  · intro addr data ok s' hv h
    unfold writeu8 at h
    rw [(isValidAddress_iff s addr 1).2 hv] at h
    simp only [Bool.not_true, Bool.false_eq_true, if_false] at h
    split at h
    · cases h
    · rename_i ret s1 hw
      obtain ⟨sw, cs, hwait, -, -, hok⟩ := verifyBlock_log env fuel s1 addr _ 0 1 ok s' h
      have hm := WriteBlock_mem env fuel s addr (fun _ => data) 0 1 ret s1 hw
      refine ⟨ret, s1, hw, ?_, h, ?_, ?_⟩
      · rw [writeCodes_WriteBlock env fuel s addr _ 0 1 ret s1 hw]
        rfl
      · intro hne
        rw [hm, if_neg hne]
      · intro hne hdiff sw2 hwait2 hrec
        rw [hwait] at hwait2
        cases hwait2
        cases ok with
        | false => rfl
        | true =>
          have h0 := (hok.1 rfl).2 0 (by omega)
          rw [hm, if_neg hne, Nat.add_zero, Nat.mod_mod] at h0
          exact absurd h0.symm hdiff
  · intro addr buf length ok s' hv h
    unfold writeArray at h
    rw [(isValidAddress_iff s addr length).2 hv] at h
    simp only [Bool.not_true, Bool.false_eq_true, if_false] at h
    split at h
    · cases h
    · rename_i r1 s1 hw
      exact ⟨r1, s1, hw, h⟩
  · intro addr val ok s' hv h
    unfold updateu8 at h
    rw [(isValidAddress_iff s addr 1).2 hv] at h
    simp only [Bool.not_true, Bool.false_eq_true, if_false] at h
    split at h
    · cases h
    · rename_i rd s1 hr
      refine ⟨rd, s1, hr, ?_, ?_⟩
      · intro he
        rw [if_pos he] at h
        simp only [Option.some.injEq, Prod.mk.injEq] at h
        exact ⟨h.1.symm, h.2.symm⟩
      · intro hne
        rw [if_neg hne] at h
        exact h

/-- C11 (counterexample): an AT24LC32 that holds 90 at address 0, on a bus that does not
acknowledge the first transmission and serves reads in full: the write transaction of
`writeu8(0, 90)` ends with completion code 2, and `writeu8` returns true. -/
theorem writeu8_true_after_failed_write :
    (writeu8 (faultyEnv Build.other AT24LC.AT24LC32 0 (fun q => q)) 1
        (new (fun _ => 90) 80 AT24LC.AT24LC32 (-1)) 0 90).map
      (fun r => (r.1, writeCodes (new (fun _ => 90) 80 AT24LC.AT24LC32 (-1)) r.2, r.2.log)) =
    some (true, [2],
      [Event.writeBlock 0 1, Event.transmission 80 [0, 0, 90] 2, Event.i2cError 80 2,
       Event.verifyBlock 0 1, Event.transmission 80 [0, 0] 0, Event.requestFrom 80 1 1]) := by
  decide

end I2CEEPROM
